import Mathlib

/-!
# Banker's algorithm: safety check and resource request

A shallow embedding of `src/banker-algorithm.js` (class `BankerAlgorithm`).

* The spec's data model is integer valued, and the cells of a state are
  integers (`Int`).  The numbers of the source are IEEE 754 doubles: every
  integer of magnitude at most `2 ^ 53` is such a number, and a sum or
  difference is rounded to the nearest number.  The methods that add or
  subtract are therefore written twice: with exact integer arithmetic
  (`checkSafety`, `requestResources`, `calculateNeed`, ...) and with the
  arithmetic of the source (`checkSafetyRounded`, `requestResourcesRounded`,
  `calculateNeedRounded`, ...).  The two agree as long as every sum and
  difference formed has magnitude at most `2 ^ 53` (`checkSafetyRounded_eq`,
  `requestResourcesRounded_eq`, `applyOpsRounded_eq`).  A statement that holds
  only within that bound is made of the second, with the bound as hypothesis.
* Numbers that are not integers, `NaN` and `Infinity` are not part of the
  model, nor are the engine's limits on memory.  The limit on the length of
  an array (`2 ^ 32 - 1`) is part of `initializeState` and `checkSafetyRounded`.
* Arrays are lists.  A read past the end of an array gives `undefined` in
  JavaScript; every such read is spelled out below, with what the program
  does next: a comparison with `undefined` is false, reading a property of
  `undefined` throws a `TypeError`, arithmetic with `undefined` gives `NaN`.
* A write `a[i] = v` inside an array replaces the entry and at `i = a.length`
  makes the array one longer; any other write makes a sparse array or sets a
  property, which a list cannot hold.
* A method of the class that changes `this` returns the new state next to its
  outcome, so the state left behind by a call that throws is visible too.
* `exportJSON` and `importJSON` are modelled on JSON values; the text that
  `JSON.stringify` writes and `JSON.parse` reads is not.
-/

namespace Banker

/-! ## The data model -/

/-- Ways in which a run leaves the integer-matrix model. -/
inductive JSError where
  /-- A property is read from `undefined` (a row that is not there), or
  `undefined` is spread: JavaScript throws a `TypeError`. -/
  | typeError
  /-- The call `new Array(n)` with `n < 0` or `n >= 2 ^ 32`, or `Array.from` with
  a `length` of `2 ^ 32` or more: JavaScript throws a `RangeError`. -/
  | rangeError
  /-- Arithmetic reads a cell that is not there.  JavaScript does not throw: it
  goes on with `NaN` in that cell.  The integer model has no such value and
  stops here. -/
  | notANumber
  /-- The bound given to the `while` loop of `checkSafety` was used up while the
  loop condition still held (`checkSafety_fuel_suffices`: this never happens). -/
  | outOfFuel
  /-- JavaScript goes on with a value the model has no room for: a sparse array
  or an array property (a write past the end of an array or at a negative
  index), an imported field that is not an integer, a vector of integers or
  a matrix of integers, or a sum or difference that is `Infinity`.  JavaScript
  does not throw; the model stops here, and the state given with this outcome
  is not the state JavaScript goes on with. -/
  | notInModel
  deriving DecidableEq, Repr

deriving instance DecidableEq for Except

/-- The fields of a `BankerAlgorithm` object (constructor, lines 4-11). -/
structure BankerAlgorithm where
  processes : Int
  resources : Int
  available : List Int
  max : List (List Int)
  allocation : List (List Int)
  need : List (List Int)
  deriving DecidableEq, Repr

/-- The read `a[i]` for a number `i`: `undefined` (here `none`) outside the array. -/
def index {α : Type} (a : List α) (i : Int) : Option α :=
  if 0 ≤ i then a[i.toNat]? else none

/-- The write `a[i] = v` for a number `i`: inside the array the entry is
replaced, at `i = a.length` the array grows by one, anywhere else JavaScript
makes a sparse array or sets a property (`none`: not a list). -/
def assign {α : Type} (a : List α) (i : Int) (v : α) : Option (List α) :=
  if 0 ≤ i ∧ i.toNat < a.length then some (a.set i.toNat v)
  else if i = (a.length : Int) then some (a ++ [v])
  else none

/-! ## The state and its setters (lines 13-46) -/

/-- The method `initialize(processes, resources)` (lines 13-20).  The two
counts are stored first.  `new Array(resources)` throws a `RangeError` unless
`0 <= resources < 2 ^ 32`, before anything else is assigned.  `Array.from` with
a negative `length` gives an empty array, and with a `length` of `2 ^ 32` or
more it throws a `RangeError`; by then Available has been assigned. -/
def initializeState (b : BankerAlgorithm) (processes resources : Int) :
    BankerAlgorithm × Except JSError Unit :=
  if resources < 0 ∨ 4294967296 ≤ resources then
    ({ b with processes := processes, resources := resources }, .error .rangeError)
  else if 4294967296 ≤ processes then
    ({ b with processes := processes, resources := resources,
              available := List.replicate resources.toNat 0 }, .error .rangeError)
  else
    ({ processes := processes
       resources := resources
       available := List.replicate resources.toNat 0
       max := List.replicate processes.toNat (List.replicate resources.toNat 0)
       allocation := List.replicate processes.toNat (List.replicate resources.toNat 0)
       need := List.replicate processes.toNat (List.replicate resources.toNat 0) }, .ok ())

/-- The method `setAvailable(values)` (lines 22-24). -/
def setAvailable (b : BankerAlgorithm) (values : List Int) : BankerAlgorithm :=
  { b with available := values }

/-- The loop of `calculateNeed` on the three rows of one process, from index `j`
with `n` rounds to go: `need[j] = max[j] - allocation[j]`. -/
def needLoop (maxRow allocationRow : List Int) : Nat → Nat → List Int → Except JSError (List Int)
  | 0, _, needRow => .ok needRow
  | n + 1, j, needRow =>
    match maxRow[j]?, allocationRow[j]? with
    | some m, some a =>
      match assign needRow j (m - a) with
      | some row => needLoop maxRow allocationRow n (j + 1) row
      | none => .error .notInModel
    | _, _ => .error .notANumber

/-- The method `calculateNeed(processIndex)` (lines 36-40).  With no resource
the loop body never runs; otherwise a missing row of Need, Max or Allocation
makes the first round throw. -/
def calculateNeed (b : BankerAlgorithm) (processIndex : Int) :
    BankerAlgorithm × Except JSError Unit :=
  if b.resources.toNat = 0 then (b, .ok ())
  else
    match index b.need processIndex, index b.max processIndex,
        index b.allocation processIndex with
    | some needRow, some maxRow, some allocationRow =>
      match needLoop maxRow allocationRow b.resources.toNat 0 needRow with
      | .ok row => ({ b with need := b.need.set processIndex.toNat row }, .ok ())
      | .error e => (b, .error e)
    | _, _, _ => (b, .error .typeError)

/-- The method `setMax(processIndex, values)` (lines 26-29): the row is stored,
then Need is recomputed for that row. -/
def setMax (b : BankerAlgorithm) (processIndex : Int) (values : List Int) :
    BankerAlgorithm × Except JSError Unit :=
  match assign b.max processIndex values with
  | none => (b, .error .notInModel)
  | some m => calculateNeed { b with max := m } processIndex

/-- The method `setAllocation(processIndex, values)` (lines 31-34). -/
def setAllocation (b : BankerAlgorithm) (processIndex : Int) (values : List Int) :
    BankerAlgorithm × Except JSError Unit :=
  match assign b.allocation processIndex values with
  | none => (b, .error .notInModel)
  | some m => calculateNeed { b with allocation := m } processIndex

/-- The loop of `calculateAllNeeds`, from index `i` with `n` rounds to go; a
throw in `calculateNeed` ends it. -/
def allNeedsLoop : Nat → Nat → BankerAlgorithm → BankerAlgorithm × Except JSError Unit
  | 0, _, b => (b, .ok ())
  | n + 1, i, b =>
    match calculateNeed b (i : Int) with
    | (b1, .ok _) => allNeedsLoop n (i + 1) b1
    | (b1, .error e) => (b1, .error e)

/-- The method `calculateAllNeeds()` (lines 42-46). -/
def calculateAllNeeds (b : BankerAlgorithm) : BankerAlgorithm × Except JSError Unit :=
  allNeedsLoop b.processes.toNat 0 b

/-! ## Vector arithmetic (lines 48-64) -/

/-- The test `v1[i] > v2[i]`; with `undefined` on either side it is false. -/
def greater (x y : Option Int) : Bool :=
  match x, y with
  | some a, some b => decide (a > b)
  | _, _ => false

/-- The method `vectorLessOrEqual(v1, v2)`: the loop runs over the indices of `v1`
and returns false at the first `v1[i] > v2[i]`.  Either argument may be
`undefined` (`none`): `v1.length` then throws, and so does `v2[i]` once the
loop body runs. -/
def vectorLessOrEqual (v1 v2 : Option (List Int)) : Except JSError Bool :=
  match v1, v2 with
  | none, _ => .error .typeError
  | some [], _ => .ok true
  | some (_ :: _), none => .error .typeError
  | some a, some b => .ok ((List.range a.length).all fun i => !greater a[i]? b[i]?)

/-- The method `vectorAdd(v1, v2)`, that is `v1.map((val, i) => val + v2[i])`:
the result has the length of `v1`; where `v2` is too short the sum is `NaN`. -/
def vectorAdd : List Int → List Int → Except JSError (List Int)
  | [], _ => .ok []
  | _ :: _, [] => .error .notANumber
  | x :: xs, y :: ys =>
    match vectorAdd xs ys with
    | .ok r => .ok ((x + y) :: r)
    | .error e => .error e

/-- The method `vectorSubtract(v1, v2)`, that is `v1.map((val, i) => val - v2[i])`. -/
def vectorSubtract : List Int → List Int → Except JSError (List Int)
  | [], _ => .ok []
  | _ :: _, [] => .error .notANumber
  | x :: xs, y :: ys =>
    match vectorSubtract xs ys with
    | .ok r => .ok ((x - y) :: r)
    | .error e => .error e

/-! ## The safety algorithm (lines 66-133) -/

/-- The `description` text of a trace step. -/
inductive StepDescription where
  /-- The text is: Initialize Work = Available, Finish[i] = false. -/
  | init
  /-- The text is: Process P i can finish. Need[i] ≤ Work. -/
  | canFinish (i : Nat)
  /-- The text is: System is in SAFE state, or UNSAFE, by the flag. -/
  | verdict (isSafe : Bool)
  deriving DecidableEq, Repr

/-- One entry of the `steps` trace. -/
structure Step where
  step : Nat
  processIndex : Option Nat
  description : StepDescription
  work : List Int
  finish : List Bool
  safeSequence : List Nat
  isSafe : Option Bool
  deriving DecidableEq, Repr

/-- The local variables of `checkSafety`. -/
structure Locals where
  work : List Int
  finish : List Bool
  safeSequence : List Nat
  steps : List Step
  found : Bool
  iteration : Nat
  deriving DecidableEq, Repr

/-- The value `checkSafety` returns. -/
structure SafetyResult where
  isSafe : Bool
  safeSequence : List Nat
  steps : List Step
  deriving DecidableEq, Repr

/-- Lines 93-95: `for (let j = 0; j < this.resources; j++) work[j] +=
this.allocation[i][j]`, from index `j` with `n` rounds to go.  The row
`this.allocation[i]` is passed as read (`none` when it is not there). -/
def addAllocation (allocationRow : Option (List Int)) : Nat → Nat → List Int → Except JSError (List Int)
  | 0, _, work => .ok work
  | n + 1, j, work =>
    match allocationRow with
    | none => .error .typeError
    | some row =>
      match work[j]?, row[j]? with
      | some w, some a => addAllocation allocationRow n (j + 1) (work.set j (w + a))
      | _, _ => .error .notANumber

/-- Lines 90-112: the `for` loop over the processes, from index `i` with `n`
rounds to go; it stops (`break`) at the first process it admits. -/
def scan (b : BankerAlgorithm) (stepByStep : Bool) : Nat → Nat → Locals → Except JSError Locals
  | 0, _, st => .ok st
  | n + 1, i, st =>
    if (st.finish[i]?).getD false then scan b stepByStep n (i + 1) st
    else
      match vectorLessOrEqual b.need[i]? (some st.work) with
      | .error e => .error e
      | .ok false => scan b stepByStep n (i + 1) st
      | .ok true =>
        match addAllocation b.allocation[i]? b.resources.toNat 0 st.work with
        | .error e => .error e
        | .ok work =>
          let finish := st.finish.set i true
          let safeSequence := st.safeSequence ++ [i]
          .ok { work := work
                finish := finish
                safeSequence := safeSequence
                steps :=
                  if stepByStep then
                    st.steps ++ [{ step := st.iteration
                                   processIndex := some i
                                   description := .canFinish i
                                   work := work
                                   finish := finish
                                   safeSequence := safeSequence
                                   isSafe := none }]
                  else st.steps
                found := true
                iteration := st.iteration }

/-- Lines 86-113: `while (found && safeSequence.length < this.processes)`.  The
first argument bounds the number of rounds. -/
def whileLoop (b : BankerAlgorithm) (stepByStep : Bool) : Nat → Locals → Except JSError Locals
  | 0, st =>
    if st.found && decide ((st.safeSequence.length : Int) < b.processes) then .error .outOfFuel
    else .ok st
  | fuel + 1, st =>
    if st.found && decide ((st.safeSequence.length : Int) < b.processes) then
      match scan b stepByStep b.processes.toNat 0
          { st with found := false, iteration := st.iteration + 1 } with
      | .error e => .error e
      | .ok st1 => whileLoop b stepByStep fuel st1
    else .ok st

/-- The method `checkSafety(stepByStep)`.  It does not write to `this`. -/
def checkSafety (b : BankerAlgorithm) (stepByStep : Bool) : Except JSError SafetyResult :=
  if b.processes < 0 then .error .rangeError
  else
    let work := b.available
    let finish := List.replicate b.processes.toNat false
    let steps : List Step :=
      if stepByStep then
        [{ step := 0
           processIndex := none
           description := .init
           work := work
           finish := finish
           safeSequence := []
           isSafe := none }]
      else []
    match whileLoop b stepByStep (b.processes.toNat + 1)
        { work := work, finish := finish, safeSequence := [], steps := steps,
          found := true, iteration := 0 } with
    | .error e => .error e
    | .ok st =>
      let isSafe := decide ((st.safeSequence.length : Int) = b.processes)
      .ok { isSafe := isSafe
            safeSequence := st.safeSequence
            steps :=
              if stepByStep then
                st.steps ++ [{ step := st.iteration + 1
                               processIndex := none
                               description := .verdict isSafe
                               work := st.work
                               finish := st.finish
                               safeSequence := st.safeSequence
                               isSafe := some isSafe }]
              else st.steps }

/-! ## The resource request algorithm (lines 135-188) -/

/-- The object `requestResources` returns; the two early denials carry no
`safeSequence` field. -/
structure RequestResult where
  approved : Bool
  reason : String
  message : String
  safeSequence : Option (List Nat)
  deriving DecidableEq, Repr

/-- The method `requestResources(processIndex, request)`.  The first component
is `this` after the call, the second what the call returns or throws. -/
def requestResources (b : BankerAlgorithm) (processIndex : Int) (request : List Int) :
    BankerAlgorithm × Except JSError RequestResult :=
  -- Step 1: request <= need
  match vectorLessOrEqual (some request) (index b.need processIndex) with
  | .error e => (b, .error e)
  | .ok false =>
    (b, .ok { approved := false, reason := "request_exceeds",
              message := "Request exceeds maximum claim (Need)", safeSequence := none })
  | .ok true =>
    -- Step 2: request <= available
    match vectorLessOrEqual (some request) (some b.available) with
    | .error e => (b, .error e)
    | .ok false =>
      (b, .ok { approved := false, reason := "insufficient_resources",
                message := "Insufficient resources available", safeSequence := none })
    | .ok true =>
      -- Step 3: pretend to allocate
      let originalAvailable := b.available
      match index b.allocation processIndex with
      | none => (b, .error .typeError)
      | some originalAllocation =>
        match index b.need processIndex with
        | none => (b, .error .typeError)
        | some originalNeed =>
          match vectorSubtract b.available request with
          | .error e => (b, .error e)
          | .ok available =>
            let b1 := { b with available := available }
            match vectorAdd originalAllocation request with
            | .error e => (b1, .error e)
            | .ok allocationRow =>
              let b2 := { b1 with allocation := b1.allocation.set processIndex.toNat allocationRow }
              match vectorSubtract originalNeed request with
              | .error e => (b2, .error e)
              | .ok needRow =>
                let b3 := { b2 with need := b2.need.set processIndex.toNat needRow }
                -- Step 4: run the safety algorithm
                match checkSafety b3 false with
                | .error e => (b3, .error e)
                | .ok safetyResult =>
                  if safetyResult.isSafe then
                    (b3, .ok { approved := true, reason := "safe",
                               message := "Request approved - system remains safe",
                               safeSequence := some safetyResult.safeSequence })
                  else
                    ({ b3 with
                        available := originalAvailable
                        allocation := b3.allocation.set processIndex.toNat originalAllocation
                        need := b3.need.set processIndex.toNat originalNeed },
                     .ok { approved := false, reason := "unsafe",
                           message := "Request denied - would lead to unsafe state",
                           safeSequence := some [] })

/-! ## Export and import (lines 190-217) -/

/-- A JSON value, as `JSON.parse` returns it and `JSON.stringify` takes it.
Numbers are integers.  The text between the two built-ins is not modelled:
`JSON.parse(JSON.stringify(v))` is taken to give back `v`. -/
inductive Json where
  | null
  | bool (b : Bool)
  | num (n : Int)
  | str (s : String)
  | arr (items : List Json)
  | obj (members : List (String × Json))

/-- The property read `data.key`: `undefined` (`none`) when `data` is not an
object or has no such member; of members with the same name the last one counts. -/
def Json.member (data : Json) (key : String) : Option Json :=
  match data with
  | .obj members => members.reverse.lookup key
  | _ => none

/-- An integer as a JSON value, read back. -/
def Json.asInt : Json → Option Int
  | .num n => some n
  | _ => none

/-- A list of JSON values read as a vector of integers. -/
def Json.asInts : List Json → Option (List Int)
  | [] => some []
  | x :: xs =>
    match x.asInt, Json.asInts xs with
    | some n, some r => some (n :: r)
    | _, _ => none

/-- A JSON array of integers read as a vector. -/
def Json.asVector : Json → Option (List Int)
  | .arr items => Json.asInts items
  | _ => none

/-- A list of JSON values read as the rows of a matrix. -/
def Json.asRows : List Json → Option (List (List Int))
  | [] => some []
  | x :: xs =>
    match x.asVector, Json.asRows xs with
    | some v, some r => some (v :: r)
    | _, _ => none

/-- A JSON array of arrays of integers read as a matrix. -/
def Json.asMatrix : Json → Option (List (List Int))
  | .arr items => Json.asRows items
  | _ => none

/-- A vector as a JSON array. -/
def Json.ofVector (v : List Int) : Json :=
  .arr (v.map .num)

/-- A matrix as a JSON array of arrays. -/
def Json.ofMatrix (m : List (List Int)) : Json :=
  .arr (m.map Json.ofVector)

/-- The method `exportJSON()` (lines 191-200): the object handed to
`JSON.stringify`. -/
def exportJSON (b : BankerAlgorithm) : Json :=
  .obj [("processes", .num b.processes),
        ("resources", .num b.resources),
        ("available", Json.ofVector b.available),
        ("max", Json.ofMatrix b.max),
        ("allocation", Json.ofMatrix b.allocation),
        ("need", Json.ofMatrix b.need)]

/-- The method `importJSON(jsonString)` (lines 203-217), given what
`JSON.parse(jsonString)` returns (`none` when it throws).  A throw inside `try`
gives `false` with nothing assigned; otherwise the six fields are assigned as
they come and the method returns `true`.  When a field is missing or is not an
integer, a vector or a matrix of integers, JavaScript assigns it all the same
and returns `true` (`importJSONReturns`); the state it leaves is not one of
this model, which stops with `notInModel`. -/
def importJSON (b : BankerAlgorithm) (parsed : Option Json) :
    BankerAlgorithm × Except JSError Bool :=
  match parsed with
  | none => (b, .ok false)
  | some .null => (b, .ok false)
  | some data =>
    match (data.member "processes").bind Json.asInt,
        (data.member "resources").bind Json.asInt,
        (data.member "available").bind Json.asVector,
        (data.member "max").bind Json.asMatrix,
        (data.member "allocation").bind Json.asMatrix,
        (data.member "need").bind Json.asMatrix with
    | some processes, some resources, some available, some max, some allocation, some need =>
      ({ processes := processes, resources := resources, available := available,
         max := max, allocation := allocation, need := need }, .ok true)
    | _, _, _, _, _, _ => (b, .error .notInModel)

/-- The method `clone()` (lines 250-259): a fresh object with copies of the fields. -/
def clone (b : BankerAlgorithm) : BankerAlgorithm :=
  { processes := b.processes
    resources := b.resources
    available := b.available.map id
    max := b.max.map fun row => row.map id
    allocation := b.allocation.map fun row => row.map id
    need := b.need.map fun row => row.map id }

/-! ## Presets (lines 262-319, and `loadPreset` of `app.js`) -/

/-- An entry of `demoScenarios`. -/
structure Preset where
  name : String
  processes : Int
  resources : Int
  available : List Int
  max : List (List Int)
  allocation : List (List Int)
  deriving DecidableEq, Repr

/-- The array `demoScenarios` (lines 263-319). -/
def demoScenarios : List Preset :=
  [{ name := "Safe State Example 1"
     processes := 5
     resources := 3
     available := [3, 3, 2]
     max := [[7, 5, 3], [3, 2, 2], [9, 0, 2], [2, 2, 2], [4, 3, 3]]
     allocation := [[0, 1, 0], [2, 0, 0], [3, 0, 2], [2, 1, 1], [0, 0, 2]] },
   { name := "Unsafe State Example"
     processes := 3
     resources := 2
     available := [0, 0]
     max := [[3, 3], [2, 2], [2, 2]]
     allocation := [[2, 2], [1, 1], [1, 1]] },
   { name := "Banking Scenario - Safe Loans"
     processes := 4
     resources := 3
     available := [500000, 300000, 200000]
     max := [[300000, 100000, 50000], [200000, 150000, 75000], [400000, 80000, 30000],
             [250000, 120000, 60000]]
     allocation := [[100000, 50000, 20000], [150000, 80000, 40000], [200000, 30000, 10000],
                    [100000, 60000, 30000]] }]

/-- The function `loadPreset(index)` of `app.js` (lines 1109-1119), as far as
the state goes: initialize, copy the three fields of the preset, recompute Need. -/
def loadPreset (b : BankerAlgorithm) (index : Nat) : BankerAlgorithm × Except JSError Unit :=
  match demoScenarios[index]? with
  | none => (b, .error .typeError)
  | some preset =>
    match initializeState b preset.processes preset.resources with
    | (b1, .error e) => (b1, .error e)
    | (b1, .ok _) =>
      calculateAllNeeds
        { b1 with available := preset.available, max := preset.max,
                  allocation := preset.allocation }

/-! ## Sequences of calls -/

/-- A call of one of the methods that change the state. -/
inductive Op where
  | setAvailable (values : List Int)
  | setMax (processIndex : Int) (values : List Int)
  | setAllocation (processIndex : Int) (values : List Int)
  | calculateNeed (processIndex : Int)
  | calculateAllNeeds
  | requestResources (processIndex : Int) (request : List Int)
  deriving DecidableEq, Repr

/-- The state after one call, and whether the call threw. -/
def applyOp (b : BankerAlgorithm) : Op → BankerAlgorithm × Except JSError Unit
  | .setAvailable values => (setAvailable b values, .ok ())
  | .setMax i values => setMax b i values
  | .setAllocation i values => setAllocation b i values
  | .calculateNeed i => calculateNeed b i
  | .calculateAllNeeds => calculateAllNeeds b
  | .requestResources i request =>
    match requestResources b i request with
    | (b1, .ok _) => (b1, .ok ())
    | (b1, .error e) => (b1, .error e)

/-- The calls of a list made one after the other; the first throw ends the run. -/
def applyOps (b : BankerAlgorithm) : List Op → BankerAlgorithm × Except JSError Unit
  | [] => (b, .ok ())
  | op :: ops =>
    match applyOp b op with
    | (b1, .ok _) => applyOps b1 ops
    | (b1, .error e) => (b1, .error e)

/-! ## The vocabulary of the specification -/

/-- Invariant 5 of the data model: the vector and the three matrices share the
same `P` and `R`. -/
def WellShaped (b : BankerAlgorithm) : Prop :=
  (b.available.length : Int) = b.resources ∧
  ((b.max.length : Int) = b.processes ∧ ∀ row ∈ b.max, (row.length : Int) = b.resources) ∧
  ((b.allocation.length : Int) = b.processes ∧
    ∀ row ∈ b.allocation, (row.length : Int) = b.resources) ∧
  ((b.need.length : Int) = b.processes ∧ ∀ row ∈ b.need, (row.length : Int) = b.resources)

instance (b : BankerAlgorithm) : Decidable (WellShaped b) := by
  unfold WellShaped; infer_instance

/-- Entry `m[i][j]` of a matrix (0 where there is no such entry). -/
def entry (m : List (List Int)) (i j : Nat) : Int :=
  (m.getD i []).getD j 0

/-- Component `j` of Available plus the Allocation rows of the processes in `done`. -/
def workAfter (b : BankerAlgorithm) (done : List Nat) (j : Nat) : Int :=
  b.available.getD j 0 + (done.map fun p => entry b.allocation p j).sum

/-- The Need row of process `i` is componentwise at most Available plus the
Allocation rows of the processes in `done`. -/
def Eligible (b : BankerAlgorithm) (done : List Nat) (i : Nat) : Prop :=
  ∀ j, j < b.resources.toNat → entry b.need i j ≤ workAfter b done j

instance (b : BankerAlgorithm) (done : List Nat) (i : Nat) : Decidable (Eligible b done i) := by
  unfold Eligible; infer_instance

/-- A valid completion order: every process index `0..P-1` exactly once, each
process eligible after the ones before it. -/
def ValidCompletionOrder (b : BankerAlgorithm) (seq : List Nat) : Prop :=
  seq.Perm (List.range b.processes.toNat) ∧
  ∀ k, k < seq.length → Eligible b (seq.take k) (seq.getD k 0)

instance (b : BankerAlgorithm) (seq : List Nat) : Decidable (ValidCompletionOrder b seq) := by
  unfold ValidCompletionOrder; infer_instance

/-- Position `k` of `seq` holds the smallest process index that is not among
`seq[0..k-1]` and is eligible after them. -/
def LowestIndexFirstAt (b : BankerAlgorithm) (seq : List Nat) (k : Nat) : Prop :=
  seq.getD k 0 < b.processes.toNat ∧
  seq.getD k 0 ∉ seq.take k ∧
  Eligible b (seq.take k) (seq.getD k 0) ∧
  ∀ i, i < seq.getD k 0 → i ∉ seq.take k → ¬ Eligible b (seq.take k) i

instance (b : BankerAlgorithm) (seq : List Nat) (k : Nat) :
    Decidable (LowestIndexFirstAt b seq k) := by
  unfold LowestIndexFirstAt; infer_instance

/-- Every position of `seq` follows the lowest-index-first rule. -/
def LowestIndexFirst (b : BankerAlgorithm) (seq : List Nat) : Prop :=
  ∀ k, k < seq.length → LowestIndexFirstAt b seq k

instance (b : BankerAlgorithm) (seq : List Nat) : Decidable (LowestIndexFirst b seq) := by
  unfold LowestIndexFirst; infer_instance

/-- No process outside `done` is eligible after `done`: the scan has nothing to admit. -/
def Stuck (b : BankerAlgorithm) (done : List Nat) : Prop :=
  ∀ i, i < b.processes.toNat → i ∉ done → ¬ Eligible b done i

instance (b : BankerAlgorithm) (done : List Nat) : Decidable (Stuck b done) := by
  unfold Stuck; infer_instance

/-- Componentwise `request <= v` over the first `R` components. -/
def Within (b : BankerAlgorithm) (request v : List Int) : Prop :=
  ∀ j, j < b.resources.toNat → request.getD j 0 ≤ v.getD j 0

instance (b : BankerAlgorithm) (request v : List Int) : Decidable (Within b request v) := by
  unfold Within; infer_instance

/-- Spec 4.4 step 5, the speculative apply, in the words of the specification:
`Available -= request`, `Allocation[i] += request`, `Need[i] -= request`,
everything else as it was. -/
def speculativeApply (b : BankerAlgorithm) (i : Nat) (request : List Int) : BankerAlgorithm :=
  { b with
    available := List.zipWith (fun x y => x - y) b.available request
    allocation := b.allocation.set i (List.zipWith (fun x y => x + y) (b.allocation.getD i []) request)
    need := b.need.set i (List.zipWith (fun x y => x - y) (b.need.getD i []) request) }

/-- The denial of a request above Need, as `requestResources` builds it. -/
def deniedRequestExceeds : RequestResult :=
  { approved := false, reason := "request_exceeds",
    message := "Request exceeds maximum claim (Need)", safeSequence := none }

/-- The denial of a request above Available. -/
def deniedInsufficient : RequestResult :=
  { approved := false, reason := "insufficient_resources",
    message := "Insufficient resources available", safeSequence := none }

/-- The denial of a request whose speculative state is not safe. -/
def deniedNotSafe : RequestResult :=
  { approved := false, reason := "unsafe",
    message := "Request denied - would lead to unsafe state", safeSequence := some [] }

/-- The approval, with the safe sequence found. -/
def approvedWith (seq : List Nat) : RequestResult :=
  { approved := true, reason := "safe",
    message := "Request approved - system remains safe", safeSequence := some seq }

/-- Invariant 2 of the data model: `Need[i][j] = Max[i][j] - Allocation[i][j]`
for every process `i` and resource `j`. -/
def NeedConsistent (b : BankerAlgorithm) : Prop :=
  ∀ i, i < b.processes.toNat → ∀ j, j < b.resources.toNat →
    entry b.need i j = entry b.max i j - entry b.allocation i j

instance (b : BankerAlgorithm) : Decidable (NeedConsistent b) := by
  unfold NeedConsistent; infer_instance

/-- Invariant 1 of the data model: `Allocation[i][j] <= Max[i][j]` throughout. -/
def AllocationWithinMax (b : BankerAlgorithm) : Prop :=
  ∀ i, i < b.processes.toNat → ∀ j, j < b.resources.toNat →
    entry b.allocation i j ≤ entry b.max i j

instance (b : BankerAlgorithm) : Decidable (AllocationWithinMax b) := by
  unfold AllocationWithinMax; infer_instance

/-- Invariant 3 of the data model: `Available[j] >= 0` throughout. -/
def AvailableNonneg (b : BankerAlgorithm) : Prop :=
  ∀ j, j < b.resources.toNat → 0 ≤ b.available.getD j 0

instance (b : BankerAlgorithm) : Decidable (AvailableNonneg b) := by
  unfold AvailableNonneg; infer_instance

/-- The quantity of invariant 4: the Allocation of all processes in resource
`j`, plus `Available[j]`. -/
def totalSupply (b : BankerAlgorithm) (j : Nat) : Int :=
  (b.allocation.map fun row => row.getD j 0).sum + b.available.getD j 0

/-- The arguments of a call are as the specification asks: process indices in
`[0, P)`, vectors of length `R`. -/
def Op.Valid (processes resources : Int) : Op → Prop
  | .setAvailable values => (values.length : Int) = resources
  | .setMax i values => 0 ≤ i ∧ i < processes ∧ (values.length : Int) = resources
  | .setAllocation i values => 0 ≤ i ∧ i < processes ∧ (values.length : Int) = resources
  | .calculateNeed i => 0 ≤ i ∧ i < processes
  | .calculateAllNeeds => True
  | .requestResources i request =>
    0 ≤ i ∧ i < processes ∧ (request.length : Int) = resources

instance (processes resources : Int) (op : Op) : Decidable (op.Valid processes resources) := by
  cases op <;> unfold Op.Valid <;> infer_instance

/-- Allocation has no negative entry. -/
def AllocationNonneg (b : BankerAlgorithm) : Prop :=
  ∀ row ∈ b.allocation, ∀ x ∈ row, (0 : Int) ≤ x

instance (b : BankerAlgorithm) : Decidable (AllocationNonneg b) := by
  unfold AllocationNonneg; infer_instance

/-- An input the request evaluator is specified for: a process index in
`[0, P)` and a request of length `R`. -/
def ValidRequest (b : BankerAlgorithm) (processIndex : Int) (request : List Int) : Prop :=
  0 ≤ processIndex ∧ processIndex < b.processes ∧ (request.length : Int) = b.resources

instance (b : BankerAlgorithm) (processIndex : Int) (request : List Int) :
    Decidable (ValidRequest b processIndex request) := by
  unfold ValidRequest; infer_instance

/-! ## Devices of the proofs -/

/-- The loop invariant of `checkSafety` on a well-shaped state: `work` is
Available plus the Allocation rows of the admitted processes, `finish` flags
exactly the admitted processes, and the admitted sequence follows the
lowest-index-first rule. -/
structure LoopInv (b : BankerAlgorithm) (st : Locals) : Prop where
  work_length : st.work.length = b.resources.toNat
  work_eq : ∀ j, j < b.resources.toNat → st.work.getD j 0 = workAfter b st.safeSequence j
  finish_length : st.finish.length = b.processes.toNat
  finish_iff : ∀ i, i < b.processes.toNat →
    ((st.finish[i]?).getD false = true ↔ i ∈ st.safeSequence)
  nodup : st.safeSequence.Nodup
  lt : ∀ x ∈ st.safeSequence, x < b.processes.toNat
  lowest : LowestIndexFirst b st.safeSequence

/-- What `requestResources` leaves and returns once `checkSafety` has answered
on the speculative state: commit on safe, roll back otherwise. -/
def settle (b speculative : BankerAlgorithm) :
    Except JSError SafetyResult → BankerAlgorithm × Except JSError RequestResult
  | .error e => (speculative, .error e)
  | .ok r =>
    if r.isSafe then (speculative, .ok (approvedWith r.safeSequence))
    else (b, .ok deniedNotSafe)

/-! ## Concrete states -/

/-- The first entry of `demoScenarios` (spec scenario 1, known safe) once loaded:
Need is Max - Allocation. -/
def demoScenario1 : BankerAlgorithm :=
  { processes := 5
    resources := 3
    available := [3, 3, 2]
    max := [[7, 5, 3], [3, 2, 2], [9, 0, 2], [2, 2, 2], [4, 3, 3]]
    allocation := [[0, 1, 0], [2, 0, 0], [3, 0, 2], [2, 1, 1], [0, 0, 2]]
    need := [[7, 4, 3], [1, 2, 2], [6, 0, 0], [0, 1, 1], [4, 3, 1]] }

/-- The second entry of `demoScenarios` (spec scenario 2, known unsafe) once loaded. -/
def demoScenario2 : BankerAlgorithm :=
  { processes := 3
    resources := 2
    available := [0, 0]
    max := [[3, 3], [2, 2], [2, 2]]
    allocation := [[2, 2], [1, 1], [1, 1]]
    need := [[1, 1], [1, 1], [1, 1]] }

/-- A state for spec scenarios 3 and 4: one process with Need `[2, 2, 2]`,
Available `[1, 0, 0]`. -/
def scenario3 : BankerAlgorithm :=
  { processes := 1
    resources := 3
    available := [1, 0, 0]
    max := [[2, 2, 2]]
    allocation := [[0, 0, 0]]
    need := [[2, 2, 2]] }

/-- Spec 4.2, `recomputeNeed(i)`, in the words of the specification: row `i` of
Need becomes row `i` of Max minus row `i` of Allocation, nothing else changes. -/
def recomputeNeed (b : BankerAlgorithm) (i : Nat) : BankerAlgorithm :=
  { b with
    need :=
      b.need.set i (List.zipWith (fun x y => x - y) (b.max.getD i []) (b.allocation.getD i [])) }

/-- What every call of a valid run keeps. -/
def Kept (P R : Int) (b : BankerAlgorithm) : Prop :=
  b.processes = P ∧ b.resources = R ∧ NeedConsistent b ∧ (0 ≤ P → WellShaped b)

/-- A run of calls on a 2 x 2 state, used as a witness. -/
def exampleRun : List Op :=
  [.setAvailable [3, 3], .setMax 0 [2, 2], .setMax 1 [3, 1], .setAllocation 0 [1, 0],
   .requestResources 1 [1, 1], .calculateNeed 1, .calculateAllNeeds]

/-- A state in which the scan admits process 0 and then has nothing to admit. -/
def stuckAfterOne : BankerAlgorithm :=
  { processes := 2
    resources := 1
    available := [1]
    max := [[1], [5]]
    allocation := [[0], [0]]
    need := [[1], [5]] }

/-- The export of scenario 1 with its `need` member overwritten by zeros. -/
def tamperedPayload : Json :=
  .obj [("processes", .num 5),
        ("resources", .num 3),
        ("available", Json.ofVector [3, 3, 2]),
        ("max", Json.ofMatrix [[7, 5, 3], [3, 2, 2], [9, 0, 2], [2, 2, 2], [4, 3, 3]]),
        ("allocation", Json.ofMatrix [[0, 1, 0], [2, 0, 0], [3, 0, 2], [2, 1, 1], [0, 0, 2]]),
        ("need", Json.ofMatrix [[0, 0, 0], [0, 0, 0], [0, 0, 0], [0, 0, 0], [0, 0, 0]])]

/-- The state of claim C30: one process, one resource, Available `[5]`,
Max `[[1]]`, Allocation `[[0]]`, Need `[[1]]`. -/
def oneByOne : BankerAlgorithm :=
  { processes := 1
    resources := 1
    available := [5]
    max := [[1]]
    allocation := [[0]]
    need := [[1]] }

/-- A payload with `processes = 2` whose `max` has one row, whose rows differ
in length from `resources`, and with negative entries. -/
def malformedPayload : Json :=
  .obj [("processes", .num 2),
        ("resources", .num 2),
        ("available", Json.ofVector [-1]),
        ("max", Json.ofMatrix [[1, 2, 3]]),
        ("allocation", Json.ofMatrix [[-5], [0, 0]]),
        ("need", Json.ofMatrix [])]

/-- One pass of the single continuous sweep: the processes from index `i` on,
`n` of them, each admitted as it is met if it is unfinished and its Need row is
within `work`; the sweep goes on from `i + 1` after an admission. -/
def sweepPass (b : BankerAlgorithm) : Nat → Nat → List Int → List Nat → List Int × List Nat
  | 0, _, work, done => (work, done)
  | n + 1, i, work, done =>
    if i ∉ done ∧ Within b (b.need.getD i []) work then
      sweepPass b n (i + 1) (List.zipWith (fun x y => x + y) work (b.allocation.getD i []))
        (done ++ [i])
    else sweepPass b n (i + 1) work done

/-- The passes of the single continuous sweep, wrapping around until a pass
admits no process; the first argument bounds the number of passes. -/
def sweepPasses (b : BankerAlgorithm) : Nat → List Int → List Nat → List Nat
  | 0, _, done => done
  | fuel + 1, work, done =>
    let next := sweepPass b b.processes.toNat 0 work done
    if next.2.length = done.length then done
    else sweepPasses b fuel next.1 next.2

/-- The alternative scan, written from the words of the specification and not
from the source (section 9, "a single continuous pass"; section 4.3, "continue
from i+1"), to be compared with `checkSafety`; the repository does not contain
it.  It is the sequence found when the scan goes on from `i + 1` after an
admission and wraps around until no progress.  A pass
that makes progress admits a process, so `P + 1` passes are enough. -/
def continuousSweep (b : BankerAlgorithm) : List Nat :=
  sweepPasses b (b.processes.toNat + 1) b.available []

/-- A second `calculateNeed` of row `i` changes nothing and returns normally. -/
def RowDone (b : BankerAlgorithm) (i : Nat) : Prop :=
  calculateNeed b (i : Int) = (b, .ok ())

/-- The locals with the trace left out. -/
def withoutSteps (st : Locals) : Locals :=
  { st with steps := [] }

/-- What a caller sees of a result when it does not look at the trace. -/
def verdict (r : SafetyResult) : Bool × List Nat :=
  (r.isSafe, r.safeSequence)

/-- The locals of `checkSafety` when the `while` loop is first reached
(lines 68-84). -/
def initialLocals (b : BankerAlgorithm) (stepByStep : Bool) : Locals :=
  { work := b.available
    finish := List.replicate b.processes.toNat false
    safeSequence := []
    steps :=
      if stepByStep then
        [{ step := 0
           processIndex := none
           description := .init
           work := b.available
           finish := List.replicate b.processes.toNat false
           safeSequence := []
           isSafe := none }]
      else []
    found := true
    iteration := 0 }

/-- What the loop of `checkSafety` keeps on every state, well shaped or not:
`finish` flags exactly the admitted processes, each admitted once, and
`iteration` counts the passes made. -/
structure CountInv (b : BankerAlgorithm) (st : Locals) : Prop where
  finish_length : st.finish.length = b.processes.toNat
  finish_iff : ∀ i, i < b.processes.toNat →
    ((st.finish[i]?).getD false = true ↔ i ∈ st.safeSequence)
  nodup : st.safeSequence.Nodup
  lt : ∀ x ∈ st.safeSequence, x < b.processes.toNat
  passes_found : st.found = true → st.iteration = st.safeSequence.length
  passes_stuck : st.found = false →
    st.iteration = st.safeSequence.length + 1 ∧ st.safeSequence.length < b.processes.toNat

/-- The vector Available plus the Allocation rows of the processes in `done`. -/
def workVector (b : BankerAlgorithm) (done : List Nat) : List Int :=
  (List.range b.resources.toNat).map (workAfter b done)

/-- The flags that mark the processes in `done` among `0..P-1`. -/
def finishFlags (b : BankerAlgorithm) (done : List Nat) : List Bool :=
  (List.range b.processes.toNat).map fun i => decide (i ∈ done)

/-- The first step of a trace (lines 73-81). -/
def initialStep (b : BankerAlgorithm) : Step :=
  { step := 0
    processIndex := none
    description := .init
    work := b.available
    finish := List.replicate b.processes.toNat false
    safeSequence := []
    isSafe := none }

/-- The step a trace holds for the admission at position `k` of `seq`: it is
numbered `k + 1` and carries the work vector and the flags as they stand right
after that admission. -/
def admissionStep (b : BankerAlgorithm) (seq : List Nat) (k : Nat) : Step :=
  { step := k + 1
    processIndex := some (seq.getD k 0)
    description := .canFinish (seq.getD k 0)
    work := workVector b (seq.take (k + 1))
    finish := finishFlags b (seq.take (k + 1))
    safeSequence := seq.take (k + 1)
    isSafe := none }

/-- The trace up to the verdict: the first step, then one step per admission. -/
def traceOf (b : BankerAlgorithm) (seq : List Nat) : List Step :=
  initialStep b :: (List.range seq.length).map (admissionStep b seq)

/-! ## The numbers of the source

A JavaScript number is an IEEE 754 double.  Every integer of magnitude at most
`2 ^ 53` is such a number, and a sum or difference of two numbers is the number
nearest to the exact result (round to nearest, ties to even).  The methods
above are written with exact integer arithmetic; the definitions of this
section are the same methods with every `+`, `-` and `+=` of the source rounded
as the source rounds it.  The two agree as long as every sum and difference
formed stays within `2 ^ 53` in magnitude (`checkSafetyRounded_eq`,
`requestResourcesRounded_eq`, `applyOpsRounded_eq`). -/

/-- The number of low bits of `n` that a significand of 53 bits cannot hold
(0 when `n < 2 ^ 53`); the first argument bounds the count. -/
def excessBits : Nat → Nat → Nat
  | 0, _ => 0
  | fuel + 1, n => if n < 2 ^ 53 then 0 else excessBits fuel (n / 2) + 1

/-- The natural number `n` rounded to 53 significant bits: to the nearest
multiple of `2 ^ e`, where `e` is the number of excess bits, and at a tie to
the multiple whose significand is even. -/
def roundNat (n : Nat) : Nat :=
  let e := excessBits 1024 n
  if e = 0 then n
  else
    let q := n / 2 ^ e
    let r := n % 2 ^ e
    let half := 2 ^ (e - 1)
    if r < half then q * 2 ^ e
    else if half < r then (q + 1) * 2 ^ e
    else if q % 2 = 0 then q * 2 ^ e
    else (q + 1) * 2 ^ e

/-- The magnitude `2 ^ 1024`, from which on a rounded result is `Infinity`. -/
def overflowBound : Nat := 2 ^ 256 * 2 ^ 256 * 2 ^ 256 * 2 ^ 256

/-- The JavaScript number nearest to the integer `z`.  When that is `Infinity`
or `-Infinity` JavaScript goes on with it; the integer model stops. -/
def toNumber (z : Int) : Except JSError Int :=
  let n := roundNat z.natAbs
  if overflowBound ≤ n then .error .notInModel
  else if z < 0 then .ok (-(n : Int))
  else .ok (n : Int)

/-- The sum `x + y` of two numbers, as the source computes it. -/
def numberAdd (x y : Int) : Except JSError Int :=
  toNumber (x + y)

/-- The difference `x - y` of two numbers, as the source computes it. -/
def numberSubtract (x y : Int) : Except JSError Int :=
  toNumber (x - y)

/-- The loop of `calculateNeed` (line 38) with the source's subtraction. -/
def needLoopRounded (maxRow allocationRow : List Int) :
    Nat → Nat → List Int → Except JSError (List Int)
  | 0, _, needRow => .ok needRow
  | n + 1, j, needRow =>
    match maxRow[j]?, allocationRow[j]? with
    | some m, some a =>
      match numberSubtract m a with
      | .error e => .error e
      | .ok d =>
        match assign needRow j d with
        | some row => needLoopRounded maxRow allocationRow n (j + 1) row
        | none => .error .notInModel
    | _, _ => .error .notANumber

/-- The method `calculateNeed(processIndex)` (lines 36-40) with the source's
subtraction. -/
def calculateNeedRounded (b : BankerAlgorithm) (processIndex : Int) :
    BankerAlgorithm × Except JSError Unit :=
  if b.resources.toNat = 0 then (b, .ok ())
  else
    match index b.need processIndex, index b.max processIndex,
        index b.allocation processIndex with
    | some needRow, some maxRow, some allocationRow =>
      match needLoopRounded maxRow allocationRow b.resources.toNat 0 needRow with
      | .ok row => ({ b with need := b.need.set processIndex.toNat row }, .ok ())
      | .error e => (b, .error e)
    | _, _, _ => (b, .error .typeError)

/-- The method `setMax(processIndex, values)` (lines 26-29) with the source's
subtraction. -/
def setMaxRounded (b : BankerAlgorithm) (processIndex : Int) (values : List Int) :
    BankerAlgorithm × Except JSError Unit :=
  match assign b.max processIndex values with
  | none => (b, .error .notInModel)
  | some m => calculateNeedRounded { b with max := m } processIndex

/-- The method `setAllocation(processIndex, values)` (lines 31-34) with the
source's subtraction. -/
def setAllocationRounded (b : BankerAlgorithm) (processIndex : Int) (values : List Int) :
    BankerAlgorithm × Except JSError Unit :=
  match assign b.allocation processIndex values with
  | none => (b, .error .notInModel)
  | some m => calculateNeedRounded { b with allocation := m } processIndex

/-- The loop of `calculateAllNeeds` with the source's subtraction. -/
def allNeedsLoopRounded : Nat → Nat → BankerAlgorithm → BankerAlgorithm × Except JSError Unit
  | 0, _, b => (b, .ok ())
  | n + 1, i, b =>
    match calculateNeedRounded b (i : Int) with
    | (b1, .ok _) => allNeedsLoopRounded n (i + 1) b1
    | (b1, .error e) => (b1, .error e)

/-- The method `calculateAllNeeds()` (lines 42-46) with the source's subtraction. -/
def calculateAllNeedsRounded (b : BankerAlgorithm) : BankerAlgorithm × Except JSError Unit :=
  allNeedsLoopRounded b.processes.toNat 0 b

/-- The method `vectorAdd(v1, v2)` (line 58) with the source's addition. -/
def vectorAddRounded : List Int → List Int → Except JSError (List Int)
  | [], _ => .ok []
  | _ :: _, [] => .error .notANumber
  | x :: xs, y :: ys =>
    match numberAdd x y with
    | .error e => .error e
    | .ok s =>
      match vectorAddRounded xs ys with
      | .ok r => .ok (s :: r)
      | .error e => .error e

/-- The method `vectorSubtract(v1, v2)` (line 63) with the source's subtraction. -/
def vectorSubtractRounded : List Int → List Int → Except JSError (List Int)
  | [], _ => .ok []
  | _ :: _, [] => .error .notANumber
  | x :: xs, y :: ys =>
    match numberSubtract x y with
    | .error e => .error e
    | .ok d =>
      match vectorSubtractRounded xs ys with
      | .ok r => .ok (d :: r)
      | .error e => .error e

/-- Lines 93-95, `work[j] += this.allocation[i][j]`, with the source's addition. -/
def addAllocationRounded (allocationRow : Option (List Int)) :
    Nat → Nat → List Int → Except JSError (List Int)
  | 0, _, work => .ok work
  | n + 1, j, work =>
    match allocationRow with
    | none => .error .typeError
    | some row =>
      match work[j]?, row[j]? with
      | some w, some a =>
        match numberAdd w a with
        | .error e => .error e
        | .ok s => addAllocationRounded allocationRow n (j + 1) (work.set j s)
      | _, _ => .error .notANumber

/-- Lines 90-112, the `for` loop over the processes, with the source's addition. -/
def scanRounded (b : BankerAlgorithm) (stepByStep : Bool) :
    Nat → Nat → Locals → Except JSError Locals
  | 0, _, st => .ok st
  | n + 1, i, st =>
    if (st.finish[i]?).getD false then scanRounded b stepByStep n (i + 1) st
    else
      match vectorLessOrEqual b.need[i]? (some st.work) with
      | .error e => .error e
      | .ok false => scanRounded b stepByStep n (i + 1) st
      | .ok true =>
        match addAllocationRounded b.allocation[i]? b.resources.toNat 0 st.work with
        | .error e => .error e
        | .ok work =>
          let finish := st.finish.set i true
          let safeSequence := st.safeSequence ++ [i]
          .ok { work := work
                finish := finish
                safeSequence := safeSequence
                steps :=
                  if stepByStep then
                    st.steps ++ [{ step := st.iteration
                                   processIndex := some i
                                   description := .canFinish i
                                   work := work
                                   finish := finish
                                   safeSequence := safeSequence
                                   isSafe := none }]
                  else st.steps
                found := true
                iteration := st.iteration }

/-- Lines 86-113, the `while` loop, with the source's addition. -/
def whileLoopRounded (b : BankerAlgorithm) (stepByStep : Bool) :
    Nat → Locals → Except JSError Locals
  | 0, st =>
    if st.found && decide ((st.safeSequence.length : Int) < b.processes) then .error .outOfFuel
    else .ok st
  | fuel + 1, st =>
    if st.found && decide ((st.safeSequence.length : Int) < b.processes) then
      match scanRounded b stepByStep b.processes.toNat 0
          { st with found := false, iteration := st.iteration + 1 } with
      | .error e => .error e
      | .ok st1 => whileLoopRounded b stepByStep fuel st1
    else .ok st

/-- The method `checkSafety(stepByStep)` (lines 67-133) with the source's
addition, and with the limit of `new Array(this.processes)`: a `RangeError`
unless `0 <= processes < 2 ^ 32`. -/
def checkSafetyRounded (b : BankerAlgorithm) (stepByStep : Bool) :
    Except JSError SafetyResult :=
  if b.processes < 0 ∨ 4294967296 ≤ b.processes then .error .rangeError
  else
    match whileLoopRounded b stepByStep (b.processes.toNat + 1) (initialLocals b stepByStep) with
    | .error e => .error e
    | .ok st =>
      let isSafe := decide ((st.safeSequence.length : Int) = b.processes)
      .ok { isSafe := isSafe
            safeSequence := st.safeSequence
            steps :=
              if stepByStep then
                st.steps ++ [{ step := st.iteration + 1
                               processIndex := none
                               description := .verdict isSafe
                               work := st.work
                               finish := st.finish
                               safeSequence := st.safeSequence
                               isSafe := some isSafe }]
              else st.steps }

/-- The method `requestResources(processIndex, request)` (lines 136-188) with
the source's addition and subtraction. -/
def requestResourcesRounded (b : BankerAlgorithm) (processIndex : Int) (request : List Int) :
    BankerAlgorithm × Except JSError RequestResult :=
  match vectorLessOrEqual (some request) (index b.need processIndex) with
  | .error e => (b, .error e)
  | .ok false => (b, .ok deniedRequestExceeds)
  | .ok true =>
    match vectorLessOrEqual (some request) (some b.available) with
    | .error e => (b, .error e)
    | .ok false => (b, .ok deniedInsufficient)
    | .ok true =>
      let originalAvailable := b.available
      match index b.allocation processIndex with
      | none => (b, .error .typeError)
      | some originalAllocation =>
        match index b.need processIndex with
        | none => (b, .error .typeError)
        | some originalNeed =>
          match vectorSubtractRounded b.available request with
          | .error e => (b, .error e)
          | .ok available =>
            let b1 := { b with available := available }
            match vectorAddRounded originalAllocation request with
            | .error e => (b1, .error e)
            | .ok allocationRow =>
              let b2 := { b1 with allocation := b1.allocation.set processIndex.toNat allocationRow }
              match vectorSubtractRounded originalNeed request with
              | .error e => (b2, .error e)
              | .ok needRow =>
                let b3 := { b2 with need := b2.need.set processIndex.toNat needRow }
                match checkSafetyRounded b3 false with
                | .error e => (b3, .error e)
                | .ok safetyResult =>
                  if safetyResult.isSafe then
                    (b3, .ok (approvedWith safetyResult.safeSequence))
                  else
                    ({ b3 with
                        available := originalAvailable
                        allocation := b3.allocation.set processIndex.toNat originalAllocation
                        need := b3.need.set processIndex.toNat originalNeed },
                     .ok deniedNotSafe)

/-- The state after one call and whether the call threw, with the source's
arithmetic. -/
def applyOpRounded (b : BankerAlgorithm) : Op → BankerAlgorithm × Except JSError Unit
  | .setAvailable values => (setAvailable b values, .ok ())
  | .setMax i values => setMaxRounded b i values
  | .setAllocation i values => setAllocationRounded b i values
  | .calculateNeed i => calculateNeedRounded b i
  | .calculateAllNeeds => calculateAllNeedsRounded b
  | .requestResources i request =>
    match requestResourcesRounded b i request with
    | (b1, .ok _) => (b1, .ok ())
    | (b1, .error e) => (b1, .error e)

/-- The calls of a list made one after the other, with the source's arithmetic. -/
def applyOpsRounded (b : BankerAlgorithm) : List Op → BankerAlgorithm × Except JSError Unit
  | [] => (b, .ok ())
  | op :: ops =>
    match applyOpRounded b op with
    | (b1, .ok _) => applyOpsRounded b1 ops
    | (b1, .error e) => (b1, .error e)

/-- A state on which the sum `2 ^ 53 + 3` is formed, which no number holds. -/
def roundsUp : BankerAlgorithm :=
  { processes := 2
    resources := 1
    available := [9007199254740992]
    max := [[3], [9007199254740996]]
    allocation := [[3], [0]]
    need := [[0], [9007199254740996]] }

/-- A state on which the sum `2 ^ 53 + 1` is formed twice, and rounds to
`2 ^ 53` each time. -/
def roundsDown : BankerAlgorithm :=
  { processes := 3
    resources := 1
    available := [9007199254740992]
    max := [[1], [1], [9007199254740994]]
    allocation := [[1], [1], [0]]
    need := [[0], [0], [9007199254740994]] }

/-- The integer `z` has magnitude at most `2 ^ 53`: it is a JavaScript number,
and a sum or difference with this exact value is computed without rounding. -/
def InExactRange (z : Int) : Prop :=
  z.natAbs ≤ 2 ^ 53

instance (z : Int) : Decidable (InExactRange z) := by
  unfold InExactRange; infer_instance

/-- The state is within the limits of the source's numbers and arrays: there
are fewer than `2 ^ 32` processes (the length of the longest array), and for
every resource `j` the magnitude of `Available[j]` plus the magnitudes of the
`Allocation[i][j]` of all processes is at most `2 ^ 53`, so that every sum
`checkSafety` can form in `work` is computed without rounding. -/
def SafeMagnitude (b : BankerAlgorithm) : Prop :=
  b.processes < 4294967296 ∧
  ∀ j, j < b.resources.toNat →
    (b.available.getD j 0).natAbs
      + ((List.range b.processes.toNat).map fun i => (entry b.allocation i j).natAbs).sum
      ≤ 2 ^ 53

instance (b : BankerAlgorithm) : Decidable (SafeMagnitude b) := by
  unfold SafeMagnitude; infer_instance

/-- Every sum `work[t] + Allocation[p][t]` that the scan can form next, for a
process `p` not finished, is computed without rounding. -/
def SafeToAdmit (b : BankerAlgorithm) (st : Locals) : Prop :=
  ∀ (p : Nat), (st.finish[p]?).getD false = false →
    ∀ (row : List Int), b.allocation[p]? = some row →
    ∀ (t : Nat) (w a : Int), st.work[t]? = some w → row[t]? = some a → InExactRange (w + a)

/-- A state on which raising Available makes the safety check fail: with
Available `[2 ^ 53, 0]` the sums stay numbers that admit process 2, with
`[2 ^ 53, 1]` the first sum is `2 ^ 53 + 1` and is rounded down. -/
def roundsByOrder : BankerAlgorithm :=
  { processes := 3
    resources := 2
    available := [9007199254740992, 0]
    max := [[1, 1], [2, 1], [9007199254740996, 0]]
    allocation := [[1, 0], [2, 1], [0, 0]]
    need := [[0, 1], [0, 0], [9007199254740996, 0]] }

/-- The request of process `i` stays within the limits of the source's numbers:
if the request passes the two comparisons (it is within Need and within
Available), then every difference `Available[j] - request[j]`, every sum
`Allocation[i][j] + request[j]` and every difference `Need[i][j] - request[j]`
has magnitude at most `2 ^ 53`, and the state with the request applied is
within the limits too. -/
def SafeRequest (b : BankerAlgorithm) (i : Nat) (request : List Int) : Prop :=
  Within b request (b.need.getD i []) → Within b request b.available →
    (∀ j, j < b.resources.toNat →
      InExactRange (b.available.getD j 0 - request.getD j 0) ∧
      InExactRange (entry b.allocation i j + request.getD j 0) ∧
      InExactRange (entry b.need i j - request.getD j 0)) ∧
    SafeMagnitude (speculativeApply b i request)

instance (b : BankerAlgorithm) (i : Nat) (request : List Int) :
    Decidable (SafeRequest b i request) := by
  unfold SafeRequest; infer_instance

/-- A state in which the Allocation of the one process is `2 ^ 53`: adding 1
to it gives `2 ^ 53` again. -/
def absorbsRequest : BankerAlgorithm :=
  { processes := 1
    resources := 1
    available := [2]
    max := [[9007199254740994]]
    allocation := [[9007199254740992]]
    need := [[2]] }

/-- Every difference `Max[i][j] - Allocation[i][j]` of row `i` has magnitude at
most `2 ^ 53`: `calculateNeed(i)` computes the row without rounding. -/
def RowExact (b : BankerAlgorithm) (i : Nat) : Prop :=
  ∀ j, j < b.resources.toNat → InExactRange (entry b.max i j - entry b.allocation i j)

instance (b : BankerAlgorithm) (i : Nat) : Decidable (RowExact b i) := by
  unfold RowExact; infer_instance

/-- The call stays within the limits of the source's numbers on the state `b`:
every difference `Max[i][j] - Allocation[i][j]` it forms to recompute Need,
and for `requestResources` every sum and difference of `SafeRequest`, has
magnitude at most `2 ^ 53`. -/
def SafeOp (b : BankerAlgorithm) : Op → Prop
  | .setAvailable _ => True
  | .setMax i values =>
    ∀ j, j < b.resources.toNat →
      InExactRange (values.getD j 0 - entry b.allocation i.toNat j)
  | .setAllocation i values =>
    ∀ j, j < b.resources.toNat →
      InExactRange (entry b.max i.toNat j - values.getD j 0)
  | .calculateNeed i => RowExact b i.toNat
  | .calculateAllNeeds => ∀ i, i < b.processes.toNat → RowExact b i
  | .requestResources i request => SafeRequest b i.toNat request

instance (b : BankerAlgorithm) (op : Op) : Decidable (SafeOp b op) := by
  cases op <;> unfold SafeOp <;> infer_instance

/-- Every call of the run stays within the limits of the source's numbers on
the state it is made on. -/
def SafeRun (b : BankerAlgorithm) : List Op → Prop
  | [] => True
  | op :: ops => SafeOp b op ∧ SafeRun (applyOpRounded b op).1 ops

/-- Whether a run stays within the limits can be computed. -/
def SafeRun.decidable : (ops : List Op) → (b : BankerAlgorithm) → Decidable (SafeRun b ops)
  | [], _ => isTrue trivial
  | op :: ops, b =>
    have := SafeRun.decidable ops (applyOpRounded b op).1
    inferInstanceAs (Decidable (SafeOp b op ∧ SafeRun (applyOpRounded b op).1 ops))

instance (b : BankerAlgorithm) (ops : List Op) : Decidable (SafeRun b ops) :=
  SafeRun.decidable ops b

/-- A run of valid calls on one process and one resource that ends with a
request whose sum `2 ^ 53 + 1` is rounded. -/
def driftingRun : List Op :=
  [.setAvailable [2], .setMax 0 [9007199254740994], .setAllocation 0 [9007199254740992],
   .requestResources 0 [1]]

/-- The value `importJSON(jsonString)` returns (lines 203-217), given what
`JSON.parse(jsonString)` returns (`none` when it throws): `false` comes from the
`catch` only, which is reached when `JSON.parse` throws or when reading
`data.processes` throws, that is when `data` is `null`; reading a member of any
other JSON value gives a value or `undefined`, the six assignments do not
throw, and the method returns `true`. -/
def importJSONReturns (parsed : Option Json) : Bool :=
  match parsed with
  | none => false
  | some .null => false
  | some _ => true

/-- A payload with `processes` and nothing else: five required fields are
missing. -/
def incompletePayload : Json :=
  .obj [("processes", .num 2)]

/-- A payload whose `resources` is a string and whose `available` holds a
string: numeric fields that are not integers. -/
def illTypedPayload : Json :=
  .obj [("processes", .num 2),
        ("resources", .str "two"),
        ("available", .arr [.num 1, .str "x"]),
        ("max", Json.ofMatrix [[1, 1], [1, 1]]),
        ("allocation", Json.ofMatrix [[0, 0], [0, 0]]),
        ("need", Json.ofMatrix [[1, 1], [1, 1]])]

/-! ## Vector arithmetic: what the three methods compute -/

theorem greater_some (x y : Int) : greater (some x) (some y) = decide (y < x) := rfl

theorem vectorLessOrEqual_some (a v : List Int) :
    vectorLessOrEqual (some a) (some v)
      = .ok ((List.range a.length).all fun i => !greater a[i]? v[i]?) := by
  cases a with
  | nil => rfl
  | cons x xs => rfl

theorem vectorAdd_eq (a : List Int) : ∀ v : List Int, a.length ≤ v.length →
    vectorAdd a v = .ok (List.zipWith (fun x y => x + y) a v) := by
  induction a with
  | nil => intro v _; rfl
  | cons x xs ih =>
    intro v hv
    cases v with
    | nil => simp at hv
    | cons y ys =>
      have h := ih ys (by simpa using hv)
      simp [vectorAdd, h]

theorem vectorSubtract_eq (a : List Int) : ∀ v : List Int, a.length ≤ v.length →
    vectorSubtract a v = .ok (List.zipWith (fun x y => x - y) a v) := by
  induction a with
  | nil => intro v _; rfl
  | cons x xs ih =>
    intro v hv
    cases v with
    | nil => simp at hv
    | cons y ys =>
      have h := ih ys (by simpa using hv)
      simp [vectorSubtract, h]

theorem all_not_greater_iff (a v : List Int) :
    ((List.range a.length).all fun i => !greater a[i]? v[i]?) = true
      ↔ ∀ (i : Nat) (x y : Int), a[i]? = some x → v[i]? = some y → x ≤ y := by
  simp only [List.all_eq_true, List.mem_range]
  constructor
  · intro h i x y hx hy
    have hi : i < a.length := by
      by_contra hc
      rw [List.getElem?_eq_none (by omega)] at hx
      cases hx
    have h1 := h i hi
    rw [hx, hy, greater_some] at h1
    simpa using h1
  · intro h i _
    cases hx : a[i]? with
    | none => simp [greater]
    | some x =>
      cases hy : v[i]? with
      | none => simp [greater]
      | some y =>
        have h1 := h i x y hx hy
        simp only [greater_some]
        simpa using h1

theorem all_not_greater_iff_getD (a v : List Int) (n : Nat) (ha : a.length = n)
    (hv : v.length = n) :
    ((List.range a.length).all fun i => !greater a[i]? v[i]?) = true
      ↔ ∀ j, j < n → a.getD j 0 ≤ v.getD j 0 := by
  rw [all_not_greater_iff]
  constructor
  · intro h j hj
    have h1 : a[j]? = some (a.getD j 0) := by
      rw [List.getD_eq_getElem?_getD, List.getElem?_eq_getElem (by omega)]; rfl
    have h2 : v[j]? = some (v.getD j 0) := by
      rw [List.getD_eq_getElem?_getD, List.getElem?_eq_getElem (by omega)]; rfl
    exact h j _ _ h1 h2
  · intro h i x y hx hy
    have hi : i < n := by
      by_contra hc
      rw [List.getElem?_eq_none (by omega)] at hx
      cases hx
    have h1 := h i hi
    rw [List.getD_eq_getElem?_getD, List.getD_eq_getElem?_getD, hx, hy] at h1
    simpa using h1

theorem addAllocation_spec (row : List Int) : ∀ (n j : Nat) (work : List Int),
    j + n ≤ work.length → j + n ≤ row.length →
    ∃ w, addAllocation (some row) n j work = .ok w ∧ w.length = work.length ∧
      ∀ t, w.getD t 0 =
        if j ≤ t ∧ t < j + n then work.getD t 0 + row.getD t 0 else work.getD t 0 := by
  intro n
  induction n with
  | zero =>
    intro j work _ _
    refine ⟨work, rfl, rfl, ?_⟩
    intro t
    have h0 : ¬ (j ≤ t ∧ t < j + 0) := by omega
    rw [if_neg h0]
  | succ n ih =>
    intro j work hw hr
    have hjw : j < work.length := by omega
    have hjr : j < row.length := by omega
    obtain ⟨w, hw1, hw2, hw3⟩ := ih (j + 1) (work.set j (work[j] + row[j]))
      (by simp; omega) (by omega)
    refine ⟨w, ?_, by simpa using hw2, ?_⟩
    · simp only [addAllocation, List.getElem?_eq_getElem hjw, List.getElem?_eq_getElem hjr]
      exact hw1
    · intro t
      rw [hw3 t]
      simp only [List.getD_eq_getElem?_getD, List.getElem?_set]
      by_cases htj : j = t
      · subst htj
        simp [hjw, List.getElem?_eq_getElem hjr]
      · by_cases h1 : j + 1 ≤ t ∧ t < j + 1 + n
        · have h2 : j ≤ t ∧ t < j + (n + 1) := by omega
          simp [h1, h2, htj]
        · have h2 : ¬ (j ≤ t ∧ t < j + (n + 1)) := by omega
          simp [h1, h2, htj]

/-! ## Shape facts -/

theorem WellShaped.need_row {b : BankerAlgorithm} (h : WellShaped b) {i : Nat}
    (hi : i < b.processes.toNat) :
    ∃ row, b.need[i]? = some row ∧ row.length = b.resources.toNat ∧
      ∀ j, row.getD j 0 = entry b.need i j := by
  obtain ⟨_, _, _, hn, hr⟩ := h
  have hlt : i < b.need.length := by omega
  refine ⟨b.need[i], List.getElem?_eq_getElem hlt, ?_, ?_⟩
  · have := hr b.need[i] (List.getElem_mem hlt)
    omega
  · intro j
    simp [entry, List.getD_eq_getElem?_getD, List.getElem?_eq_getElem hlt]

theorem WellShaped.allocation_row {b : BankerAlgorithm} (h : WellShaped b) {i : Nat}
    (hi : i < b.processes.toNat) :
    ∃ row, b.allocation[i]? = some row ∧ row.length = b.resources.toNat ∧
      ∀ j, row.getD j 0 = entry b.allocation i j := by
  obtain ⟨_, _, ⟨hn, hr⟩, _⟩ := h
  have hlt : i < b.allocation.length := by omega
  refine ⟨b.allocation[i], List.getElem?_eq_getElem hlt, ?_, ?_⟩
  · have := hr b.allocation[i] (List.getElem_mem hlt)
    omega
  · intro j
    simp [entry, List.getD_eq_getElem?_getD, List.getElem?_eq_getElem hlt]

theorem WellShaped.available_length {b : BankerAlgorithm} (h : WellShaped b) :
    b.available.length = b.resources.toNat := by
  have := h.1
  omega

theorem WellShaped.processes_nonneg {b : BankerAlgorithm} (h : WellShaped b) :
    0 ≤ b.processes := by
  have := h.2.1.1
  omega

theorem workAfter_append (b : BankerAlgorithm) (done : List Nat) (p j : Nat) :
    workAfter b (done ++ [p]) j = workAfter b done j + entry b.allocation p j := by
  simp [workAfter, List.map_append, List.sum_append]
  ring

/-! ## The scan: one round of the loop -/

theorem eligible_iff_vectorLessOrEqual {b : BankerAlgorithm} {st : Locals} (h : WellShaped b)
    (hinv : LoopInv b st) {i : Nat} (hi : i < b.processes.toNat) :
    ∃ v, vectorLessOrEqual b.need[i]? (some st.work) = .ok v ∧
      (v = true ↔ Eligible b st.safeSequence i) := by
  obtain ⟨row, hrow, hlen, hent⟩ := h.need_row hi
  refine ⟨_, by rw [hrow, vectorLessOrEqual_some], ?_⟩
  rw [all_not_greater_iff_getD row st.work _ hlen hinv.work_length]
  unfold Eligible
  constructor
  · intro hj j hjR
    rw [← hent j, ← hinv.work_eq j hjR]
    exact hj j hjR
  · intro hj j hjR
    rw [hent j, hinv.work_eq j hjR]
    exact hj j hjR

theorem lowestIndexFirstAt_append_of_lt (b : BankerAlgorithm) (seq : List Nat) (p k : Nat)
    (hk : k < seq.length) :
    LowestIndexFirstAt b (seq ++ [p]) k ↔ LowestIndexFirstAt b seq k := by
  unfold LowestIndexFirstAt
  rw [List.take_append_of_le_length (by omega), List.getD_append _ _ _ _ hk]

theorem lowestIndexFirstAt_append_last (b : BankerAlgorithm) (seq : List Nat) (p : Nat) :
    LowestIndexFirstAt b (seq ++ [p]) seq.length ↔
      (p < b.processes.toNat ∧ p ∉ seq ∧ Eligible b seq p ∧
        ∀ i, i < p → i ∉ seq → ¬ Eligible b seq i) := by
  unfold LowestIndexFirstAt
  have h1 : (seq ++ [p]).take seq.length = seq := by simp
  have h2 : (seq ++ [p]).getD seq.length 0 = p := by
    rw [List.getD_append_right _ _ _ _ (le_refl _)]; simp
  rw [h1, h2]

theorem LoopInv.admit {b : BankerAlgorithm} {st : Locals} (h : WellShaped b)
    (hinv : LoopInv b st) {i : Nat} (hi : i < b.processes.toNat)
    (hfin : (st.finish[i]?).getD false = false)
    (helig : Eligible b st.safeSequence i)
    (hlow : ∀ k, k < i → k ∉ st.safeSequence → ¬ Eligible b st.safeSequence k)
    (steps : List Step) (found : Bool) (iteration : Nat) :
    ∃ w, addAllocation b.allocation[i]? b.resources.toNat 0 st.work = .ok w ∧
      LoopInv b { work := w, finish := st.finish.set i true,
                  safeSequence := st.safeSequence ++ [i], steps := steps,
                  found := found, iteration := iteration } := by
  obtain ⟨row, hrow, hlen, hent⟩ := h.allocation_row hi
  obtain ⟨w, hw1, hw2, hw3⟩ := addAllocation_spec row b.resources.toNat 0 st.work
    (by have := hinv.work_length; omega) (by omega)
  have hnot : i ∉ st.safeSequence := by
    intro hmem
    have := (hinv.finish_iff i hi).2 hmem
    rw [hfin] at this
    cases this
  refine ⟨w, by rw [hrow]; exact hw1, ?_⟩
  constructor
  · show w.length = _
    rw [hw2]; exact hinv.work_length
  · intro j hj
    show w.getD j 0 = workAfter b (st.safeSequence ++ [i]) j
    rw [hw3 j, workAfter_append, if_pos (by omega), hinv.work_eq j hj, hent j]
  · show (st.finish.set i true).length = _
    rw [List.length_set]; exact hinv.finish_length
  · intro k hk
    show ((st.finish.set i true)[k]?).getD false = true ↔ k ∈ st.safeSequence ++ [i]
    rw [List.getElem?_set, List.mem_append, List.mem_singleton]
    by_cases hik : i = k
    · subst hik
      have : i < st.finish.length := by rw [hinv.finish_length]; exact hi
      simp [this]
    · rw [if_neg hik, hinv.finish_iff k hk]
      constructor
      · intro hm; exact Or.inl hm
      · intro hm
        rcases hm with hm | hm
        · exact hm
        · exact absurd hm.symm hik
  · show (st.safeSequence ++ [i]).Nodup
    rw [List.nodup_append]
    refine ⟨hinv.nodup, List.nodup_singleton i, ?_⟩
    simpa using hnot
  · intro x hx
    have hx1 : x ∈ st.safeSequence ++ [i] := hx
    rw [List.mem_append, List.mem_singleton] at hx1
    rcases hx1 with hx1 | hx1
    · exact hinv.lt x hx1
    · rw [hx1]; exact hi
  · intro k hk
    show LowestIndexFirstAt b (st.safeSequence ++ [i]) k
    have hk1 : k < (st.safeSequence ++ [i]).length := hk
    rw [List.length_append, List.length_singleton] at hk1
    by_cases hlt : k < st.safeSequence.length
    · rw [lowestIndexFirstAt_append_of_lt _ _ _ _ hlt]
      exact hinv.lowest k hlt
    · have hkeq : k = st.safeSequence.length := by omega
      rw [hkeq, lowestIndexFirstAt_append_last]
      exact ⟨hi, hnot, helig, hlow⟩

theorem LoopInv.of_fields {b : BankerAlgorithm} {st st1 : Locals} (hinv : LoopInv b st)
    (hw : st1.work = st.work) (hf : st1.finish = st.finish)
    (hs : st1.safeSequence = st.safeSequence) : LoopInv b st1 := by
  constructor
  · rw [hw]; exact hinv.work_length
  · rw [hw, hs]; exact hinv.work_eq
  · rw [hf]; exact hinv.finish_length
  · rw [hf, hs]; exact hinv.finish_iff
  · rw [hs]; exact hinv.nodup
  · rw [hs]; exact hinv.lt
  · rw [hs]; exact hinv.lowest

theorem scan_spec (b : BankerAlgorithm) (stepByStep : Bool) (h : WellShaped b) :
    ∀ (n i : Nat) (st : Locals), LoopInv b st → i + n = b.processes.toNat →
      (∀ k, k < i → k ∉ st.safeSequence → ¬ Eligible b st.safeSequence k) →
      ∃ st1, scan b stepByStep n i st = .ok st1 ∧
        ((st1 = st ∧ Stuck b st.safeSequence) ∨
         (LoopInv b st1 ∧ st1.found = true ∧
           st1.safeSequence.length = st.safeSequence.length + 1)) := by
  intro n
  induction n with
  | zero =>
    intro i st _ hin hlow
    refine ⟨st, rfl, Or.inl ⟨rfl, ?_⟩⟩
    intro k hk
    exact hlow k (by omega)
  | succ n ih =>
    intro i st hinv hin hlow
    have hi : i < b.processes.toNat := by omega
    unfold scan
    cases hfin : (st.finish[i]?).getD false with
    | true =>
      rw [if_pos rfl]
      apply ih (i + 1) st hinv (by omega)
      intro k hk hnot
      by_cases hki : k = i
      · subst hki
        exact absurd ((hinv.finish_iff k hi).1 hfin) hnot
      · exact hlow k (by omega) hnot
    | false =>
      rw [if_neg (by simp)]
      obtain ⟨v, hv, hiff⟩ := eligible_iff_vectorLessOrEqual h hinv hi
      rw [hv]
      cases v with
      | false =>
        have hne : ¬ Eligible b st.safeSequence i := by
          intro he
          have := hiff.2 he
          cases this
        apply ih (i + 1) st hinv (by omega)
        intro k hk hnot
        by_cases hki : k = i
        · subst hki; exact hne
        · exact hlow k (by omega) hnot
      | true =>
        have he : Eligible b st.safeSequence i := hiff.1 rfl
        obtain ⟨w, hw, hinv1⟩ := hinv.admit h hi hfin he hlow [] true st.iteration
        rw [hw]
        exact ⟨_, rfl, Or.inr ⟨hinv1.of_fields rfl rfl rfl, rfl, by simp⟩⟩

theorem LoopInv.length_le {b : BankerAlgorithm} {st : Locals} (hinv : LoopInv b st) :
    st.safeSequence.length ≤ b.processes.toNat := by
  have hsub : st.safeSequence ⊆ List.range b.processes.toNat := by
    intro x hx
    exact List.mem_range.2 (hinv.lt x hx)
  have := (List.subperm_of_subset hinv.nodup hsub).length_le
  simpa using this

theorem whileLoop_spec (b : BankerAlgorithm) (stepByStep : Bool) (h : WellShaped b) :
    ∀ (fuel : Nat) (st : Locals), LoopInv b st →
      (st.found = false → Stuck b st.safeSequence) →
      (st.found = true → b.processes.toNat + 1 ≤ fuel + st.safeSequence.length) →
      ∃ st1, whileLoop b stepByStep fuel st = .ok st1 ∧ LoopInv b st1 ∧
        (st1.safeSequence.length = b.processes.toNat ∨ Stuck b st1.safeSequence) := by
  intro fuel
  have hP := h.processes_nonneg
  induction fuel with
  | zero =>
    intro st hinv hstuck hfuel
    have hle := hinv.length_le
    unfold whileLoop
    cases hf : st.found with
    | true => have := hfuel hf; omega
    | false =>
      rw [if_neg (by simp)]
      exact ⟨st, rfl, hinv, Or.inr (hstuck hf)⟩
  | succ fuel ih =>
    intro st hinv hstuck hfuel
    have hle := hinv.length_le
    unfold whileLoop
    by_cases hc : (st.found && decide ((st.safeSequence.length : Int) < b.processes)) = true
    · rw [if_pos hc]
      simp only [Bool.and_eq_true, decide_eq_true_eq] at hc
      obtain ⟨st1, hs, hcase⟩ := scan_spec b stepByStep h b.processes.toNat 0
        { st with found := false, iteration := st.iteration + 1 }
        (hinv.of_fields rfl rfl rfl) (by omega) (by intro k hk; omega)
      rw [hs]
      rcases hcase with ⟨heq, hst⟩ | ⟨hinv1, hfound, hlen⟩
      · subst heq
        exact ih _ (hinv.of_fields rfl rfl rfl) (fun _ => hst) (by intro hx; cases hx)
      · apply ih st1 hinv1 (by intro hx; rw [hfound] at hx; cases hx)
        intro _
        have h1 := hfuel hc.1
        have h2 : st1.safeSequence.length = st.safeSequence.length + 1 := hlen
        omega
    · rw [if_neg hc]
      refine ⟨st, rfl, hinv, ?_⟩
      cases hf : st.found with
      | false => exact Or.inr (hstuck hf)
      | true =>
        left
        rw [hf] at hc
        simp only [Bool.true_and, decide_eq_true_eq] at hc
        omega

/-- What `checkSafety` returns on a well-shaped state. -/
theorem checkSafety_spec (b : BankerAlgorithm) (stepByStep : Bool) (h : WellShaped b) :
    ∃ r, checkSafety b stepByStep = .ok r ∧
      r.isSafe = decide (r.safeSequence.length = b.processes.toNat) ∧
      r.safeSequence.Nodup ∧ (∀ x ∈ r.safeSequence, x < b.processes.toNat) ∧
      LowestIndexFirst b r.safeSequence ∧
      (r.safeSequence.length = b.processes.toNat ∨ Stuck b r.safeSequence) := by
  have hP := h.processes_nonneg
  unfold checkSafety
  rw [if_neg (by omega)]
  have hinit : LoopInv b
      { work := b.available, finish := List.replicate b.processes.toNat false,
        safeSequence := [],
        steps := if stepByStep then
            [{ step := 0, processIndex := none, description := .init, work := b.available,
               finish := List.replicate b.processes.toNat false, safeSequence := [],
               isSafe := none }]
          else [],
        found := true, iteration := 0 } := by
    constructor
    · exact h.available_length
    · intro j _; simp [workAfter]
    · simp
    · intro i hi; simp [List.getElem?_replicate, hi]
    · exact List.nodup_nil
    · intro x hx; cases hx
    · intro k hk; cases hk
  obtain ⟨st1, hs, hinv1, hdone⟩ := whileLoop_spec b stepByStep h (b.processes.toNat + 1) _
    hinit (by intro hx; cases hx) (by intro _; simp)
  simp only [hs]
  refine ⟨_, rfl, ?_, hinv1.nodup, hinv1.lt, hinv1.lowest, hdone⟩
  show decide ((st1.safeSequence.length : Int) = b.processes)
    = decide (st1.safeSequence.length = b.processes.toNat)
  have hiff : ((st1.safeSequence.length : Int) = b.processes)
      ↔ (st1.safeSequence.length = b.processes.toNat) := by omega
  exact decide_eq_decide.2 hiff

/-! ## The bound on the loop is never the reason to stop -/

theorem vectorLessOrEqual_ne_outOfFuel (v1 v2 : Option (List Int)) :
    vectorLessOrEqual v1 v2 ≠ .error .outOfFuel := by
  unfold vectorLessOrEqual
  split <;> simp

theorem addAllocation_ne_outOfFuel (row : Option (List Int)) :
    ∀ (n j : Nat) (work : List Int), addAllocation row n j work ≠ .error .outOfFuel := by
  intro n
  induction n with
  | zero => intro j work; simp [addAllocation]
  | succ n ih =>
    intro j work
    unfold addAllocation
    split
    · simp
    · split
      · exact ih _ _
      · simp

theorem scan_progress (b : BankerAlgorithm) (stepByStep : Bool) :
    ∀ (n i : Nat) (st : Locals),
      (∃ st1, scan b stepByStep n i st = .ok st1 ∧
        (st1 = st ∨ (st1.found = true ∧
          st1.safeSequence.length = st.safeSequence.length + 1))) ∨
      (∃ e, scan b stepByStep n i st = .error e ∧ e ≠ .outOfFuel) := by
  intro n
  induction n with
  | zero => intro i st; exact Or.inl ⟨st, rfl, Or.inl rfl⟩
  | succ n ih =>
    intro i st
    unfold scan
    split
    · exact ih _ _
    · cases hv : vectorLessOrEqual b.need[i]? (some st.work) with
      | error e =>
        refine Or.inr ⟨e, rfl, ?_⟩
        intro he
        rw [he] at hv
        exact vectorLessOrEqual_ne_outOfFuel _ _ hv
      | ok v =>
        cases v with
        | false => exact ih _ _
        | true =>
          cases hw : addAllocation b.allocation[i]? b.resources.toNat 0 st.work with
          | error e =>
            refine Or.inr ⟨e, rfl, ?_⟩
            intro he
            rw [he] at hw
            exact addAllocation_ne_outOfFuel _ _ _ _ hw
          | ok w => exact Or.inl ⟨_, rfl, Or.inr ⟨rfl, by simp⟩⟩

theorem whileLoop_ne_outOfFuel (b : BankerAlgorithm) (stepByStep : Bool) :
    ∀ (fuel : Nat) (st : Locals),
      (st.found = true → b.processes.toNat + 1 ≤ fuel + st.safeSequence.length) →
      whileLoop b stepByStep fuel st ≠ .error .outOfFuel := by
  intro fuel
  induction fuel with
  | zero =>
    intro st hfuel
    unfold whileLoop
    split
    · rename_i hc
      simp only [Bool.and_eq_true, decide_eq_true_eq] at hc
      have := hfuel hc.1
      omega
    · simp
  | succ fuel ih =>
    intro st hfuel
    unfold whileLoop
    split
    · rename_i hc
      simp only [Bool.and_eq_true, decide_eq_true_eq] at hc
      rcases scan_progress b stepByStep b.processes.toNat 0
          { st with found := false, iteration := st.iteration + 1 } with
        ⟨st1, hs, hcase⟩ | ⟨e, hs, he⟩
      · rw [hs]
        apply ih
        intro hf
        rcases hcase with heq | ⟨_, hlen⟩
        · rw [heq] at hf; cases hf
        · have h1 := hfuel hc.1
          have h2 : st1.safeSequence.length = st.safeSequence.length + 1 := hlen
          omega
      · rw [hs]
        intro hx
        injection hx with hx
        exact he hx
    · simp

/-- The bound `P + 1` given to the `while` loop is enough on every state: the
loop never stops for lack of rounds. -/
theorem checkSafety_fuel_suffices (b : BankerAlgorithm) (stepByStep : Bool) :
    checkSafety b stepByStep ≠ .error .outOfFuel := by
  unfold checkSafety
  by_cases hneg : b.processes < 0
  · rw [if_pos hneg]; simp
  · rw [if_neg hneg]
    simp only []
    cases hs : whileLoop b stepByStep (b.processes.toNat + 1)
        { work := b.available, finish := List.replicate b.processes.toNat false,
          safeSequence := [],
          steps := if stepByStep then
              [{ step := 0, processIndex := none, description := .init, work := b.available,
                 finish := List.replicate b.processes.toNat false, safeSequence := [],
                 isSafe := none }]
            else [],
          found := true, iteration := 0 } with
    | error e =>
      intro hx
      injection hx with hx
      rw [hx] at hs
      exact whileLoop_ne_outOfFuel b stepByStep _ _ (by intro _; simp) hs
    | ok st => simp

/-! ## Orders of completion -/

theorem perm_range_of_nodup (l : List Nat) (n : Nat) (hnd : l.Nodup)
    (hlt : ∀ x ∈ l, x < n) (hlen : l.length = n) : l.Perm (List.range n) := by
  have hsub : l ⊆ List.range n := fun x hx => List.mem_range.2 (hlt x hx)
  exact (List.subperm_of_subset hnd hsub).perm_of_length_le (by simp [hlen])

theorem entry_nonneg {b : BankerAlgorithm} (hnn : AllocationNonneg b) (i j : Nat) :
    0 ≤ entry b.allocation i j := by
  unfold entry
  rw [List.getD_eq_getElem?_getD, List.getD_eq_getElem?_getD]
  cases hrow : b.allocation[i]? with
  | none => simp
  | some row =>
    cases hx : row[j]? with
    | none => simp [hx]
    | some x =>
      simp only [Option.getD_some, hx]
      exact hnn row (List.getElem?_mem hrow) x (List.getElem?_mem hx)

theorem workAfter_mono {b : BankerAlgorithm} (hnn : AllocationNonneg b) {s t : List Nat}
    (hs : s.Nodup) (hsub : s ⊆ t) (j : Nat) : workAfter b s j ≤ workAfter b t j := by
  obtain ⟨l, hperm, hsubl⟩ := List.subperm_of_subset hs hsub
  unfold workAfter
  have h1 : (s.map fun p => entry b.allocation p j).sum
      = (l.map fun p => entry b.allocation p j).sum :=
    ((hperm.map _).sum_eq).symm
  have h2 : (l.map fun p => entry b.allocation p j).sum
      ≤ (t.map fun p => entry b.allocation p j).sum := by
    apply List.Sublist.sum_le_sum (hsubl.map _)
    intro a ha
    obtain ⟨p, _, hp⟩ := List.mem_map.1 ha
    rw [← hp]
    exact entry_nonneg hnn p j
  omega

theorem Eligible.mono {b : BankerAlgorithm} (hnn : AllocationNonneg b) {s t : List Nat}
    (hs : s.Nodup) (hsub : s ⊆ t) {i : Nat} (he : Eligible b s i) : Eligible b t i := by
  intro j hj
  exact le_trans (he j hj) (workAfter_mono hnn hs hsub j)

theorem take_succ_getD (l : List Nat) (k : Nat) (hk : k < l.length) :
    l.take (k + 1) = l.take k ++ [l.getD k 0] := by
  rw [List.take_succ, List.getD_eq_getElem?_getD, List.getElem?_eq_getElem hk]
  rfl

theorem ValidCompletionOrder.subset_of_stuck {b : BankerAlgorithm} (hnn : AllocationNonneg b)
    {seq done : List Nat} (hseq : ValidCompletionOrder b seq) (hstuck : Stuck b done) :
    ∀ k, k ≤ seq.length → seq.take k ⊆ done := by
  intro k
  induction k with
  | zero => intro _; simp
  | succ k ih =>
    intro hk
    have hk1 : k < seq.length := by omega
    have hsub := ih (by omega)
    rw [take_succ_getD seq k hk1]
    intro x hx
    rw [List.mem_append, List.mem_singleton] at hx
    rcases hx with hx | hx
    · exact hsub hx
    · subst hx
      have hnd : (seq.take k).Nodup :=
        ((hseq.1.nodup_iff).2 (List.nodup_range _)).sublist (List.take_sublist _ _)
      have he : Eligible b done (seq.getD k 0) := (hseq.2 k hk1).mono hnn hnd hsub
      have hmem : seq.getD k 0 ∈ seq := by
        rw [List.getD_eq_getElem?_getD, List.getElem?_eq_getElem hk1]
        exact List.getElem_mem hk1
      have hlt : seq.getD k 0 < b.processes.toNat :=
        List.mem_range.1 ((hseq.1.mem_iff).1 hmem)
      by_contra hnot
      exact hstuck _ hlt hnot he

theorem length_eq_of_stuck {b : BankerAlgorithm} (hnn : AllocationNonneg b)
    {seq done : List Nat} (hseq : ValidCompletionOrder b seq) (hstuck : Stuck b done)
    (hnd : done.Nodup) (hlt : ∀ x ∈ done, x < b.processes.toNat) :
    done.length = b.processes.toNat := by
  have hsub : seq ⊆ done := by
    have := hseq.subset_of_stuck hnn hstuck seq.length (le_refl _)
    rwa [List.take_length] at this
  have hsub2 : List.range b.processes.toNat ⊆ done := fun x hx =>
    hsub ((hseq.1.mem_iff).2 hx)
  have h1 := (List.subperm_of_subset (List.nodup_range _) hsub2).length_le
  have h2 := (List.subperm_of_subset hnd
    (fun x hx => List.mem_range.2 (hlt x hx) : done ⊆ List.range b.processes.toNat)).length_le
  simp at h1 h2
  omega

/-! ## The rule determines the sequence -/

theorem LowestIndexFirst.take_eq {b : BankerAlgorithm} {s t : List Nat}
    (hs : LowestIndexFirst b s) (ht : LowestIndexFirst b t)
    (hdone : t.length = b.processes.toNat ∨ Stuck b t) (hnd : t.Nodup)
    (hlt : ∀ x ∈ t, x < b.processes.toNat) :
    ∀ k, k ≤ s.length → k ≤ t.length ∧ s.take k = t.take k := by
  intro k
  induction k with
  | zero => intro _; simp
  | succ k ih =>
    intro hk
    have hk1 : k < s.length := by omega
    obtain ⟨hkt, heq⟩ := ih (by omega)
    obtain ⟨hp1, hp2, hp3, hp4⟩ := hs k hk1
    rw [heq] at hp2 hp3 hp4
    have hkt1 : k < t.length := by
      by_contra hc
      have hkeq : t.take k = t := List.take_of_length_le (by omega)
      rw [hkeq] at hp2 hp3
      rcases hdone with hlen | hstuck
      · exact hp2 (((perm_range_of_nodup t _ hnd hlt hlen).mem_iff).2 (List.mem_range.2 hp1))
      · exact hstuck _ hp1 hp2 hp3
    obtain ⟨_, hq2, hq3, hq4⟩ := ht k hkt1
    have hpq : s.getD k 0 = t.getD k 0 := by
      rcases Nat.lt_trichotomy (s.getD k 0) (t.getD k 0) with hlt1 | heq1 | hgt1
      · exact absurd hp3 (hq4 _ hlt1 hp2)
      · exact heq1
      · exact absurd hq3 (hp4 _ hgt1 hq2)
    refine ⟨hkt1, ?_⟩
    rw [take_succ_getD s k hk1, take_succ_getD t k hkt1, heq, hpq]

/-! ## The claims about `checkSafety` -/

/-- With exact arithmetic (soundness of checkSafety): on a state whose vector and matrices have
matching shape, `checkSafety` returns a result, and if that result has
`isSafe = true` then its `safeSequence` is a valid completion order: a
permutation of `0..P-1` (every index exactly once) in which, at every position
`k`, the Need row of `safeSequence[k]` is componentwise at most Available plus
the Allocation rows of `safeSequence[0..k-1]`. -/
theorem checkSafety_sound_exact (b : BankerAlgorithm) (stepByStep : Bool) (h : WellShaped b) :
    ∃ r, checkSafety b stepByStep = .ok r ∧
      (r.isSafe = true →
        ValidCompletionOrder b r.safeSequence ∧
        ∀ i, i < b.processes.toNat → r.safeSequence.count i = 1) := by
  obtain ⟨r, hr, hsafe, hnd, hlt, hlow, _⟩ := checkSafety_spec b stepByStep h
  refine ⟨r, hr, ?_⟩
  intro his
  rw [his] at hsafe
  have hlen : r.safeSequence.length = b.processes.toNat := by
    simpa using hsafe.symm
  have hperm := perm_range_of_nodup r.safeSequence _ hnd hlt hlen
  refine ⟨⟨hperm, fun k hk => (hlow k hk).2.2.1⟩, ?_⟩
  intro i hi
  exact List.count_eq_one_of_mem hnd ((hperm.mem_iff).2 (List.mem_range.2 hi))

/-- With exact arithmetic (completeness of checkSafety): on a state of matching shape whose
Allocation entries are all non-negative, if some ordering of all `P` processes
is a valid completion order then `checkSafety` returns `isSafe = true`; so
`isSafe = false` is returned only when no safe ordering exists. -/
theorem checkSafety_complete_exact (b : BankerAlgorithm) (stepByStep : Bool) (h : WellShaped b)
    (hnn : AllocationNonneg b) (seq : List Nat) (hseq : ValidCompletionOrder b seq) :
    ∃ r, checkSafety b stepByStep = .ok r ∧ r.isSafe = true := by
  obtain ⟨r, hr, hsafe, hnd, hlt, _, hdone⟩ := checkSafety_spec b stepByStep h
  refine ⟨r, hr, ?_⟩
  have hlen : r.safeSequence.length = b.processes.toNat := by
    rcases hdone with hlen | hstuck
    · exact hlen
    · exact length_eq_of_stuck hnn hseq hstuck hnd hlt
  rw [hsafe]
  simpa using hlen

/-- With exact arithmetic (lowest index first): on a state of matching shape, every position `k`
of the returned `safeSequence` holds the smallest process index that is not
among `safeSequence[0..k-1]` and whose Need row is componentwise at most
Available plus the Allocation rows of `safeSequence[0..k-1]`; and the rule
determines the sequence: any sequence that follows it at every position is a
starting segment of the returned one. -/
theorem checkSafety_lowest_index_first_exact (b : BankerAlgorithm) (stepByStep : Bool)
    (h : WellShaped b) :
    ∃ r, checkSafety b stepByStep = .ok r ∧
      LowestIndexFirst b r.safeSequence ∧
      ∀ seq, LowestIndexFirst b seq → seq <+: r.safeSequence := by
  obtain ⟨r, hr, _, hnd, hlt, hlow, hdone⟩ := checkSafety_spec b stepByStep h
  refine ⟨r, hr, hlow, ?_⟩
  intro seq hseq
  obtain ⟨_, heq⟩ := hseq.take_eq hlow hdone hnd hlt seq.length (le_refl _)
  rw [List.take_length] at heq
  rw [heq]
  exact List.take_prefix _ _

/-! ## The resource request algorithm, step by step -/

theorem set_getElem?_self {α : Type} (l : List α) (i : Nat) (x : α) (h : l[i]? = some x) :
    l.set i x = l := by
  apply List.ext_getElem?
  intro j
  rw [List.getElem?_set]
  by_cases hij : i = j
  · subst hij
    rw [if_pos rfl, h]
    have : i < l.length := by
      by_contra hc
      rw [List.getElem?_eq_none (by omega)] at h
      cases h
    rw [if_pos this]
  · rw [if_neg hij]

theorem index_of_nonneg {α : Type} (a : List α) (i : Int) (h : 0 ≤ i) :
    index a i = a[i.toNat]? := by
  unfold index
  rw [if_pos h]

theorem getD_of_getElem? {α : Type} (l : List α) (i : Nat) (x d : α) (h : l[i]? = some x) :
    l.getD i d = x := by
  rw [List.getD_eq_getElem?_getD, h]
  rfl

theorem within_iff_vectorLessOrEqual (b : BankerAlgorithm) (request v : List Int)
    (hr : request.length = b.resources.toNat) (hv : v.length = b.resources.toNat) :
    vectorLessOrEqual (some request) (some v) = .ok (decide (Within b request v)) := by
  rw [vectorLessOrEqual_some]
  congr 1
  rw [Bool.eq_iff_iff, all_not_greater_iff_getD request v _ hr hv, decide_eq_true_eq]
  rfl

theorem requestResources_eq (b : BankerAlgorithm) (i : Int) (request : List Int)
    (h : WellShaped b) (hreq : ValidRequest b i request) :
    requestResources b i request =
      if Within b request (b.need.getD i.toNat []) then
        if Within b request b.available then
          settle b (speculativeApply b i.toNat request)
            (checkSafety (speculativeApply b i.toNat request) false)
        else (b, .ok deniedInsufficient)
      else (b, .ok deniedRequestExceeds) := by
  obtain ⟨hi0, hiP, hlen⟩ := hreq
  have hi : i.toNat < b.processes.toNat := by omega
  have hR : request.length = b.resources.toNat := by omega
  obtain ⟨nrow, hnrow, hnlen, _⟩ := h.need_row hi
  obtain ⟨arow, harow, halen, _⟩ := h.allocation_row hi
  have hN : index b.need i = some nrow := by rw [index_of_nonneg _ _ hi0, hnrow]
  have hA : index b.allocation i = some arow := by rw [index_of_nonneg _ _ hi0, harow]
  have hnD : b.need.getD i.toNat [] = nrow := getD_of_getElem? _ _ _ _ hnrow
  have haD : b.allocation.getD i.toNat [] = arow := getD_of_getElem? _ _ _ _ harow
  have h1 := within_iff_vectorLessOrEqual b request nrow hR hnlen
  have h2 := within_iff_vectorLessOrEqual b request b.available hR h.available_length
  have h3 := vectorSubtract_eq b.available request (by rw [h.available_length, hR])
  have h4 := vectorAdd_eq arow request (by omega)
  have h5 := vectorSubtract_eq nrow request (by omega)
  unfold requestResources
  rw [hN, h1, hnD]
  by_cases hw1 : Within b request nrow
  · rw [if_pos hw1]
    simp only [hw1, decide_True]
    rw [h2]
    by_cases hw2 : Within b request b.available
    · rw [if_pos hw2]
      simp only [hw2, decide_True, hA, h3, h4, h5]
      have hspec : speculativeApply b i.toNat request =
          { b with
            available := List.zipWith (fun x y => x - y) b.available request
            allocation := b.allocation.set i.toNat (List.zipWith (fun x y => x + y) arow request)
            need := b.need.set i.toNat (List.zipWith (fun x y => x - y) nrow request) } := by
        unfold speculativeApply
        rw [hnD, haD]
      rw [hspec]
      cases hc : checkSafety
          { b with
            available := List.zipWith (fun x y => x - y) b.available request
            allocation := b.allocation.set i.toNat (List.zipWith (fun x y => x + y) arow request)
            need := b.need.set i.toNat (List.zipWith (fun x y => x - y) nrow request) } false with
      | error e => rfl
      | ok r =>
        cases hs : r.isSafe with
        | true => simp [settle, hs, approvedWith]
        | false =>
          simp only [settle, hs, List.set_set, set_getElem?_self _ _ _ hnrow,
            set_getElem?_self _ _ _ harow]
          rfl
    · rw [if_neg hw2]
      simp only [hw2, decide_False]
      rfl
  · rw [if_neg hw1]
    simp only [hw1, decide_False]
    rfl

theorem speculativeApply_wellShaped (b : BankerAlgorithm) (i : Int) (request : List Int)
    (h : WellShaped b) (hreq : ValidRequest b i request) :
    WellShaped (speculativeApply b i.toNat request) := by
  obtain ⟨hi0, hiP, hlen⟩ := hreq
  have hi : i.toNat < b.processes.toNat := by omega
  obtain ⟨nrow, hnrow, hnlen, _⟩ := h.need_row hi
  obtain ⟨arow, harow, halen, _⟩ := h.allocation_row hi
  have hnD : b.need.getD i.toNat [] = nrow := getD_of_getElem? _ _ _ _ hnrow
  have haD : b.allocation.getD i.toNat [] = arow := getD_of_getElem? _ _ _ _ harow
  have hav := h.available_length
  obtain ⟨h1, h2, ⟨h3, h4⟩, h5, h6⟩ := h
  unfold speculativeApply
  rw [hnD, haD]
  refine ⟨?_, h2, ⟨?_, ?_⟩, ?_, ?_⟩
  · simp only [List.length_zipWith]
    omega
  · simp only [List.length_set]
    exact h3
  · intro row hrow
    rcases List.mem_or_eq_of_mem_set hrow with hm | hm
    · exact h4 row hm
    · rw [hm]
      simp only [List.length_zipWith]
      omega
  · simp only [List.length_set]
    exact h5
  · intro row hrow
    rcases List.mem_or_eq_of_mem_set hrow with hm | hm
    · exact h6 row hm
    · rw [hm]
      simp only [List.length_zipWith]
      omega

theorem checkSafety_spec_determined (b : BankerAlgorithm) (stepByStep : Bool) (h : WellShaped b) :
    ∃ r, checkSafety b stepByStep = .ok r ∧
      r.isSafe = decide (r.safeSequence.length = b.processes.toNat) ∧
      LowestIndexFirst b r.safeSequence ∧
      ∀ seq, LowestIndexFirst b seq → seq <+: r.safeSequence := by
  obtain ⟨r, hr, hsafe, hnd, hlt, hlow, hdone⟩ := checkSafety_spec b stepByStep h
  refine ⟨r, hr, hsafe, hlow, ?_⟩
  intro seq hseq
  obtain ⟨_, heq⟩ := hseq.take_eq hlow hdone hnd hlt seq.length (le_refl _)
  rw [List.take_length] at heq
  rw [heq]
  exact List.take_prefix _ _

/-- On a well-shaped state the verdict and the sequence do not depend on whether
the trace is asked for. -/
theorem checkSafety_trace_irrelevant (b : BankerAlgorithm) (h : WellShaped b)
    (s1 s2 : Bool) (r1 r2 : SafetyResult) (h1 : checkSafety b s1 = .ok r1)
    (h2 : checkSafety b s2 = .ok r2) :
    r1.safeSequence = r2.safeSequence ∧ r1.isSafe = r2.isSafe := by
  obtain ⟨q1, hq1, hsafe1, hl1, hu1⟩ := checkSafety_spec_determined b s1 h
  obtain ⟨q2, hq2, hsafe2, hl2, hu2⟩ := checkSafety_spec_determined b s2 h
  rw [h1] at hq1
  rw [h2] at hq2
  injection hq1 with hq1
  injection hq2 with hq2
  subst hq1 hq2
  have ha := hu2 _ hl1
  have hb := hu1 _ hl2
  have hseq : r1.safeSequence = r2.safeSequence :=
    ha.eq_of_length (le_antisymm ha.length_le hb.length_le)
  refine ⟨hseq, ?_⟩
  rw [hsafe1, hsafe2, hseq]

theorem requestResources_cases (b : BankerAlgorithm) (i : Int) (request : List Int)
    (h : WellShaped b) (hreq : ValidRequest b i request) :
    ∃ r, checkSafety (speculativeApply b i.toNat request) false = .ok r ∧
      ((¬ Within b request (b.need.getD i.toNat []) ∧
          requestResources b i request = (b, .ok deniedRequestExceeds)) ∨
       (Within b request (b.need.getD i.toNat []) ∧ ¬ Within b request b.available ∧
          requestResources b i request = (b, .ok deniedInsufficient)) ∨
       (Within b request (b.need.getD i.toNat []) ∧ Within b request b.available ∧
          r.isSafe = false ∧ requestResources b i request = (b, .ok deniedNotSafe)) ∨
       (Within b request (b.need.getD i.toNat []) ∧ Within b request b.available ∧
          r.isSafe = true ∧
          requestResources b i request
            = (speculativeApply b i.toNat request, .ok (approvedWith r.safeSequence)))) := by
  obtain ⟨r, hr, _⟩ := checkSafety_spec _ false (speculativeApply_wellShaped b i request h hreq)
  refine ⟨r, hr, ?_⟩
  rw [requestResources_eq b i request h hreq, hr]
  by_cases hw1 : Within b request (b.need.getD i.toNat [])
  · rw [if_pos hw1]
    by_cases hw2 : Within b request b.available
    · rw [if_pos hw2]
      cases hs : r.isSafe with
      | false =>
        right; right; left
        exact ⟨hw1, hw2, rfl, by simp [settle, hs]⟩
      | true =>
        right; right; right
        exact ⟨hw1, hw2, rfl, by simp [settle, hs]⟩
    · rw [if_neg hw2]
      right; left
      exact ⟨hw1, hw2, rfl⟩
  · rw [if_neg hw1]
    left
    exact ⟨hw1, rfl⟩

/-! ## The claims about `requestResources` -/

/-- C4 (an approved request leaves a safe state): for a state of matching shape,
a process index in `[0, P)` and a request of length `R`, `requestResources`
returns a result; if it is approved, `checkSafety` run again on the state left
behind returns `isSafe = true` with the very `safeSequence` the result carries;
and a state that `checkSafety` reports safe before the call is reported safe
after it, whatever the outcome. -/
theorem requestResources_keeps_safe (b : BankerAlgorithm) (i : Int) (request : List Int)
    (h : WellShaped b) (hreq : ValidRequest b i request) :
    ∃ res, (requestResources b i request).2 = .ok res ∧
      (res.approved = true → ∀ stepByStep, ∃ r,
        checkSafety (requestResources b i request).1 stepByStep = .ok r ∧
        r.isSafe = true ∧ res.safeSequence = some r.safeSequence) ∧
      (∀ s0 r0, checkSafety b s0 = .ok r0 → r0.isSafe = true →
        ∀ s1, ∃ r1, checkSafety (requestResources b i request).1 s1 = .ok r1 ∧
          r1.isSafe = true) := by
  have hwf := speculativeApply_wellShaped b i request h hreq
  have hsame : ∀ s0 r0, checkSafety b s0 = .ok r0 → r0.isSafe = true →
      ∀ s1, ∃ r1, checkSafety b s1 = .ok r1 ∧ r1.isSafe = true := by
    intro s0 r0 h0 hs0 s1
    obtain ⟨r1, h1, _⟩ := checkSafety_spec b s1 h
    exact ⟨r1, h1, by rw [← (checkSafety_trace_irrelevant b h s0 s1 r0 r1 h0 h1).2]; exact hs0⟩
  obtain ⟨r, hr, hcase⟩ := requestResources_cases b i request h hreq
  rcases hcase with ⟨_, heq⟩ | ⟨_, _, heq⟩ | ⟨_, _, _, heq⟩ | ⟨_, _, hs, heq⟩
  · rw [heq]
    exact ⟨_, rfl, (by intro hx; cases hx), hsame⟩
  · rw [heq]
    exact ⟨_, rfl, (by intro hx; cases hx), hsame⟩
  · rw [heq]
    exact ⟨_, rfl, (by intro hx; cases hx), hsame⟩
  · rw [heq]
    have hafter : ∀ s1, ∃ r1, checkSafety (speculativeApply b i.toNat request) s1 = .ok r1 ∧
        r1.isSafe = true ∧ r.safeSequence = r1.safeSequence := by
      intro s1
      obtain ⟨r1, h1, _⟩ := checkSafety_spec _ s1 hwf
      have hirr := checkSafety_trace_irrelevant _ hwf false s1 r r1 hr h1
      exact ⟨r1, h1, by rw [← hirr.2]; exact hs, hirr.1⟩
    refine ⟨_, rfl, ?_, ?_⟩
    · intro _ s1
      obtain ⟨r1, h1, hs1, hseq⟩ := hafter s1
      exact ⟨r1, h1, hs1, by simp [approvedWith, hseq]⟩
    · intro _ _ _ _ s1
      obtain ⟨r1, h1, hs1, _⟩ := hafter s1
      exact ⟨r1, h1, hs1⟩

/-- Witness of C4: process 1 of scenario 1 asks for `[1, 0, 2]`. -/
theorem requestResources_keeps_safe_witness :
    WellShaped demoScenario1 ∧ ValidRequest demoScenario1 1 [1, 0, 2] ∧
    ∃ res, (requestResources demoScenario1 1 [1, 0, 2]).2 = .ok res ∧
      (res.approved = true → ∀ stepByStep, ∃ r,
        checkSafety (requestResources demoScenario1 1 [1, 0, 2]).1 stepByStep = .ok r ∧
        r.isSafe = true ∧ res.safeSequence = some r.safeSequence) ∧
      (∀ s0 r0, checkSafety demoScenario1 s0 = .ok r0 → r0.isSafe = true →
        ∀ s1, ∃ r1, checkSafety (requestResources demoScenario1 1 [1, 0, 2]).1 s1 = .ok r1 ∧
          r1.isSafe = true) :=
  ⟨by decide, by decide,
    requestResources_keeps_safe demoScenario1 1 [1, 0, 2] (by decide) (by decide)⟩

/-- C5 (approval criterion): for a state of matching shape, a process index `i`
in `[0, P)` and a request of length `R`, the result is approved exactly when
`request <= Need[i]` and `request <= Available` componentwise and `checkSafety`
reports `isSafe = true` on the state after the speculative apply; an approved
result has reason `safe` and carries that check's sequence; and when both
bounds hold but the speculative state is not safe, the result is not approved,
has reason `unsafe` and an empty sequence. -/
theorem requestResources_approval_criterion (b : BankerAlgorithm) (i : Int)
    (request : List Int) (h : WellShaped b) (hreq : ValidRequest b i request) :
    ∃ res r, (requestResources b i request).2 = .ok res ∧
      checkSafety (speculativeApply b i.toNat request) false = .ok r ∧
      (res.approved = true ↔
        Within b request (b.need.getD i.toNat []) ∧ Within b request b.available ∧
        r.isSafe = true) ∧
      (res.approved = true ↔ res.reason = "safe") ∧
      (res.approved = true → res.safeSequence = some r.safeSequence) ∧
      (Within b request (b.need.getD i.toNat []) → Within b request b.available →
        r.isSafe = false →
        res.approved = false ∧ res.reason = "unsafe" ∧ res.safeSequence = some []) := by
  obtain ⟨r, hr, hcase⟩ := requestResources_cases b i request h hreq
  rcases hcase with ⟨hn, heq⟩ | ⟨hn, ha, heq⟩ | ⟨hn, ha, hs, heq⟩ | ⟨hn, ha, hs, heq⟩
  · refine ⟨_, r, by rw [heq], hr, ?_, ?_, ?_, ?_⟩
    · exact ⟨fun hx => (by cases hx), fun hx => absurd hx.1 hn⟩
    · simp only [deniedRequestExceeds]; decide
    · intro hx; cases hx
    · intro hx; exact absurd hx hn
  · refine ⟨_, r, by rw [heq], hr, ?_, ?_, ?_, ?_⟩
    · exact ⟨fun hx => (by cases hx), fun hx => absurd hx.2.1 ha⟩
    · simp only [deniedInsufficient]; decide
    · intro hx; cases hx
    · intro _ hx; exact absurd hx ha
  · refine ⟨_, r, by rw [heq], hr, ?_, ?_, ?_, ?_⟩
    · exact ⟨fun hx => (by cases hx), fun hx => by rw [hs] at hx; cases hx.2.2⟩
    · simp only [deniedNotSafe]; decide
    · intro hx; cases hx
    · intro _ _ _; exact ⟨rfl, rfl, rfl⟩
  · refine ⟨_, r, by rw [heq], hr, ?_, ?_, ?_, ?_⟩
    · exact ⟨fun _ => ⟨hn, ha, hs⟩, fun _ => rfl⟩
    · simp [approvedWith]
    · intro _; rfl
    · intro _ _ hx; rw [hs] at hx; cases hx

/-- Witness of C5: process 0 of scenario 1 asks for `[0, 2, 0]`. -/
theorem requestResources_approval_criterion_witness :
    WellShaped demoScenario1 ∧ ValidRequest demoScenario1 0 [0, 2, 0] ∧
    ∃ res r, (requestResources demoScenario1 0 [0, 2, 0]).2 = .ok res ∧
      checkSafety (speculativeApply demoScenario1 (0 : Int).toNat [0, 2, 0]) false = .ok r ∧
      (res.approved = true ↔
        Within demoScenario1 [0, 2, 0] (demoScenario1.need.getD (0 : Int).toNat []) ∧
        Within demoScenario1 [0, 2, 0] demoScenario1.available ∧ r.isSafe = true) ∧
      (res.approved = true ↔ res.reason = "safe") ∧
      (res.approved = true → res.safeSequence = some r.safeSequence) ∧
      (Within demoScenario1 [0, 2, 0] (demoScenario1.need.getD (0 : Int).toNat []) →
        Within demoScenario1 [0, 2, 0] demoScenario1.available →
        r.isSafe = false →
        res.approved = false ∧ res.reason = "unsafe" ∧ res.safeSequence = some []) :=
  ⟨by decide, by decide,
    requestResources_approval_criterion demoScenario1 0 [0, 2, 0] (by decide) (by decide)⟩

/-- C6 (no live mutation on denial): for a state of matching shape, a process
index in `[0, P)` and a request of length `R`, if `requestResources` returns
`approved = false` then the reason is `request_exceeds`,
`insufficient_resources` or `unsafe`, and the state after the call is the state
before it: Available, Max, Allocation and Need are entry for entry the same. -/
theorem requestResources_denied_unchanged (b : BankerAlgorithm) (i : Int)
    (request : List Int) (h : WellShaped b) (hreq : ValidRequest b i request) :
    ∃ res, (requestResources b i request).2 = .ok res ∧
      (res.approved = false →
        (requestResources b i request).1 = b ∧
        (res.reason = "request_exceeds" ∨ res.reason = "insufficient_resources" ∨
          res.reason = "unsafe")) := by
  obtain ⟨r, hr, hcase⟩ := requestResources_cases b i request h hreq
  rcases hcase with ⟨_, heq⟩ | ⟨_, _, heq⟩ | ⟨_, _, _, heq⟩ | ⟨_, _, _, heq⟩
  · rw [heq]
    exact ⟨_, rfl, fun _ => ⟨rfl, Or.inl rfl⟩⟩
  · rw [heq]
    exact ⟨_, rfl, fun _ => ⟨rfl, Or.inr (Or.inl rfl)⟩⟩
  · rw [heq]
    exact ⟨_, rfl, fun _ => ⟨rfl, Or.inr (Or.inr rfl)⟩⟩
  · rw [heq]
    exact ⟨_, rfl, by intro hx; cases hx⟩

/-- Witness of C6 on the rollback branch: in scenario 1, process 0 asks for
`[0, 3, 0]`, which is within Need and Available and leaves an unsafe state. -/
theorem requestResources_denied_unchanged_witness :
    WellShaped demoScenario1 ∧ ValidRequest demoScenario1 0 [0, 3, 0] ∧
    ∃ res, (requestResources demoScenario1 0 [0, 3, 0]).2 = .ok res ∧
      (res.approved = false →
        (requestResources demoScenario1 0 [0, 3, 0]).1 = demoScenario1 ∧
        (res.reason = "request_exceeds" ∨ res.reason = "insufficient_resources" ∨
          res.reason = "unsafe")) :=
  ⟨by decide, by decide,
    requestResources_denied_unchanged demoScenario1 0 [0, 3, 0] (by decide) (by decide)⟩

theorem requestResources_reason_exceeds (b : BankerAlgorithm) (i : Int) (request : List Int)
    (res : RequestResult) (h1 : (requestResources b i request).2 = .ok res)
    (h2 : res.reason = "request_exceeds") :
    vectorLessOrEqual (some request) (index b.need i) = .ok false := by
  unfold requestResources at h1
  repeat' split at h1
  all_goals first
    | assumption
    | (simp at h1; done)
    | (simp at h1; rw [← h1] at h2; exact absurd h2 (by decide))
    | (dsimp only at h1
       split at h1
       · simp at h1
       · split at h1
         · simp at h1; rw [← h1] at h2
           exact absurd (show "safe" = "request_exceeds" from h2) (by decide)
         · simp at h1; rw [← h1] at h2; exact absurd h2 (by decide))

theorem all_not_greater_false_iff (a v : List Int) (n : Nat) (hv : v.length = n) :
    ((List.range a.length).all fun i => !greater a[i]? v[i]?) = false
      ↔ ∃ j, j < a.length ∧ j < n ∧ v.getD j 0 < a.getD j 0 := by
  rw [← Bool.not_eq_true, all_not_greater_iff]
  constructor
  · intro hne
    by_contra hc
    apply hne
    intro j x y hx hy
    by_contra hxy
    apply hc
    have hja : j < a.length := by
      by_contra hlt
      rw [List.getElem?_eq_none (by omega)] at hx
      cases hx
    have hjv : j < v.length := by
      by_contra hlt
      rw [List.getElem?_eq_none (by omega)] at hy
      cases hy
    refine ⟨j, hja, by omega, ?_⟩
    rw [getD_of_getElem? _ _ _ _ hx, getD_of_getElem? _ _ _ _ hy]
    omega
  · rintro ⟨j, hja, hjn, hlt⟩ hall
    have h1 := hall j _ _ (List.getElem?_eq_getElem hja) (List.getElem?_eq_getElem (by omega))
    rw [getD_of_getElem? _ _ _ _ (List.getElem?_eq_getElem hja),
      getD_of_getElem? _ _ _ _ (List.getElem?_eq_getElem (by omega : j < v.length))] at hlt
    omega

theorem not_within_iff (b : BankerAlgorithm) (request v : List Int) :
    ¬ Within b request v ↔ ∃ j, j < b.resources.toNat ∧ v.getD j 0 < request.getD j 0 := by
  unfold Within
  constructor
  · intro hn
    by_contra hc
    apply hn
    intro j hj
    by_contra hle
    exact hc ⟨j, hj, by omega⟩
  · rintro ⟨j, hj, hlt⟩ hw
    have := hw j hj
    omega

theorem zipWith_sub_eq_self (a : List Int) : ∀ v : List Int, a.length = v.length →
    (List.zipWith (fun x y => x - y) a v = a ↔ ∀ x ∈ v, x = 0) := by
  induction a with
  | nil =>
    intro v hv
    cases v with
    | nil => simp
    | cons y ys => simp at hv
  | cons x xs ih =>
    intro v hv
    cases v with
    | nil => simp at hv
    | cons y ys =>
      have h := ih ys (by simpa using hv)
      simp only [List.zipWith_cons_cons, List.cons.injEq, List.mem_cons, forall_eq_or_imp, h]
      constructor
      · rintro ⟨h1, h2⟩; exact ⟨by omega, h2⟩
      · rintro ⟨h1, h2⟩; exact ⟨by omega, h2⟩

theorem zipWith_add_zero (a : List Int) : ∀ v : List Int, a.length = v.length →
    (∀ x ∈ v, x = 0) → List.zipWith (fun x y => x + y) a v = a := by
  induction a with
  | nil => intro v _ _; simp
  | cons x xs ih =>
    intro v hv hz
    cases v with
    | nil => simp at hv
    | cons y ys =>
      have hy : y = 0 := hz y (List.mem_cons_self _ _)
      have h := ih ys (by simpa using hv) (fun x hx => hz x (List.mem_cons_of_mem _ hx))
      simp [h, hy]

theorem speculativeApply_eq_self_iff (b : BankerAlgorithm) (i : Int) (request : List Int)
    (h : WellShaped b) (hreq : ValidRequest b i request) :
    speculativeApply b i.toNat request = b ↔ ∀ x ∈ request, x = 0 := by
  obtain ⟨hi0, hiP, hlen⟩ := hreq
  have hi : i.toNat < b.processes.toNat := by omega
  have hR : request.length = b.resources.toNat := by omega
  obtain ⟨nrow, hnrow, hnlen, _⟩ := h.need_row hi
  obtain ⟨arow, harow, halen, _⟩ := h.allocation_row hi
  have hnD : b.need.getD i.toNat [] = nrow := getD_of_getElem? _ _ _ _ hnrow
  have haD : b.allocation.getD i.toNat [] = arow := getD_of_getElem? _ _ _ _ harow
  have hav := h.available_length
  constructor
  · intro heq
    have h1 : (speculativeApply b i.toNat request).available = b.available := by rw [heq]
    exact (zipWith_sub_eq_self b.available request (by omega)).1 h1
  · intro hz
    unfold speculativeApply
    rw [hnD, haD, (zipWith_sub_eq_self b.available request (by omega)).2 hz,
      (zipWith_sub_eq_self nrow request (by omega)).2 hz,
      zipWith_add_zero arow request (by omega) hz,
      set_getElem?_self _ _ _ hnrow, set_getElem?_self _ _ _ harow]

theorem getD_zipWith (f : Int → Int → Int) (a v : List Int) (j : Nat) (ha : j < a.length)
    (hv : j < v.length) :
    (List.zipWith f a v).getD j 0 = f (a.getD j 0) (v.getD j 0) := by
  simp only [List.getD_eq_getElem?_getD, List.getElem?_zipWith,
    List.getElem?_eq_getElem ha, List.getElem?_eq_getElem hv, Option.getD_some]

theorem entry_set_self (m : List (List Int)) (i j : Nat) (row : List Int)
    (hi : i < m.length) : entry (m.set i row) i j = row.getD j 0 := by
  unfold entry
  have hrow : (m.set i row).getD i [] = row :=
    getD_of_getElem? _ _ _ _ (by rw [List.getElem?_set, if_pos rfl, if_pos hi])
  rw [hrow]

/-- With exact arithmetic: the claim that the state is never changed fails, as
`requestResources` works on `this` and keeps the speculative apply when it
approves.  For a state of matching shape, a process index in `[0, P)` and a
request of length `R`, the state after the call equals the state before it
exactly when the request is denied or the request is zero in every component. -/
theorem requestResources_unchanged_iff_exact (b : BankerAlgorithm) (i : Int) (request : List Int)
    (h : WellShaped b) (hreq : ValidRequest b i request) :
    ∃ res, (requestResources b i request).2 = .ok res ∧
      ((requestResources b i request).1 = b ↔
        (res.approved = false ∨ ∀ x ∈ request, x = 0)) := by
  obtain ⟨r, hr, hcase⟩ := requestResources_cases b i request h hreq
  rcases hcase with ⟨_, heq⟩ | ⟨_, _, heq⟩ | ⟨_, _, _, heq⟩ | ⟨_, _, _, heq⟩
  · rw [heq]
    exact ⟨_, rfl, fun _ => Or.inl rfl, fun _ => rfl⟩
  · rw [heq]
    exact ⟨_, rfl, fun _ => Or.inl rfl, fun _ => rfl⟩
  · rw [heq]
    exact ⟨_, rfl, fun _ => Or.inl rfl, fun _ => rfl⟩
  · rw [heq]
    refine ⟨_, rfl, ?_, ?_⟩
    · intro hx
      exact Or.inr ((speculativeApply_eq_self_iff b i request h hreq).1 hx)
    · intro hx
      rcases hx with hx | hx
      · cases hx
      · exact (speculativeApply_eq_self_iff b i request h hreq).2 hx

/-- Counterexample to C7 as stated: in scenario 1, process 1 asks for
`[1, 0, 2]`; the request is approved and the state the call was made on has
changed (Available went from `[3, 3, 2]` to `[2, 3, 0]`). -/
theorem requestResources_mutates_on_approval :
    (requestResourcesRounded demoScenario1 1 [1, 0, 2]).2
      = .ok (approvedWith [1, 3, 0, 2, 4]) ∧
    (requestResourcesRounded demoScenario1 1 [1, 0, 2]).1 ≠ demoScenario1 ∧
    demoScenario1.available = [3, 3, 2] ∧
    (requestResourcesRounded demoScenario1 1 [1, 0, 2]).1.available = [2, 3, 0] := by
  decide

/-- With exact arithmetic (effect of an approved request): for a state of matching shape, a process
index `i` in `[0, P)` and a request of length `R`, if `requestResources`
approves, the state it leaves has Available = old Available - request,
Allocation[i] = old Allocation[i] + request and Need[i] = old Need[i] - request
componentwise, while `processes`, `resources`, Max and every other row of
Allocation and Need are as before (and the shape is kept). -/
theorem requestResources_approved_effect_exact (b : BankerAlgorithm) (i : Int)
    (request : List Int) (h : WellShaped b) (hreq : ValidRequest b i request) :
    ∃ res, (requestResources b i request).2 = .ok res ∧
      (res.approved = true →
        (requestResources b i request).1.processes = b.processes ∧
        (requestResources b i request).1.resources = b.resources ∧
        (requestResources b i request).1.max = b.max ∧
        WellShaped (requestResources b i request).1 ∧
        (∀ j, j < b.resources.toNat →
          (requestResources b i request).1.available.getD j 0
            = b.available.getD j 0 - request.getD j 0) ∧
        (∀ j, j < b.resources.toNat →
          entry (requestResources b i request).1.allocation i.toNat j
            = entry b.allocation i.toNat j + request.getD j 0) ∧
        (∀ j, j < b.resources.toNat →
          entry (requestResources b i request).1.need i.toNat j
            = entry b.need i.toNat j - request.getD j 0) ∧
        (∀ k, k ≠ i.toNat →
          (requestResources b i request).1.allocation[k]? = b.allocation[k]? ∧
          (requestResources b i request).1.need[k]? = b.need[k]?)) := by
  obtain ⟨r, hr, hcase⟩ := requestResources_cases b i request h hreq
  rcases hcase with ⟨_, heq⟩ | ⟨_, _, heq⟩ | ⟨_, _, _, heq⟩ | ⟨_, _, _, heq⟩
  · rw [heq]
    exact ⟨_, rfl, by intro hx; cases hx⟩
  · rw [heq]
    exact ⟨_, rfl, by intro hx; cases hx⟩
  · rw [heq]
    exact ⟨_, rfl, by intro hx; cases hx⟩
  · rw [heq]
    refine ⟨_, rfl, fun _ => ?_⟩
    have hwf := speculativeApply_wellShaped b i request h hreq
    obtain ⟨hi0, hiP, hlen⟩ := hreq
    have hi : i.toNat < b.processes.toNat := by omega
    have hR : request.length = b.resources.toNat := by omega
    obtain ⟨nrow, hnrow, hnlen, hnent⟩ := h.need_row hi
    obtain ⟨arow, harow, halen, haent⟩ := h.allocation_row hi
    have hnD : b.need.getD i.toNat [] = nrow := getD_of_getElem? _ _ _ _ hnrow
    have haD : b.allocation.getD i.toNat [] = arow := getD_of_getElem? _ _ _ _ harow
    have hav := h.available_length
    have hnl : i.toNat < b.need.length := by have := h.2.2.2.1; omega
    have hal : i.toNat < b.allocation.length := by have := h.2.2.1.1; omega
    refine ⟨rfl, rfl, rfl, hwf, ?_, ?_, ?_, ?_⟩
    · intro j hj
      exact getD_zipWith _ _ _ _ (by omega) (by omega)
    · intro j hj
      show entry (b.allocation.set i.toNat _) i.toNat j = _
      rw [entry_set_self _ _ _ _ hal, haD, getD_zipWith _ _ _ _ (by omega) (by omega),
        haent j]
    · intro j hj
      show entry (b.need.set i.toNat _) i.toNat j = _
      rw [entry_set_self _ _ _ _ hnl, hnD, getD_zipWith _ _ _ _ (by omega) (by omega),
        hnent j]
    · intro k hk
      constructor
      · show (b.allocation.set i.toNat _)[k]? = _
        rw [List.getElem?_set, if_neg (fun hx => hk hx.symm)]
      · show (b.need.set i.toNat _)[k]? = _
        rw [List.getElem?_set, if_neg (fun hx => hk hx.symm)]

/-- C9 (the Need bound is checked first): for a state of matching shape, a
process index `i` in `[0, P)` and any request, if some `request[j]` is above
`Need[i][j]` then `requestResources` returns `approved = false` with reason
`request_exceeds` and leaves the state as it was, whether or not the request
also exceeds Available; and a result with reason `request_exceeds` is returned
in no other case. -/
theorem requestResources_need_bound_first (b : BankerAlgorithm) (i : Int)
    (request : List Int) (h : WellShaped b) (hi0 : 0 ≤ i) (hiP : i < b.processes) :
    ((∃ j, j < request.length ∧ j < b.resources.toNat ∧
        entry b.need i.toNat j < request.getD j 0) →
      (requestResources b i request).1 = b ∧
      ∃ res, (requestResources b i request).2 = .ok res ∧
        res.approved = false ∧ res.reason = "request_exceeds") ∧
    (∀ res, (requestResources b i request).2 = .ok res → res.reason = "request_exceeds" →
      ∃ j, j < request.length ∧ j < b.resources.toNat ∧
        entry b.need i.toNat j < request.getD j 0) := by
  have hi : i.toNat < b.processes.toNat := by omega
  obtain ⟨nrow, hnrow, hnlen, hnent⟩ := h.need_row hi
  have hN : index b.need i = some nrow := by rw [index_of_nonneg _ _ hi0, hnrow]
  have hiff := all_not_greater_false_iff request nrow _ hnlen
  constructor
  · rintro ⟨j, hj1, hj2, hj3⟩
    have hv : vectorLessOrEqual (some request) (index b.need i) = .ok false := by
      rw [hN, vectorLessOrEqual_some, hiff.2 ⟨j, hj1, hj2, by rw [hnent j]; exact hj3⟩]
    unfold requestResources
    rw [hv]
    exact ⟨rfl, _, rfl, rfl, rfl⟩
  · intro res h1 h2
    have hv := requestResources_reason_exceeds b i request res h1 h2
    rw [hN, vectorLessOrEqual_some] at hv
    injection hv with hv
    obtain ⟨j, hj1, hj2, hj3⟩ := hiff.1 hv
    exact ⟨j, hj1, hj2, by rw [← hnent j]; exact hj3⟩

/-- Witness of C9, spec scenario 3: process 0 with Need `[2, 2, 2]` asks for
`[3, 0, 0]`, which is above Available `[1, 0, 0]` too. -/
theorem requestResources_need_bound_first_witness :
    WellShaped scenario3 ∧ (0 : Int) ≤ 0 ∧ (0 : Int) < scenario3.processes ∧
    ((∃ j, j < [(3 : Int), 0, 0].length ∧ j < scenario3.resources.toNat ∧
        entry scenario3.need (0 : Int).toNat j < [(3 : Int), 0, 0].getD j 0) →
      (requestResources scenario3 0 [3, 0, 0]).1 = scenario3 ∧
      ∃ res, (requestResources scenario3 0 [3, 0, 0]).2 = .ok res ∧
        res.approved = false ∧ res.reason = "request_exceeds") ∧
    (∀ res, (requestResources scenario3 0 [3, 0, 0]).2 = .ok res →
      res.reason = "request_exceeds" →
      ∃ j, j < [(3 : Int), 0, 0].length ∧ j < scenario3.resources.toNat ∧
        entry scenario3.need (0 : Int).toNat j < [(3 : Int), 0, 0].getD j 0) :=
  ⟨by decide, by decide, by decide,
    requestResources_need_bound_first scenario3 0 [3, 0, 0] (by decide) (by decide)
      (by decide)⟩

/-- C10 (availability bound): for a state of matching shape, a process index
`i` in `[0, P)` and a request of length `R`, `requestResources` returns
reason `insufficient_resources` exactly when `request <= Need[i]`
componentwise and some `request[j]` is above `Available[j]`; such a result has
`approved = false` and the state is left as it was. -/
theorem requestResources_availability_bound (b : BankerAlgorithm) (i : Int)
    (request : List Int) (h : WellShaped b) (hreq : ValidRequest b i request) :
    ∃ res, (requestResources b i request).2 = .ok res ∧
      (res.reason = "insufficient_resources" ↔
        (Within b request (b.need.getD i.toNat []) ∧
          ∃ j, j < b.resources.toNat ∧ b.available.getD j 0 < request.getD j 0)) ∧
      (res.reason = "insufficient_resources" →
        res.approved = false ∧ (requestResources b i request).1 = b) := by
  obtain ⟨r, hr, hcase⟩ := requestResources_cases b i request h hreq
  rcases hcase with ⟨hn, heq⟩ | ⟨hn, ha, heq⟩ | ⟨hn, ha, _, heq⟩ | ⟨hn, ha, _, heq⟩
  · rw [heq]
    refine ⟨_, rfl, ⟨fun hx => ?_, fun hx => absurd hx.1 hn⟩, fun hx => ?_⟩
    · exact absurd (show "request_exceeds" = "insufficient_resources" from hx) (by decide)
    · exact absurd (show "request_exceeds" = "insufficient_resources" from hx) (by decide)
  · rw [heq]
    exact ⟨_, rfl, ⟨fun _ => ⟨hn, (not_within_iff _ _ _).1 ha⟩, fun _ => rfl⟩,
      fun _ => ⟨rfl, rfl⟩⟩
  · rw [heq]
    refine ⟨_, rfl, ⟨fun hx => ?_, fun hx => absurd ha ((not_within_iff _ _ _).2 hx.2)⟩,
      fun hx => ?_⟩
    · exact absurd (show "unsafe" = "insufficient_resources" from hx) (by decide)
    · exact absurd (show "unsafe" = "insufficient_resources" from hx) (by decide)
  · rw [heq]
    refine ⟨_, rfl, ⟨fun hx => ?_, fun hx => absurd ha ((not_within_iff _ _ _).2 hx.2)⟩,
      fun hx => ?_⟩
    · exact absurd (show "safe" = "insufficient_resources" from hx) (by decide)
    · exact absurd (show "safe" = "insufficient_resources" from hx) (by decide)

/-- Witness of C10, spec scenario 4: Available is `[1, 0, 0]` and the process
asks for `[2, 0, 0]`, within its Need `[2, 2, 2]`. -/
theorem requestResources_availability_bound_witness :
    WellShaped scenario3 ∧ ValidRequest scenario3 0 [2, 0, 0] ∧
    ∃ res, (requestResources scenario3 0 [2, 0, 0]).2 = .ok res ∧
      (res.reason = "insufficient_resources" ↔
        (Within scenario3 [2, 0, 0] (scenario3.need.getD (0 : Int).toNat []) ∧
          ∃ j, j < scenario3.resources.toNat ∧
            scenario3.available.getD j 0 < [(2 : Int), 0, 0].getD j 0)) ∧
      (res.reason = "insufficient_resources" →
        res.approved = false ∧ (requestResources scenario3 0 [2, 0, 0]).1 = scenario3) :=
  ⟨by decide, by decide,
    requestResources_availability_bound scenario3 0 [2, 0, 0] (by decide) (by decide)⟩

/-! ## Need recomputation -/

theorem assign_of_lt {α : Type} (a : List α) (j : Nat) (v : α) (h : j < a.length) :
    assign a (j : Int) v = some (a.set j v) := by
  unfold assign
  rw [if_pos ⟨by omega, by simpa using h⟩]
  simp

theorem assign_length {α : Type} (a : List α) (v : α) :
    assign a (a.length : Int) v = some (a ++ [v]) := by
  unfold assign
  rw [if_neg (by simp), if_pos rfl]

theorem ext_getD (a v : List Int) (hlen : a.length = v.length)
    (h : ∀ t, t < a.length → a.getD t 0 = v.getD t 0) : a = v := by
  apply List.ext_getElem hlen
  intro t h1 h2
  have := h t h1
  rw [List.getD_eq_getElem?_getD, List.getD_eq_getElem?_getD,
    List.getElem?_eq_getElem h1, List.getElem?_eq_getElem h2] at this
  simpa using this

theorem needLoop_spec (maxRow allocationRow : List Int) : ∀ (n j : Nat) (needRow : List Int),
    j + n ≤ needRow.length → j + n ≤ maxRow.length → j + n ≤ allocationRow.length →
    ∃ row, needLoop maxRow allocationRow n j needRow = .ok row ∧
      row.length = needRow.length ∧
      ∀ t, row.getD t 0 =
        if j ≤ t ∧ t < j + n then maxRow.getD t 0 - allocationRow.getD t 0
        else needRow.getD t 0 := by
  intro n
  induction n with
  | zero =>
    intro j needRow _ _ _
    refine ⟨needRow, rfl, rfl, ?_⟩
    intro t
    have h0 : ¬ (j ≤ t ∧ t < j + 0) := by omega
    rw [if_neg h0]
  | succ n ih =>
    intro j needRow h1 h2 h3
    have hjn : j < needRow.length := by omega
    have hjm : j < maxRow.length := by omega
    have hja : j < allocationRow.length := by omega
    obtain ⟨row, hr1, hr2, hr3⟩ := ih (j + 1) (needRow.set j (maxRow[j] - allocationRow[j]))
      (by simp; omega) (by omega) (by omega)
    refine ⟨row, ?_, by simpa using hr2, ?_⟩
    · simp only [needLoop, List.getElem?_eq_getElem hjm, List.getElem?_eq_getElem hja,
        assign_of_lt _ _ _ hjn]
      exact hr1
    · intro t
      rw [hr3 t]
      simp only [List.getD_eq_getElem?_getD, List.getElem?_set]
      by_cases htj : j = t
      · subst htj
        simp [hjn, List.getElem?_eq_getElem hjm, List.getElem?_eq_getElem hja]
      · by_cases hc : j + 1 ≤ t ∧ t < j + 1 + n
        · have hc2 : j ≤ t ∧ t < j + (n + 1) := by omega
          simp [hc, hc2, htj]
        · have hc2 : ¬ (j ≤ t ∧ t < j + (n + 1)) := by omega
          simp [hc, hc2, htj]

theorem WellShaped.max_row {b : BankerAlgorithm} (h : WellShaped b) {i : Nat}
    (hi : i < b.processes.toNat) :
    ∃ row, b.max[i]? = some row ∧ row.length = b.resources.toNat ∧
      ∀ j, row.getD j 0 = entry b.max i j := by
  obtain ⟨_, ⟨hn, hr⟩, _, _⟩ := h
  have hlt : i < b.max.length := by omega
  refine ⟨b.max[i], List.getElem?_eq_getElem hlt, ?_, ?_⟩
  · have := hr b.max[i] (List.getElem_mem hlt)
    omega
  · intro j
    simp [entry, List.getD_eq_getElem?_getD, List.getElem?_eq_getElem hlt]

theorem calculateNeed_eq (b : BankerAlgorithm) (i : Int) (h : WellShaped b) (hi0 : 0 ≤ i)
    (hiP : i < b.processes) :
    calculateNeed b i = (recomputeNeed b i.toNat, .ok ()) := by
  have hi : i.toNat < b.processes.toNat := by omega
  obtain ⟨nrow, hnrow, hnlen, _⟩ := h.need_row hi
  obtain ⟨arow, harow, halen, _⟩ := h.allocation_row hi
  obtain ⟨mrow, hmrow, hmlen, _⟩ := h.max_row hi
  have hnD : b.need.getD i.toNat [] = nrow := getD_of_getElem? _ _ _ _ hnrow
  have haD : b.allocation.getD i.toNat [] = arow := getD_of_getElem? _ _ _ _ harow
  have hmD : b.max.getD i.toNat [] = mrow := getD_of_getElem? _ _ _ _ hmrow
  obtain ⟨row, hr1, hr2, hr3⟩ := needLoop_spec mrow arow b.resources.toNat 0 nrow
    (by omega) (by omega) (by omega)
  have hrow : row = List.zipWith (fun x y => x - y) mrow arow := by
    apply ext_getD
    · simp only [List.length_zipWith]; omega
    · intro t ht
      rw [hr3 t, getD_zipWith _ _ _ _ (by omega) (by omega)]
      rw [if_pos (by omega)]
  unfold calculateNeed recomputeNeed
  rw [hmD, haD]
  by_cases hR : b.resources.toNat = 0
  · rw [if_pos hR]
    have hz : List.zipWith (fun x y => x - y) mrow arow = nrow := by
      have h1 : nrow = [] := List.length_eq_zero.1 (by omega)
      have h2 : mrow = [] := List.length_eq_zero.1 (by omega)
      rw [h1, h2]
      rfl
    rw [hz, set_getElem?_self _ _ _ hnrow]
  · rw [if_neg hR, index_of_nonneg _ _ hi0, index_of_nonneg _ _ hi0, index_of_nonneg _ _ hi0,
      hnrow, hmrow, harow]
    simp only [hr1, hrow]

theorem entry_set_ne (m : List (List Int)) (i k j : Nat) (row : List Int) (hk : k ≠ i) :
    entry (m.set i row) k j = entry m k j := by
  unfold entry
  have hrow : (m.set i row).getD k [] = m.getD k [] := by
    rw [List.getD_eq_getElem?_getD, List.getD_eq_getElem?_getD, List.getElem?_set,
      if_neg (fun hx => hk hx.symm)]
  rw [hrow]

theorem wellShaped_set_rows (m : List (List Int)) (i : Nat) (row : List Int) (P R : Int)
    (h : (m.length : Int) = P ∧ ∀ r ∈ m, (r.length : Int) = R)
    (hrow : (row.length : Int) = R) :
    ((m.set i row).length : Int) = P ∧ ∀ r ∈ m.set i row, (r.length : Int) = R := by
  refine ⟨by rw [List.length_set]; exact h.1, ?_⟩
  intro r hr
  rcases List.mem_or_eq_of_mem_set hr with hm | hm
  · exact h.2 r hm
  · rw [hm]; exact hrow

theorem recomputeNeed_wellShaped (b : BankerAlgorithm) (i : Nat) (h : WellShaped b)
    (hi : i < b.processes.toNat) : WellShaped (recomputeNeed b i) := by
  obtain ⟨arow, harow, halen, _⟩ := h.allocation_row hi
  obtain ⟨mrow, hmrow, hmlen, _⟩ := h.max_row hi
  have haD : b.allocation.getD i [] = arow := getD_of_getElem? _ _ _ _ harow
  have hmD : b.max.getD i [] = mrow := getD_of_getElem? _ _ _ _ hmrow
  have hav := h.available_length
  obtain ⟨h1, h2, h3, h4⟩ := h
  unfold recomputeNeed
  rw [haD, hmD]
  refine ⟨h1, h2, h3, ?_⟩
  apply wellShaped_set_rows _ _ _ _ _ h4
  simp only [List.length_zipWith]
  omega

theorem recomputeNeed_consistent (b : BankerAlgorithm) (i : Nat) (h : WellShaped b)
    (hi : i < b.processes.toNat)
    (hother : ∀ k, k < b.processes.toNat → k ≠ i → ∀ j, j < b.resources.toNat →
      entry b.need k j = entry b.max k j - entry b.allocation k j) :
    NeedConsistent (recomputeNeed b i) := by
  obtain ⟨arow, harow, halen, haent⟩ := h.allocation_row hi
  obtain ⟨mrow, hmrow, hmlen, hment⟩ := h.max_row hi
  have haD : b.allocation.getD i [] = arow := getD_of_getElem? _ _ _ _ harow
  have hmD : b.max.getD i [] = mrow := getD_of_getElem? _ _ _ _ hmrow
  have hnl : i < b.need.length := by have := h.2.2.2.1; omega
  intro k hk1 j hj1
  have hk : k < b.processes.toNat := hk1
  have hj : j < b.resources.toNat := hj1
  show entry (b.need.set i _) k j = entry b.max k j - entry b.allocation k j
  by_cases hki : k = i
  · subst hki
    rw [entry_set_self _ _ _ _ hnl, hmD, haD, getD_zipWith _ _ _ _ (by omega) (by omega),
      hment j, haent j]
  · rw [entry_set_ne _ _ _ _ _ hki]
    exact hother k hk hki j hj

theorem assign_of_range {α : Type} (a : List α) (i : Int) (v : α) (h0 : 0 ≤ i)
    (h : i < (a.length : Int)) : assign a i v = some (a.set i.toNat v) := by
  unfold assign
  rw [if_pos ⟨h0, by omega⟩]

theorem setMax_eq (b : BankerAlgorithm) (i : Int) (values : List Int) (h : WellShaped b)
    (hi0 : 0 ≤ i) (hiP : i < b.processes) (hlen : (values.length : Int) = b.resources) :
    WellShaped { b with max := b.max.set i.toNat values } ∧
    setMax b i values
      = (recomputeNeed { b with max := b.max.set i.toNat values } i.toNat, .ok ()) := by
  have hwf : WellShaped { b with max := b.max.set i.toNat values } :=
    ⟨h.1, wellShaped_set_rows _ _ _ _ _ h.2.1 hlen, h.2.2.1, h.2.2.2⟩
  refine ⟨hwf, ?_⟩
  unfold setMax
  rw [assign_of_range _ _ _ hi0 (by have := h.2.1.1; omega)]
  exact calculateNeed_eq _ i hwf hi0 hiP

theorem setAllocation_eq (b : BankerAlgorithm) (i : Int) (values : List Int)
    (h : WellShaped b) (hi0 : 0 ≤ i) (hiP : i < b.processes)
    (hlen : (values.length : Int) = b.resources) :
    WellShaped { b with allocation := b.allocation.set i.toNat values } ∧
    setAllocation b i values
      = (recomputeNeed { b with allocation := b.allocation.set i.toNat values } i.toNat,
          .ok ()) := by
  have hwf : WellShaped { b with allocation := b.allocation.set i.toNat values } :=
    ⟨h.1, h.2.1, wellShaped_set_rows _ _ _ _ _ h.2.2.1 hlen, h.2.2.2⟩
  refine ⟨hwf, ?_⟩
  unfold setAllocation
  rw [assign_of_range _ _ _ hi0 (by have := h.2.2.1.1; omega)]
  exact calculateNeed_eq _ i hwf hi0 hiP

/-- The state a run keeps: shape, Need = Max - Allocation, and the two counts. -/
theorem calculateNeed_keeps (b : BankerAlgorithm) (i : Int) (h : WellShaped b)
    (hc : NeedConsistent b) (hi0 : 0 ≤ i) (hiP : i < b.processes) :
    (calculateNeed b i).2 = .ok () ∧ WellShaped (calculateNeed b i).1 ∧
      NeedConsistent (calculateNeed b i).1 ∧
      (calculateNeed b i).1.processes = b.processes ∧
      (calculateNeed b i).1.resources = b.resources := by
  have hi : i.toNat < b.processes.toNat := by omega
  rw [calculateNeed_eq b i h hi0 hiP]
  exact ⟨rfl, recomputeNeed_wellShaped b _ h hi,
    recomputeNeed_consistent b _ h hi (fun k hk _ j hj => hc k hk j hj), rfl, rfl⟩

theorem setMax_keeps (b : BankerAlgorithm) (i : Int) (values : List Int) (h : WellShaped b)
    (hc : NeedConsistent b) (hi0 : 0 ≤ i) (hiP : i < b.processes)
    (hlen : (values.length : Int) = b.resources) :
    (setMax b i values).2 = .ok () ∧ WellShaped (setMax b i values).1 ∧
      NeedConsistent (setMax b i values).1 ∧
      (setMax b i values).1.processes = b.processes ∧
      (setMax b i values).1.resources = b.resources := by
  have hi : i.toNat < b.processes.toNat := by omega
  obtain ⟨hwf, heq⟩ := setMax_eq b i values h hi0 hiP hlen
  rw [heq]
  refine ⟨rfl, recomputeNeed_wellShaped _ _ hwf hi, ?_, rfl, rfl⟩
  apply recomputeNeed_consistent _ _ hwf hi
  intro k hk hki j hj
  show entry b.need k j = entry (b.max.set i.toNat values) k j - entry b.allocation k j
  rw [entry_set_ne _ _ _ _ _ hki]
  exact hc k hk j hj

theorem setAllocation_keeps (b : BankerAlgorithm) (i : Int) (values : List Int)
    (h : WellShaped b) (hc : NeedConsistent b) (hi0 : 0 ≤ i) (hiP : i < b.processes)
    (hlen : (values.length : Int) = b.resources) :
    (setAllocation b i values).2 = .ok () ∧ WellShaped (setAllocation b i values).1 ∧
      NeedConsistent (setAllocation b i values).1 ∧
      (setAllocation b i values).1.processes = b.processes ∧
      (setAllocation b i values).1.resources = b.resources := by
  have hi : i.toNat < b.processes.toNat := by omega
  obtain ⟨hwf, heq⟩ := setAllocation_eq b i values h hi0 hiP hlen
  rw [heq]
  refine ⟨rfl, recomputeNeed_wellShaped _ _ hwf hi, ?_, rfl, rfl⟩
  apply recomputeNeed_consistent _ _ hwf hi
  intro k hk hki j hj
  show entry b.need k j = entry b.max k j - entry (b.allocation.set i.toNat values) k j
  rw [entry_set_ne _ _ _ _ _ hki]
  exact hc k hk j hj

theorem allNeedsLoop_keeps : ∀ (n i : Nat) (b : BankerAlgorithm), WellShaped b →
    NeedConsistent b → i + n = b.processes.toNat →
    (allNeedsLoop n i b).2 = .ok () ∧ WellShaped (allNeedsLoop n i b).1 ∧
      NeedConsistent (allNeedsLoop n i b).1 ∧
      (allNeedsLoop n i b).1.processes = b.processes ∧
      (allNeedsLoop n i b).1.resources = b.resources := by
  intro n
  induction n with
  | zero => intro i b h hc _; exact ⟨rfl, h, hc, rfl, rfl⟩
  | succ n ih =>
    intro i b h hc hin
    have hP := h.processes_nonneg
    obtain ⟨k1, k2, k3, k4, k5⟩ := calculateNeed_keeps b (i : Int) h hc (by omega) (by omega)
    unfold allNeedsLoop
    rw [calculateNeed_eq b (i : Int) h (by omega) (by omega)] at k1 k2 k3 k4 k5 ⊢
    obtain ⟨j1, j2, j3, j4, j5⟩ := ih (i + 1) _ k2 k3 (by rw [k4]; omega)
    exact ⟨j1, j2, j3, by rw [j4, k4], by rw [j5, k5]⟩

theorem speculativeApply_entries (b : BankerAlgorithm) (i : Int) (request : List Int)
    (h : WellShaped b) (hreq : ValidRequest b i request) :
    (∀ j, j < b.resources.toNat →
      (speculativeApply b i.toNat request).available.getD j 0
        = b.available.getD j 0 - request.getD j 0) ∧
    (∀ j, j < b.resources.toNat →
      entry (speculativeApply b i.toNat request).allocation i.toNat j
        = entry b.allocation i.toNat j + request.getD j 0) ∧
    (∀ j, j < b.resources.toNat →
      entry (speculativeApply b i.toNat request).need i.toNat j
        = entry b.need i.toNat j - request.getD j 0) ∧
    (∀ k, k ≠ i.toNat → ∀ j,
      entry (speculativeApply b i.toNat request).allocation k j = entry b.allocation k j ∧
      entry (speculativeApply b i.toNat request).need k j = entry b.need k j) := by
  obtain ⟨hi0, hiP, hlen⟩ := hreq
  have hi : i.toNat < b.processes.toNat := by omega
  have hR : request.length = b.resources.toNat := by omega
  obtain ⟨nrow, hnrow, hnlen, hnent⟩ := h.need_row hi
  obtain ⟨arow, harow, halen, haent⟩ := h.allocation_row hi
  have hnD : b.need.getD i.toNat [] = nrow := getD_of_getElem? _ _ _ _ hnrow
  have haD : b.allocation.getD i.toNat [] = arow := getD_of_getElem? _ _ _ _ harow
  have hav := h.available_length
  have hnl : i.toNat < b.need.length := by have := h.2.2.2.1; omega
  have hal : i.toNat < b.allocation.length := by have := h.2.2.1.1; omega
  refine ⟨?_, ?_, ?_, ?_⟩
  · intro j hj
    exact getD_zipWith _ _ _ _ (by omega) (by omega)
  · intro j hj
    show entry (b.allocation.set i.toNat _) i.toNat j = _
    rw [entry_set_self _ _ _ _ hal, haD, getD_zipWith _ _ _ _ (by omega) (by omega), haent j]
  · intro j hj
    show entry (b.need.set i.toNat _) i.toNat j = _
    rw [entry_set_self _ _ _ _ hnl, hnD, getD_zipWith _ _ _ _ (by omega) (by omega), hnent j]
  · intro k hk j
    exact ⟨entry_set_ne _ _ _ _ _ hk, entry_set_ne _ _ _ _ _ hk⟩

theorem speculativeApply_consistent (b : BankerAlgorithm) (i : Int) (request : List Int)
    (h : WellShaped b) (hreq : ValidRequest b i request) (hc : NeedConsistent b) :
    NeedConsistent (speculativeApply b i.toNat request) := by
  obtain ⟨_, e2, e3, e4⟩ := speculativeApply_entries b i request h hreq
  intro k hk1 j hj1
  have hk : k < b.processes.toNat := hk1
  have hj : j < b.resources.toNat := hj1
  have hmax : (speculativeApply b i.toNat request).max = b.max := rfl
  rw [hmax]
  by_cases hki : k = i.toNat
  · subst hki
    rw [e2 j hj, e3 j hj, hc _ hk j hj]
    ring
  · rw [(e4 k hki j).1, (e4 k hki j).2]
    exact hc k hk j hj

theorem requestResources_state (b : BankerAlgorithm) (i : Int) (request : List Int)
    (h : WellShaped b) (hreq : ValidRequest b i request) :
    ∃ res, (requestResources b i request).2 = .ok res ∧
      ((requestResources b i request).1 = b ∨
       ((requestResources b i request).1 = speculativeApply b i.toNat request ∧
        Within b request (b.need.getD i.toNat []) ∧ Within b request b.available)) := by
  obtain ⟨r, _, hcase⟩ := requestResources_cases b i request h hreq
  rcases hcase with ⟨_, heq⟩ | ⟨_, _, heq⟩ | ⟨_, _, _, heq⟩ | ⟨hn, ha, _, heq⟩
  · rw [heq]; exact ⟨_, rfl, Or.inl rfl⟩
  · rw [heq]; exact ⟨_, rfl, Or.inl rfl⟩
  · rw [heq]; exact ⟨_, rfl, Or.inl rfl⟩
  · rw [heq]; exact ⟨_, rfl, Or.inr ⟨rfl, hn, ha⟩⟩

/-! ## Sequences of calls keep Need = Max - Allocation -/

theorem initializeState_kept (b0 : BankerAlgorithm) (P R : Int) (hR : 0 ≤ R)
    (hR2 : R < 4294967296) (hP2 : P < 4294967296) :
    (initializeState b0 P R).2 = .ok () ∧ Kept P R (initializeState b0 P R).1 := by
  unfold initializeState
  rw [if_neg (by omega), if_neg (by omega)]
  refine ⟨rfl, rfl, rfl, ?_, ?_⟩
  · intro i hi j hj
    have hi1 : i < P.toNat := hi
    have hj1 : j < R.toNat := hj
    have hz : entry (List.replicate P.toNat (List.replicate R.toNat 0)) i j = 0 := by
      simp [entry, List.getD_eq_getElem?_getD, List.getElem?_replicate, hi1, hj1]
    show entry (List.replicate P.toNat (List.replicate R.toNat 0)) i j
      = entry (List.replicate P.toNat (List.replicate R.toNat 0)) i j
        - entry (List.replicate P.toNat (List.replicate R.toNat 0)) i j
    rw [hz]
    rfl
  · intro hP
    have hrows : ((List.replicate P.toNat (List.replicate R.toNat (0 : Int))).length : Int) = P ∧
        ∀ r ∈ List.replicate P.toNat (List.replicate R.toNat (0 : Int)),
          (r.length : Int) = R := by
      refine ⟨by simp; omega, ?_⟩
      intro r hr
      rw [List.eq_of_mem_replicate hr]
      simp; omega
    exact ⟨by simp; omega, hrows, hrows, hrows⟩

theorem applyOp_kept (P R : Int) (b : BankerAlgorithm) (op : Op) (hk : Kept P R b)
    (hv : op.Valid P R) :
    (applyOp b op).2 = .ok () ∧ Kept P R (applyOp b op).1 := by
  obtain ⟨hP, hR, hc, hwf⟩ := hk
  cases op with
  | setAvailable values =>
    refine ⟨rfl, hP, hR, hc, ?_⟩
    intro h0
    have hv1 : (values.length : Int) = R := hv
    obtain ⟨_, w2, w3, w4⟩ := hwf h0
    exact ⟨by show (values.length : Int) = b.resources; omega, w2, w3, w4⟩
  | setMax i values =>
    obtain ⟨v1, v2, v3⟩ := (hv : 0 ≤ i ∧ i < P ∧ (values.length : Int) = R)
    obtain ⟨k1, k2, k3, k4, k5⟩ :=
      setMax_keeps b i values (hwf (by omega)) hc v1 (by omega) (by omega)
    exact ⟨k1, by rw [← hP]; exact k4, by rw [← hR]; exact k5, k3, fun _ => k2⟩
  | setAllocation i values =>
    obtain ⟨v1, v2, v3⟩ := (hv : 0 ≤ i ∧ i < P ∧ (values.length : Int) = R)
    obtain ⟨k1, k2, k3, k4, k5⟩ :=
      setAllocation_keeps b i values (hwf (by omega)) hc v1 (by omega) (by omega)
    exact ⟨k1, by rw [← hP]; exact k4, by rw [← hR]; exact k5, k3, fun _ => k2⟩
  | calculateNeed i =>
    obtain ⟨v1, v2⟩ := (hv : 0 ≤ i ∧ i < P)
    obtain ⟨k1, k2, k3, k4, k5⟩ := calculateNeed_keeps b i (hwf (by omega)) hc v1 (by omega)
    exact ⟨k1, by rw [← hP]; exact k4, by rw [← hR]; exact k5, k3, fun _ => k2⟩
  | calculateAllNeeds =>
    by_cases h0 : 0 ≤ P
    · obtain ⟨k1, k2, k3, k4, k5⟩ :=
        allNeedsLoop_keeps b.processes.toNat 0 b (hwf h0) hc (by omega)
      exact ⟨k1, by rw [← hP]; exact k4, by rw [← hR]; exact k5, k3, fun _ => k2⟩
    · have hz : b.processes.toNat = 0 := by omega
      have heq : applyOp b .calculateAllNeeds = (b, .ok ()) := by
        show allNeedsLoop b.processes.toNat 0 b = _
        rw [hz]
        rfl
      rw [heq]
      exact ⟨rfl, hP, hR, hc, fun hx => absurd hx h0⟩
  | requestResources i request =>
    obtain ⟨v1, v2, v3⟩ := (hv : 0 ≤ i ∧ i < P ∧ (request.length : Int) = R)
    have hw := hwf (by omega)
    have hreq : ValidRequest b i request := ⟨v1, by omega, by omega⟩
    obtain ⟨res, hres, hstate⟩ := requestResources_state b i request hw hreq
    have heq : applyOp b (.requestResources i request)
        = ((requestResources b i request).1, .ok ()) := by
      simp only [applyOp]
      cases hrr : requestResources b i request with
      | mk b1 out =>
        rw [hrr] at hres
        simp only at hres
        rw [hres]
    rw [heq]
    rcases hstate with hs | ⟨hs, _, _⟩
    · rw [hs]
      exact ⟨rfl, hP, hR, hc, hwf⟩
    · rw [hs]
      exact ⟨rfl, hP, hR, speculativeApply_consistent b i request hw hreq hc,
        fun _ => speculativeApply_wellShaped b i request hw hreq⟩

theorem applyOps_kept (P R : Int) : ∀ (ops : List Op) (b : BankerAlgorithm), Kept P R b →
    (∀ op ∈ ops, op.Valid P R) →
    (applyOps b ops).2 = .ok () ∧ Kept P R (applyOps b ops).1 := by
  intro ops
  induction ops with
  | nil => intro b hk _; exact ⟨rfl, hk⟩
  | cons op ops ih =>
    intro b hk hv
    obtain ⟨k1, k2⟩ := applyOp_kept P R b op hk (hv op (List.mem_cons_self _ _))
    have heq : applyOps b (op :: ops) = applyOps (applyOp b op).1 ops := by
      simp only [applyOps]
      cases hop : applyOp b op with
      | mk b1 out =>
        rw [hop] at k1
        simp only at k1
        rw [k1]
    rw [heq]
    exact ih _ k2 (fun o ho => hv o (List.mem_cons_of_mem _ ho))

/-! ## The claims about the invariants of the state -/

/-- With exact arithmetic (Need never drifts): start from `initialize(P, R)` with
`0 <= R < 2 ^ 32` and `P < 2 ^ 32` and make any sequence of calls of `setAvailable`, `setMax`, `setAllocation`,
`calculateNeed`, `calculateAllNeeds` and `requestResources` with process indices
in `[0, P)` and vectors of length `R`; then no call throws, and after
`initialize` and after every call `Need[i][j] = Max[i][j] - Allocation[i][j]`
holds for every `i` and `j`. -/
theorem need_never_drifts_exact (b0 : BankerAlgorithm) (P R : Int) (hR : 0 ≤ R)
    (hR2 : R < 4294967296) (hP2 : P < 4294967296) (ops : List Op)
    (hv : ∀ op ∈ ops, op.Valid P R) :
    (initializeState b0 P R).2 = .ok () ∧
    ∀ k, (applyOps (initializeState b0 P R).1 (ops.take k)).2 = .ok () ∧
      NeedConsistent (applyOps (initializeState b0 P R).1 (ops.take k)).1 := by
  obtain ⟨h1, h2⟩ := initializeState_kept b0 P R hR hR2 hP2
  refine ⟨h1, ?_⟩
  intro k
  obtain ⟨k1, k2⟩ := applyOps_kept P R (ops.take k) _ h2
    (fun op hop => hv op (List.mem_of_mem_take hop))
  exact ⟨k1, k2.2.2.1⟩

theorem sum_map_set (f : List Int → Int) : ∀ (l : List (List Int)) (i : Nat) (x y : List Int),
    l[i]? = some y → ((l.set i x).map f).sum = (l.map f).sum - f y + f x := by
  intro l
  induction l with
  | nil => intro i x y h; simp at h
  | cons a l ih =>
    intro i x y h
    cases i with
    | zero =>
      simp only [List.getElem?_cons_zero, Option.some.injEq] at h
      subst h
      simp only [List.set_cons_zero, List.map_cons, List.sum_cons]
      ring
    | succ i =>
      simp only [List.getElem?_cons_succ] at h
      simp only [List.set_cons_succ, List.map_cons, List.sum_cons, ih i x y h]
      ring

theorem getD_zipWith_of_le (f : Int → Int → Int) (a v : List Int) (j : Nat)
    (h : a.length ≤ j) : (List.zipWith f a v).getD j 0 = 0 := by
  rw [List.getD_eq_getElem?_getD, List.getElem?_eq_none]
  · rfl
  · simp only [List.length_zipWith]
    omega

theorem getD_of_le (a : List Int) (j : Nat) (h : a.length ≤ j) : a.getD j 0 = 0 := by
  rw [List.getD_eq_getElem?_getD, List.getElem?_eq_none h]
  rfl

theorem speculativeApply_totalSupply (b : BankerAlgorithm) (i : Int) (request : List Int)
    (h : WellShaped b) (hreq : ValidRequest b i request) (j : Nat) :
    totalSupply (speculativeApply b i.toNat request) j = totalSupply b j := by
  obtain ⟨hi0, hiP, hlen⟩ := hreq
  have hi : i.toNat < b.processes.toNat := by omega
  have hR : request.length = b.resources.toNat := by omega
  obtain ⟨arow, harow, halen, _⟩ := h.allocation_row hi
  have haD : b.allocation.getD i.toNat [] = arow := getD_of_getElem? _ _ _ _ harow
  have hav := h.available_length
  unfold totalSupply speculativeApply
  simp only
  rw [haD, sum_map_set (fun row => row.getD j 0) _ _ _ _ harow]
  by_cases hj : j < b.resources.toNat
  · rw [getD_zipWith _ _ _ _ (by omega) (by omega), getD_zipWith _ _ _ _ (by omega) (by omega)]
    ring
  · rw [getD_zipWith_of_le _ _ _ _ (by omega), getD_zipWith_of_le _ _ _ _ (by omega),
      getD_of_le arow j (by omega), getD_of_le b.available j (by omega)]
    ring

/-- With exact arithmetic (conservation of total supply): for a state of matching shape, a process
index in `[0, P)` and a request of length `R`, `requestResources` returns, and
for every resource `j` the sum over all processes of `Allocation[i][j]` plus
`Available[j]` is the same after the call as before it, approved or denied. -/
theorem requestResources_conserves_supply_exact (b : BankerAlgorithm) (i : Int)
    (request : List Int) (h : WellShaped b) (hreq : ValidRequest b i request) :
    ∃ res, (requestResources b i request).2 = .ok res ∧
      ∀ j, totalSupply (requestResources b i request).1 j = totalSupply b j := by
  obtain ⟨res, hres, hstate⟩ := requestResources_state b i request h hreq
  refine ⟨res, hres, ?_⟩
  intro j
  rcases hstate with hs | ⟨hs, _, _⟩
  · rw [hs]
  · rw [hs]
    exact speculativeApply_totalSupply b i request h hreq j

/-- C14 (the bounds are kept): if before the call Need = Max - Allocation,
`Allocation[i][j] <= Max[i][j]` for all `i`, `j` and `Available[j] >= 0` for
all `j`, then after `requestResources` (state of matching shape, index in
`[0, P)`, request of length `R`, any outcome) `Allocation[i][j] <= Max[i][j]`
and `Available[j] >= 0` still hold. -/
theorem requestResources_keeps_bounds (b : BankerAlgorithm) (i : Int) (request : List Int)
    (h : WellShaped b) (hreq : ValidRequest b i request) (hc : NeedConsistent b)
    (hmax : AllocationWithinMax b) (hav : AvailableNonneg b) :
    ∃ res, (requestResources b i request).2 = .ok res ∧
      AllocationWithinMax (requestResources b i request).1 ∧
      AvailableNonneg (requestResources b i request).1 := by
  obtain ⟨res, hres, hstate⟩ := requestResources_state b i request h hreq
  refine ⟨res, hres, ?_⟩
  rcases hstate with hs | ⟨hs, hn, ha⟩
  · rw [hs]
    exact ⟨hmax, hav⟩
  · rw [hs]
    obtain ⟨e1, e2, _, e4⟩ := speculativeApply_entries b i request h hreq
    have hi : i.toNat < b.processes.toNat := by
      obtain ⟨hi0, hiP, _⟩ := hreq
      omega
    obtain ⟨nrow, hnrow, _, hnent⟩ := h.need_row hi
    have hnD : b.need.getD i.toNat [] = nrow := getD_of_getElem? _ _ _ _ hnrow
    constructor
    · intro k hk1 j hj1
      have hk : k < b.processes.toNat := hk1
      have hj : j < b.resources.toNat := hj1
      have hm : (speculativeApply b i.toNat request).max = b.max := rfl
      rw [hm]
      by_cases hki : k = i.toNat
      · subst hki
        rw [e2 j hj]
        have h1 := hn j hj
        rw [hnD, hnent j, hc _ hk j hj] at h1
        omega
      · rw [(e4 k hki j).1]
        exact hmax k hk j hj
    · intro j hj1
      have hj : j < b.resources.toNat := hj1
      rw [e1 j hj]
      have h1 := ha j hj
      omega

/-- Witness of C14: process 1 of scenario 1 asks for `[1, 0, 2]` (approved). -/
theorem requestResources_keeps_bounds_witness :
    WellShaped demoScenario1 ∧ ValidRequest demoScenario1 1 [1, 0, 2] ∧
    NeedConsistent demoScenario1 ∧ AllocationWithinMax demoScenario1 ∧
    AvailableNonneg demoScenario1 ∧
    ∃ res, (requestResources demoScenario1 1 [1, 0, 2]).2 = .ok res ∧
      AllocationWithinMax (requestResources demoScenario1 1 [1, 0, 2]).1 ∧
      AvailableNonneg (requestResources demoScenario1 1 [1, 0, 2]).1 :=
  ⟨by decide, by decide, by decide, by decide, by decide,
    requestResources_keeps_bounds demoScenario1 1 [1, 0, 2] (by decide) (by decide)
      (by decide) (by decide) (by decide)⟩

/-! ## The verdict and the scenarios -/

/-- With exact arithmetic: the claim that an unsafe verdict comes with an
empty sequence fails, as `checkSafety` returns the list of admitted processes
whatever the verdict.  On a state of matching shape, when `isSafe = false` the
returned `safeSequence` holds the processes admitted before the scan got
stuck: fewer than `P` of them, in lowest-index-first order, with no
unfinished process eligible after them; it is empty exactly when no process is
eligible on Available alone. -/
theorem checkSafety_not_safe_sequence_exact (b : BankerAlgorithm) (stepByStep : Bool)
    (h : WellShaped b) :
    ∃ r, checkSafety b stepByStep = .ok r ∧
      (r.isSafe = false →
        r.safeSequence.length < b.processes.toNat ∧
        LowestIndexFirst b r.safeSequence ∧
        Stuck b r.safeSequence ∧
        (r.safeSequence = [] ↔ Stuck b [])) := by
  obtain ⟨r, hr, hsafe, hnd, hlt, hlow, hdone⟩ := checkSafety_spec b stepByStep h
  refine ⟨r, hr, ?_⟩
  intro hf
  rw [hf] at hsafe
  have hne : r.safeSequence.length ≠ b.processes.toNat := by
    intro hx
    rw [hx] at hsafe
    simp at hsafe
  have hle : r.safeSequence.length ≤ b.processes.toNat := by
    have hsub : r.safeSequence ⊆ List.range b.processes.toNat :=
      fun x hx => List.mem_range.2 (hlt x hx)
    have := (List.subperm_of_subset hnd hsub).length_le
    simpa using this
  have hstuck : Stuck b r.safeSequence := by
    rcases hdone with hx | hx
    · exact absurd hx hne
    · exact hx
  refine ⟨by omega, hlow, hstuck, ?_, ?_⟩
  · intro hnil
    rw [hnil] at hstuck
    exact hstuck
  · intro hs
    cases hseq : r.safeSequence with
    | nil => rfl
    | cons x xs =>
      have h0 := hlow 0 (by rw [hseq]; simp)
      rw [hseq] at h0
      obtain ⟨h1, _, h3, _⟩ := h0
      exact absurd h3 (hs x h1 (by simp))

/-- Counterexample to C11 as stated: with Available `[1]` and Need `[[1], [5]]`
process 0 is admitted and process 1 never is; `checkSafety` returns
`isSafe = false` together with the sequence `[0]`, which is not empty. -/
theorem checkSafety_not_safe_keeps_sequence :
    checkSafetyRounded stuckAfterOne false
      = .ok { isSafe := false, safeSequence := [0], steps := [] } := by
  decide

/-- C15 (scenario 1, known safe): loading the first preset gives the state with
`P = 5`, `R = 3`, Available `[3, 3, 2]`, the Max and Allocation of the
scenario and Need recomputed; on it `checkSafety` returns `isSafe = true`, and
the sequence it returns, `[1, 3, 0, 2, 4]`, is a valid completion order of all
five processes. -/
theorem scenario1_is_safe :
    (∀ b, loadPreset b 0 = (demoScenario1, .ok ())) ∧
    (∀ stepByStep, ∃ r, checkSafety demoScenario1 stepByStep = .ok r ∧
      r.isSafe = true ∧ r.safeSequence = [1, 3, 0, 2, 4]) ∧
    ValidCompletionOrder demoScenario1 [1, 3, 0, 2, 4] := by
  refine ⟨fun b => rfl, ?_, by decide⟩
  intro stepByStep
  cases stepByStep
  · exact ⟨_, rfl, rfl, rfl⟩
  · exact ⟨_, rfl, rfl, rfl⟩

/-- C16 (scenario 2, known unsafe): loading the second preset gives the state
with `P = 3`, `R = 2`, Available `[0, 0]`, the Max and Allocation of the
scenario and Need recomputed; on it `checkSafety` returns `isSafe = false` and
an empty `safeSequence`. -/
theorem scenario2_is_not_safe :
    (∀ b, loadPreset b 1 = (demoScenario2, .ok ())) ∧
    (∀ stepByStep, ∃ r, checkSafety demoScenario2 stepByStep = .ok r ∧
      r.isSafe = false ∧ r.safeSequence = []) := by
  refine ⟨fun b => rfl, ?_⟩
  intro stepByStep
  cases stepByStep
  · exact ⟨_, rfl, rfl, rfl⟩
  · exact ⟨_, rfl, rfl, rfl⟩

/-! ## Arguments the methods do not check -/

theorem index_out_of_range {α : Type} (a : List α) (i : Int)
    (h : i < 0 ∨ (a.length : Int) ≤ i) : index a i = none := by
  unfold index
  by_cases h0 : 0 ≤ i
  · rw [if_pos h0]
    exact List.getElem?_eq_none (by omega)
  · rw [if_neg h0]

theorem requestResources_out_of_range (b : BankerAlgorithm) (i : Int) (request : List Int)
    (h : WellShaped b) (hi : i < 0 ∨ b.processes ≤ i) :
    requestResources b i request = (b, .error .typeError) := by
  have hN : index b.need i = none :=
    index_out_of_range _ _ (by have := h.2.2.2.1; omega)
  have hA : index b.allocation i = none :=
    index_out_of_range _ _ (by have := h.2.2.1.1; omega)
  unfold requestResources
  rw [hN, hA]
  cases request with
  | nil => rfl
  | cons x xs => rfl

theorem calculateNeed_missing_row (b : BankerAlgorithm) (i : Int)
    (hN : index b.need i = none) :
    calculateNeed b i = (b, if 0 < b.resources then .error .typeError else .ok ()) := by
  unfold calculateNeed
  by_cases hR : 0 < b.resources
  · rw [if_pos hR, if_neg (by omega), hN]
  · rw [if_neg hR, if_pos (by omega)]

theorem setMax_at_end (b : BankerAlgorithm) (values : List Int) (h : WellShaped b) :
    setMax b b.processes values
      = ({ b with max := b.max ++ [values] },
          if 0 < b.resources then .error .typeError else .ok ()) := by
  have hlen : (b.max.length : Int) = b.processes := h.2.1.1
  have hN : index b.need b.processes = none :=
    index_out_of_range _ _ (by have := h.2.2.2.1; omega)
  unfold setMax
  rw [← hlen, assign_length, hlen]
  exact calculateNeed_missing_row { b with max := b.max ++ [values] } b.processes hN

theorem setAllocation_at_end (b : BankerAlgorithm) (values : List Int) (h : WellShaped b) :
    setAllocation b b.processes values
      = ({ b with allocation := b.allocation ++ [values] },
          if 0 < b.resources then .error .typeError else .ok ()) := by
  have hlen : (b.allocation.length : Int) = b.processes := h.2.2.1.1
  have hN : index b.need b.processes = none :=
    index_out_of_range _ _ (by have := h.2.2.2.1; omega)
  unfold setAllocation
  rw [← hlen, assign_length, hlen]
  exact calculateNeed_missing_row { b with allocation := b.allocation ++ [values] }
    b.processes hN

/-- C17, as the code has it: no method checks the process index, and there is
no IndexOutOfRange error.  On a state of matching shape and for an index outside
`[0, P)`, `requestResources` throws a TypeError for every request, returning no
result and leaving the state as it was; `setMax` and `setAllocation` store the
row before anything fails: at index `P` the row is added to Max (to
Allocation), then `calculateNeed` throws a TypeError when `R > 0` and returns
normally when `R = 0`. -/
theorem index_not_validated (b : BankerAlgorithm) (i : Int) (values : List Int)
    (h : WellShaped b) (hi : i < 0 ∨ b.processes ≤ i) :
    requestResources b i values = (b, .error .typeError) ∧
    (i = b.processes →
      setMax b i values
        = ({ b with max := b.max ++ [values] },
            if 0 < b.resources then .error .typeError else .ok ()) ∧
      setAllocation b i values
        = ({ b with allocation := b.allocation ++ [values] },
            if 0 < b.resources then .error .typeError else .ok ())) := by
  refine ⟨requestResources_out_of_range b i values h hi, ?_⟩
  intro heq
  rw [heq]
  exact ⟨setMax_at_end b values h, setAllocation_at_end b values h⟩

/-- Witness of the amended C17: scenario 2 (`P = 3`) and index 3. -/
theorem index_not_validated_witness :
    WellShaped demoScenario2 ∧ ((3 : Int) < 0 ∨ demoScenario2.processes ≤ 3) ∧
    requestResources demoScenario2 3 [9, 9] = (demoScenario2, .error .typeError) ∧
    ((3 : Int) = demoScenario2.processes →
      setMax demoScenario2 3 [9, 9]
        = ({ demoScenario2 with max := demoScenario2.max ++ [[9, 9]] },
            if 0 < demoScenario2.resources then .error .typeError else .ok ()) ∧
      setAllocation demoScenario2 3 [9, 9]
        = ({ demoScenario2 with allocation := demoScenario2.allocation ++ [[9, 9]] },
            if 0 < demoScenario2.resources then .error .typeError else .ok ())) :=
  ⟨by decide, by decide, index_not_validated demoScenario2 3 [9, 9] (by decide) (by decide)⟩

/-- Counterexample to C17 as stated: on scenario 2 (`P = 3`), `setMax(3, [9, 9])`
changes the state (Max gets a fourth row) before it throws, and what it throws
is a TypeError. -/
theorem setMax_alters_before_failing :
    (setMax demoScenario2 3 [9, 9]).1.max = [[3, 3], [2, 2], [2, 2], [9, 9]] ∧
    (setMax demoScenario2 3 [9, 9]).1 ≠ demoScenario2 ∧
    (setMax demoScenario2 3 [9, 9]).2 = .error .typeError := by
  decide

theorem zipWith_take_right (f : Int → Int → Int) : ∀ (a v : List Int),
    List.zipWith f a (v.take a.length) = List.zipWith f a v := by
  intro a
  induction a with
  | nil => intro v; simp
  | cons x xs ih =>
    intro v
    cases v with
    | nil => simp
    | cons y ys => simp [ih ys]

theorem vectorLessOrEqual_take (request v : List Int) :
    vectorLessOrEqual (some request) (some v)
      = vectorLessOrEqual (some (request.take v.length)) (some v) := by
  rw [vectorLessOrEqual_some, vectorLessOrEqual_some]
  congr 1
  rw [Bool.eq_iff_iff, all_not_greater_iff, all_not_greater_iff]
  constructor
  · intro hall i x y hx hy
    rw [List.getElem?_take] at hx
    split at hx
    · exact hall i x y hx hy
    · cases hx
  · intro hall i x y hx hy
    have hi : i < v.length := by
      by_contra hc
      rw [List.getElem?_eq_none (by omega)] at hy
      cases hy
    exact hall i x y (by rw [List.getElem?_take, if_pos hi]; exact hx) hy

theorem requestResources_take (b : BankerAlgorithm) (i : Int) (request : List Int)
    (h : WellShaped b) (hi0 : 0 ≤ i) (hiP : i < b.processes)
    (hlen : b.resources ≤ (request.length : Int)) :
    requestResources b i request = requestResources b i (request.take b.resources.toNat) := by
  have hi : i.toNat < b.processes.toNat := by omega
  obtain ⟨nrow, hnrow, hnlen, _⟩ := h.need_row hi
  obtain ⟨arow, harow, halen, _⟩ := h.allocation_row hi
  have hav := h.available_length
  have hN : index b.need i = some nrow := by rw [index_of_nonneg _ _ hi0, hnrow]
  have hA : index b.allocation i = some arow := by rw [index_of_nonneg _ _ hi0, harow]
  have hRlen : b.resources.toNat ≤ request.length := by omega
  have htl : (request.take b.resources.toNat).length = b.resources.toNat := by
    rw [List.length_take]; omega
  have h1 : vectorLessOrEqual (some request) (some nrow)
      = vectorLessOrEqual (some (request.take b.resources.toNat)) (some nrow) := by
    rw [← hnlen]; exact vectorLessOrEqual_take request nrow
  have h2 : vectorLessOrEqual (some request) (some b.available)
      = vectorLessOrEqual (some (request.take b.resources.toNat)) (some b.available) := by
    rw [← hav]; exact vectorLessOrEqual_take request b.available
  have h3 : vectorSubtract b.available request
      = vectorSubtract b.available (request.take b.resources.toNat) := by
    rw [vectorSubtract_eq _ _ (by omega), vectorSubtract_eq _ _ (by omega), ← hav,
      zipWith_take_right]
  have h4 : vectorAdd arow request = vectorAdd arow (request.take b.resources.toNat) := by
    rw [vectorAdd_eq _ _ (by omega), vectorAdd_eq _ _ (by omega), ← halen,
      zipWith_take_right]
  have h5 : vectorSubtract nrow request
      = vectorSubtract nrow (request.take b.resources.toNat) := by
    rw [vectorSubtract_eq _ _ (by omega), vectorSubtract_eq _ _ (by omega), ← hnlen,
      zipWith_take_right]
  unfold requestResources
  simp only [hN, hA, h1, h2, h3, h4, h5]

/-- C18, as the code has it: `requestResources` does not check the length of the
request, and there is no DimensionMismatch error.  On a state of matching shape
and for a process index in `[0, P)`, a request longer than `R` is handled as its
first `R` components are: the components past `R` are ignored, and the result
and the state left are those of the request cut to length `R`. -/
theorem request_length_not_validated (b : BankerAlgorithm) (i : Int) (request : List Int)
    (h : WellShaped b) (hi0 : 0 ≤ i) (hiP : i < b.processes)
    (hlen : b.resources ≤ (request.length : Int)) :
    ValidRequest b i (request.take b.resources.toNat) ∧
    requestResources b i request
      = requestResources b i (request.take b.resources.toNat) := by
  refine ⟨⟨hi0, hiP, ?_⟩, requestResources_take b i request h hi0 hiP hlen⟩
  have hR : 0 ≤ b.resources := by have := h.1; omega
  rw [List.length_take]
  omega

/-- Witness of the amended C18: process 1 of scenario 1 asks for `[1, 0, 2, 99]`. -/
theorem request_length_not_validated_witness :
    WellShaped demoScenario1 ∧ (0 : Int) ≤ 1 ∧ (1 : Int) < demoScenario1.processes ∧
    demoScenario1.resources ≤ (([1, 0, 2, 99] : List Int).length : Int) ∧
    ValidRequest demoScenario1 1 (([1, 0, 2, 99] : List Int).take demoScenario1.resources.toNat) ∧
    requestResources demoScenario1 1 [1, 0, 2, 99]
      = requestResources demoScenario1 1
          (([1, 0, 2, 99] : List Int).take demoScenario1.resources.toNat) :=
  ⟨by decide, by decide, by decide, by decide,
    request_length_not_validated demoScenario1 1 [1, 0, 2, 99] (by decide) (by decide)
      (by decide) (by decide)⟩

/-- Counterexample to C18 as stated: on scenario 1 (`R = 3`) process 1 asks for
`[1, 0, 2, 99]`, a request of length 4; the call does not fail: it approves the
request and changes the state (Available becomes `[2, 3, 0]`). -/
theorem long_request_is_approved :
    (requestResources demoScenario1 1 [1, 0, 2, 99]).2
      = .ok (approvedWith [1, 3, 0, 2, 4]) ∧
    (requestResources demoScenario1 1 [1, 0, 2, 99]).1.available = [2, 3, 0] ∧
    (requestResources demoScenario1 1 [1, 0, 2, 99]).1 ≠ demoScenario1 := by
  decide

/-! ## Export and import -/

theorem asInts_map_num (v : List Int) : Json.asInts (v.map .num) = some v := by
  induction v with
  | nil => rfl
  | cons x xs ih => simp [Json.asInts, Json.asInt, ih]

theorem asVector_ofVector (v : List Int) : (Json.ofVector v).asVector = some v := by
  unfold Json.ofVector Json.asVector
  exact asInts_map_num v

theorem asRows_map_ofVector (m : List (List Int)) :
    Json.asRows (m.map Json.ofVector) = some m := by
  induction m with
  | nil => rfl
  | cons x xs ih => simp [Json.asRows, asVector_ofVector, ih]

theorem asMatrix_ofMatrix (m : List (List Int)) : (Json.ofMatrix m).asMatrix = some m := by
  unfold Json.ofMatrix Json.asMatrix
  exact asRows_map_ofVector m

theorem exportJSON_members (b : BankerAlgorithm) :
    (exportJSON b).member "processes" = some (.num b.processes) ∧
    (exportJSON b).member "resources" = some (.num b.resources) ∧
    (exportJSON b).member "available" = some (Json.ofVector b.available) ∧
    (exportJSON b).member "max" = some (Json.ofMatrix b.max) ∧
    (exportJSON b).member "allocation" = some (Json.ofMatrix b.allocation) ∧
    (exportJSON b).member "need" = some (Json.ofMatrix b.need) := by
  refine ⟨?_, ?_, ?_, ?_, ?_, ?_⟩ <;> rfl

theorem importJSON_of_members (b0 : BankerAlgorithm) (data : Json) (p r : Int)
    (a : List Int) (m al n : List (List Int)) (hnull : data ≠ .null)
    (h1 : (data.member "processes").bind Json.asInt = some p)
    (h2 : (data.member "resources").bind Json.asInt = some r)
    (h3 : (data.member "available").bind Json.asVector = some a)
    (h4 : (data.member "max").bind Json.asMatrix = some m)
    (h5 : (data.member "allocation").bind Json.asMatrix = some al)
    (h6 : (data.member "need").bind Json.asMatrix = some n) :
    importJSON b0 (some data)
      = ({ processes := p, resources := r, available := a, max := m, allocation := al,
           need := n }, .ok true) := by
  unfold importJSON
  cases data with
  | null => exact absurd rfl hnull
  | bool x => simp only [h1, h2, h3, h4, h5, h6]
  | num x => simp only [h1, h2, h3, h4, h5, h6]
  | str x => simp only [h1, h2, h3, h4, h5, h6]
  | arr x => simp only [h1, h2, h3, h4, h5, h6]
  | obj x => simp only [h1, h2, h3, h4, h5, h6]

/-- C19 (export/import round trip): for every state `b` and whatever state the
object held before, `importJSON` applied to what `exportJSON` of `b` gives
returns `true` and leaves a state equal to `b`: `processes`, `resources`,
Available, Max and Allocation (and Need) are those of `b`. -/
theorem export_import_round_trip (b0 b : BankerAlgorithm) :
    (importJSON b0 (some (exportJSON b))).2 = .ok true ∧
    (importJSON b0 (some (exportJSON b))).1 = b ∧
    (importJSON b0 (some (exportJSON b))).1.processes = b.processes ∧
    (importJSON b0 (some (exportJSON b))).1.resources = b.resources ∧
    (importJSON b0 (some (exportJSON b))).1.available = b.available ∧
    (importJSON b0 (some (exportJSON b))).1.max = b.max ∧
    (importJSON b0 (some (exportJSON b))).1.allocation = b.allocation := by
  obtain ⟨m1, m2, m3, m4, m5, m6⟩ := exportJSON_members b
  have heq : importJSON b0 (some (exportJSON b)) = (b, .ok true) :=
    importJSON_of_members b0 (exportJSON b) b.processes b.resources b.available b.max
      b.allocation b.need (by intro hx; cases hx)
      (by rw [m1]; rfl) (by rw [m2]; rfl)
      (by rw [m3]; exact asVector_ofVector _) (by rw [m4]; exact asMatrix_ofMatrix _)
      (by rw [m5]; exact asMatrix_ofMatrix _) (by rw [m6]; exact asMatrix_ofMatrix _)
  rw [heq]
  exact ⟨rfl, rfl, rfl, rfl, rfl, rfl, rfl⟩


/-- C20, as the code has it: the claim that import recomputes Need fails, as
`importJSON` assigns `data.need` as it comes.  For every payload that
`importJSON` accepts (it returns `true`), the Need of the resulting state is the
payload's `need` member, and Max and Allocation are its `max` and `allocation`
members; so `Need[i][j] = Max[i][j] - Allocation[i][j]` holds after the import
exactly when the payload's three members satisfy it. -/
theorem import_takes_need_as_given (b : BankerAlgorithm) (data : Json)
    (hok : (importJSON b (some data)).2 = .ok true) :
    (data.member "need").bind Json.asMatrix = some (importJSON b (some data)).1.need ∧
    (data.member "max").bind Json.asMatrix = some (importJSON b (some data)).1.max ∧
    (data.member "allocation").bind Json.asMatrix
      = some (importJSON b (some data)).1.allocation := by
  unfold importJSON at hok ⊢
  cases data with
  | null => simp at hok
  | bool x =>
    revert hok; dsimp only; split
    · rename_i h4 h5 h6; intro _; exact ⟨h6, h4, h5⟩
    · intro hok; simp at hok
  | num x =>
    revert hok; dsimp only; split
    · rename_i h4 h5 h6; intro _; exact ⟨h6, h4, h5⟩
    · intro hok; simp at hok
  | str x =>
    revert hok; dsimp only; split
    · rename_i h4 h5 h6; intro _; exact ⟨h6, h4, h5⟩
    · intro hok; simp at hok
  | arr x =>
    revert hok; dsimp only; split
    · rename_i h4 h5 h6; intro _; exact ⟨h6, h4, h5⟩
    · intro hok; simp at hok
  | obj x =>
    revert hok; dsimp only; split
    · rename_i h4 h5 h6; intro _; exact ⟨h6, h4, h5⟩
    · intro hok; simp at hok

/-- Witness of the amended C20: the export of scenario 1 with `need` set to zeros. -/
theorem import_takes_need_as_given_witness :
    (importJSON scenario3 (some tamperedPayload)).2 = .ok true ∧
    (tamperedPayload.member "need").bind Json.asMatrix
      = some (importJSON scenario3 (some tamperedPayload)).1.need ∧
    (tamperedPayload.member "max").bind Json.asMatrix
      = some (importJSON scenario3 (some tamperedPayload)).1.max ∧
    (tamperedPayload.member "allocation").bind Json.asMatrix
      = some (importJSON scenario3 (some tamperedPayload)).1.allocation :=
  ⟨by decide, import_takes_need_as_given scenario3 tamperedPayload (by decide)⟩

/-- Counterexample to C20 as stated: the export of scenario 1 with its `need`
member overwritten by zeros is accepted, and the state it leaves has Need all
zero while Max - Allocation is not: Need was not recomputed. -/
theorem import_keeps_tampered_need :
    (importJSON scenario3 (some tamperedPayload)).2 = .ok true ∧
    (importJSON scenario3 (some tamperedPayload)).1.need
      = [[0, 0, 0], [0, 0, 0], [0, 0, 0], [0, 0, 0], [0, 0, 0]] ∧
    (importJSON scenario3 (some tamperedPayload)).1.max = demoScenario1.max ∧
    (importJSON scenario3 (some tamperedPayload)).1.allocation = demoScenario1.allocation ∧
    ¬ NeedConsistent (importJSON scenario3 (some tamperedPayload)).1 := by
  decide

/-! ## The last claims: presets, dimensions, import -/

/-- C30 (no sign check on the request): the state with `P = 1`, `R = 1`,
Available `[5]`, Max `[[1]]`, Allocation `[[0]]`, Need `[[1]]` satisfies the
invariants of the data model, and the request `[-1]` of process 0 is approved
and leaves Allocation `[[-1]]`, Available `[6]` and Need `[[2]]`: a negative
Allocation entry. -/
theorem requestResources_no_sign_check :
    WellShaped oneByOne ∧ NeedConsistent oneByOne ∧ AllocationWithinMax oneByOne ∧
    AvailableNonneg oneByOne ∧ AllocationNonneg oneByOne ∧
    ValidRequest oneByOne 0 [-1] ∧
    requestResources oneByOne 0 [-1]
      = ({ oneByOne with available := [6], allocation := [[-1]], need := [[2]] },
          .ok (approvedWith [0])) ∧
    (approvedWith [0]).approved = true ∧
    ¬ AllocationNonneg (requestResources oneByOne 0 [-1]).1 := by
  decide

/-- C27 (restart from 0 is observable): on scenario 1 the scan of `checkSafety`,
which restarts from index 0 after each admission, returns `[1, 3, 0, 2, 4]`,
while a single continuous sweep (going on from `i + 1` after an admission and
wrapping around until no progress) returns `[1, 3, 4, 0, 2]`; so there is a
state on which the two differ. -/
theorem restart_differs_from_continuous_sweep :
    (∃ r, checkSafety demoScenario1 false = .ok r ∧ r.safeSequence = [1, 3, 0, 2, 4]) ∧
    continuousSweep demoScenario1 = [1, 3, 4, 0, 2] ∧
    ∃ b r, WellShaped b ∧ checkSafety b false = .ok r ∧ r.safeSequence ≠ continuousSweep b := by
  refine ⟨⟨_, rfl, rfl⟩, by decide, demoScenario1, _, by decide, rfl, by decide⟩

/-- Counterexample to C22 as stated: `initialize(0, 2 ^ 32)` and
`initialize(2 ^ 32, 0)` fail with a RangeError, as no array has `2 ^ 32`
entries: the first call stores the two counts and leaves the vector and the
matrices of the prior state, the second has Available assigned as well. -/
theorem initialize_fails_at_array_limit :
    initializeState scenario3 0 4294967296
      = ({ scenario3 with processes := 0, resources := 4294967296 }, .error .rangeError) ∧
    initializeState scenario3 4294967296 0
      = ({ scenario3 with processes := 4294967296, resources := 0, available := [] },
          .error .rangeError) := by
  decide

/-- C22, as the code has it: for `0 <= P < 2 ^ 32`, `0 <= R < 2 ^ 32` and any
prior state, `initialize(P, R)` returns normally and leaves `processes = P`,
`resources = R`, Available a vector of `R` zeros, and Max, Allocation and Need
each `P` rows of `R` zeros; the invariants of the data model hold of that
state. -/
theorem initialize_zero_fills (b0 : BankerAlgorithm) (P R : Int) (hP : 0 ≤ P) (hR : 0 ≤ R)
    (hP2 : P < 4294967296) (hR2 : R < 4294967296) :
    (initializeState b0 P R).2 = .ok () ∧
    (initializeState b0 P R).1 =
      { processes := P
        resources := R
        available := List.replicate R.toNat 0
        max := List.replicate P.toNat (List.replicate R.toNat 0)
        allocation := List.replicate P.toNat (List.replicate R.toNat 0)
        need := List.replicate P.toNat (List.replicate R.toNat 0) } ∧
    WellShaped (initializeState b0 P R).1 ∧
    NeedConsistent (initializeState b0 P R).1 ∧
    AllocationWithinMax (initializeState b0 P R).1 ∧
    AvailableNonneg (initializeState b0 P R).1 := by
  obtain ⟨h1, h2, h3, h4, h5⟩ := initializeState_kept b0 P R hR hR2 hP2
  have heq : initializeState b0 P R =
      ({ processes := P
         resources := R
         available := List.replicate R.toNat 0
         max := List.replicate P.toNat (List.replicate R.toNat 0)
         allocation := List.replicate P.toNat (List.replicate R.toNat 0)
         need := List.replicate P.toNat (List.replicate R.toNat 0) }, .ok ()) := by
    unfold initializeState
    rw [if_neg (by omega), if_neg (by omega)]
  refine ⟨h1, by rw [heq], h5 hP, h4, ?_, ?_⟩
  · rw [heq]
    intro i _ j _
    exact le_refl _
  · rw [heq]
    intro j hj
    have hj1 : j < R.toNat := hj
    show 0 ≤ (List.replicate R.toNat (0 : Int)).getD j 0
    simp [List.getD_eq_getElem?_getD, List.getElem?_replicate, hj1]

/-- Witness of the amended C22: `initialize(2, 3)` on the state of scenario 3. -/
theorem initialize_zero_fills_witness :
    (0 : Int) ≤ 2 ∧ (0 : Int) ≤ 3 ∧ (2 : Int) < 4294967296 ∧ (3 : Int) < 4294967296 ∧
    (initializeState scenario3 2 3).2 = .ok () ∧
    (initializeState scenario3 2 3).1 =
      { processes := 2
        resources := 3
        available := List.replicate (3 : Int).toNat 0
        max := List.replicate (2 : Int).toNat (List.replicate (3 : Int).toNat 0)
        allocation := List.replicate (2 : Int).toNat (List.replicate (3 : Int).toNat 0)
        need := List.replicate (2 : Int).toNat (List.replicate (3 : Int).toNat 0) } ∧
    WellShaped (initializeState scenario3 2 3).1 ∧
    NeedConsistent (initializeState scenario3 2 3).1 ∧
    AllocationWithinMax (initializeState scenario3 2 3).1 ∧
    AvailableNonneg (initializeState scenario3 2 3).1 :=
  ⟨by decide, by decide, by decide, by decide,
    initialize_zero_fills scenario3 2 3 (by decide) (by decide) (by decide) (by decide)⟩

/-- C23, as the code has it: `initialize` does not check its arguments and there
is no InvalidDimension error.  When `P < 0` or `R < 0`: with `R < 0` (and also
with `R >= 2 ^ 32`) the call fails with a RangeError, thrown by `new Array(R)`,
after it has stored `P` and `R`, the vector and the matrices being left as
they were; with `0 <= R < 2 ^ 32` (so `P < 0`) the call does not fail: it
stores `P` and `R` and leaves Available a vector of `R` zeros and Max,
Allocation and Need empty. -/
theorem initialize_negative_dimensions (b0 : BankerAlgorithm) (P R : Int)
    (hneg : P < 0 ∨ R < 0) :
    ((R < 0 ∨ 4294967296 ≤ R) ∧
      initializeState b0 P R
        = ({ b0 with processes := P, resources := R }, .error .rangeError)) ∨
    (0 ≤ R ∧ R < 4294967296 ∧ P < 0 ∧
      initializeState b0 P R
        = ({ processes := P
             resources := R
             available := List.replicate R.toNat 0
             max := []
             allocation := []
             need := [] }, .ok ())) := by
  unfold initializeState
  by_cases hR : R < 0 ∨ 4294967296 ≤ R
  · left
    rw [if_pos hR]
    exact ⟨hR, rfl⟩
  · right
    have hP : P < 0 := by omega
    have hz : P.toNat = 0 := by omega
    rw [if_neg hR, if_neg (by omega), hz]
    exact ⟨by omega, by omega, hP, rfl⟩

/-- Witness of the amended C23: `initialize(-1, 2)`. -/
theorem initialize_negative_dimensions_witness :
    ((-1 : Int) < 0 ∨ (2 : Int) < 0) ∧
    ((((2 : Int) < 0 ∨ (4294967296 : Int) ≤ 2) ∧
      initializeState scenario3 (-1) 2
        = ({ scenario3 with processes := -1, resources := 2 }, .error .rangeError)) ∨
    ((0 : Int) ≤ 2 ∧ (2 : Int) < 4294967296 ∧ (-1 : Int) < 0 ∧
      initializeState scenario3 (-1) 2
        = ({ processes := -1
             resources := 2
             available := List.replicate (2 : Int).toNat 0
             max := []
             allocation := []
             need := [] }, .ok ()))) :=
  ⟨by decide, initialize_negative_dimensions scenario3 (-1) 2 (by decide)⟩

/-- Counterexample to C23 as stated: `initialize(-1, 2)` does not fail; it
returns normally and leaves `processes = -1`. -/
theorem initialize_accepts_negative_processes :
    initializeState scenario3 (-1) 2
      = ({ processes := -1, resources := 2, available := [0, 0], max := [],
           allocation := [], need := [] }, .ok ()) := by
  decide

theorem importJSONReturns_false_iff (parsed : Option Json) :
    importJSONReturns parsed = false ↔ (parsed = none ∨ parsed = some .null) := by
  cases parsed with
  | none => exact ⟨fun _ => Or.inl rfl, fun _ => rfl⟩
  | some data =>
    cases data with
    | null => exact ⟨fun _ => Or.inr rfl, fun _ => rfl⟩
    | bool x => exact ⟨fun hx => (by cases hx), fun hx => (by rcases hx with hx | hx <;> cases hx)⟩
    | num x => exact ⟨fun hx => (by cases hx), fun hx => (by rcases hx with hx | hx <;> cases hx)⟩
    | str x => exact ⟨fun hx => (by cases hx), fun hx => (by rcases hx with hx | hx <;> cases hx)⟩
    | arr x => exact ⟨fun hx => (by cases hx), fun hx => (by rcases hx with hx | hx <;> cases hx)⟩
    | obj x => exact ⟨fun hx => (by cases hx), fun hx => (by rcases hx with hx | hx <;> cases hx)⟩

theorem importJSON_outcome (b : BankerAlgorithm) (parsed : Option Json) :
    (importJSON b parsed).2 = .ok (importJSONReturns parsed) ∨
    (importJSON b parsed).2 = .error .notInModel := by
  cases parsed with
  | none => exact Or.inl rfl
  | some data =>
    cases data with
    | null => exact Or.inl rfl
    | bool x => unfold importJSON; dsimp only; split <;> simp [importJSONReturns]
    | num x => unfold importJSON; dsimp only; split <;> simp [importJSONReturns]
    | str x => unfold importJSON; dsimp only; split <;> simp [importJSONReturns]
    | arr x => unfold importJSON; dsimp only; split <;> simp [importJSONReturns]
    | obj x => unfold importJSON; dsimp only; split <;> simp [importJSONReturns]

/-- C21, as the code has it: `importJSON` does not check the payload and there
is no MalformedState error.  It returns `false` exactly when `JSON.parse`
throws or the parsed value is `null`, and then the state is left as it was; for
every other payload it returns `true`, a missing field or a field of another
type included.  A payload whose `processes` and `resources` are integers, whose
`available` is a vector and whose `max`, `allocation` and `need` are matrices
of integers is loaded as given, whatever its dimensions and signs.  For any
other payload the state left behind holds `undefined` or values that are not
integers, which the state of this model cannot hold, and the model of the
state stops (`notInModel`). -/
theorem import_fails_only_on_parse_error (b : BankerAlgorithm) (parsed : Option Json) :
    (importJSONReturns parsed = false ↔ (parsed = none ∨ parsed = some .null)) ∧
    ((importJSON b parsed).2 = .ok (importJSONReturns parsed) ∨
      (importJSON b parsed).2 = .error .notInModel) ∧
    ((importJSON b parsed).2 = .ok false ↔ (parsed = none ∨ parsed = some .null)) ∧
    ((importJSON b parsed).2 = .ok false → (importJSON b parsed).1 = b) ∧
    (∀ (data : Json) (p r : Int) (a : List Int) (m al n : List (List Int)),
      parsed = some data → data ≠ .null →
      (data.member "processes").bind Json.asInt = some p →
      (data.member "resources").bind Json.asInt = some r →
      (data.member "available").bind Json.asVector = some a →
      (data.member "max").bind Json.asMatrix = some m →
      (data.member "allocation").bind Json.asMatrix = some al →
      (data.member "need").bind Json.asMatrix = some n →
      importJSONReturns parsed = true ∧
      importJSON b parsed
        = ({ processes := p, resources := r, available := a, max := m, allocation := al,
             need := n }, .ok true)) := by
  refine ⟨importJSONReturns_false_iff parsed, importJSON_outcome b parsed, ?_, ?_, ?_⟩
  · cases parsed with
    | none => exact ⟨fun _ => Or.inl rfl, fun _ => rfl⟩
    | some data =>
      cases data with
      | null => exact ⟨fun _ => Or.inr rfl, fun _ => rfl⟩
      | bool x =>
        refine ⟨fun hx => ?_, fun hx => by rcases hx with hx | hx <;> cases hx⟩
        unfold importJSON at hx; revert hx; dsimp only; split <;> intro hx <;> simp at hx
      | num x =>
        refine ⟨fun hx => ?_, fun hx => by rcases hx with hx | hx <;> cases hx⟩
        unfold importJSON at hx; revert hx; dsimp only; split <;> intro hx <;> simp at hx
      | str x =>
        refine ⟨fun hx => ?_, fun hx => by rcases hx with hx | hx <;> cases hx⟩
        unfold importJSON at hx; revert hx; dsimp only; split <;> intro hx <;> simp at hx
      | arr x =>
        refine ⟨fun hx => ?_, fun hx => by rcases hx with hx | hx <;> cases hx⟩
        unfold importJSON at hx; revert hx; dsimp only; split <;> intro hx <;> simp at hx
      | obj x =>
        refine ⟨fun hx => ?_, fun hx => by rcases hx with hx | hx <;> cases hx⟩
        unfold importJSON at hx; revert hx; dsimp only; split <;> intro hx <;> simp at hx
  · cases parsed with
    | none => intro _; rfl
    | some data =>
      cases data with
      | null => intro _; rfl
      | bool x =>
        intro hx
        unfold importJSON at hx; revert hx; dsimp only; split <;> intro hx <;> simp at hx
      | num x =>
        intro hx
        unfold importJSON at hx; revert hx; dsimp only; split <;> intro hx <;> simp at hx
      | str x =>
        intro hx
        unfold importJSON at hx; revert hx; dsimp only; split <;> intro hx <;> simp at hx
      | arr x =>
        intro hx
        unfold importJSON at hx; revert hx; dsimp only; split <;> intro hx <;> simp at hx
      | obj x =>
        intro hx
        unfold importJSON at hx; revert hx; dsimp only; split <;> intro hx <;> simp at hx
  · intro data p r a m al n hp hnull h1 h2 h3 h4 h5 h6
    rw [hp]
    refine ⟨?_, importJSON_of_members b data p r a m al n hnull h1 h2 h3 h4 h5 h6⟩
    cases hret : importJSONReturns (some data) with
    | true => rfl
    | false =>
      rcases (importJSONReturns_false_iff (some data)).1 hret with hx | hx
      · cases hx
      · injection hx with hx
        exact absurd hx hnull

/-- Counterexample to C21 as stated: a payload with `processes = 2`, a `max` of
one row of three, an empty `need` and negative entries is accepted; `importJSON`
returns `true` and the state it leaves has no matching shape.  A payload with
five of the six fields missing, and one with a string for `resources` and a
string among `available`, make it return `true` as well. -/
theorem import_accepts_malformed :
    (importJSON scenario3 (some malformedPayload)).2 = .ok true ∧
    (importJSON scenario3 (some malformedPayload)).1
      = { processes := 2, resources := 2, available := [-1], max := [[1, 2, 3]],
          allocation := [[-5], [0, 0]], need := [] } ∧
    ¬ WellShaped (importJSON scenario3 (some malformedPayload)).1 ∧
    importJSONReturns (some malformedPayload) = true ∧
    importJSONReturns (some incompletePayload) = true ∧
    importJSONReturns (some illTypedPayload) = true := by
  decide

/-! ## More Available keeps a safe state safe -/

theorem validCompletionOrder_of_safe (b : BankerAlgorithm) (stepByStep : Bool)
    (h : WellShaped b) :
    ∃ r, checkSafety b stepByStep = .ok r ∧
      (r.isSafe = true → ValidCompletionOrder b r.safeSequence) := by
  obtain ⟨r, hr, hsafe, hnd, hlt, hlow, _⟩ := checkSafety_spec b stepByStep h
  refine ⟨r, hr, ?_⟩
  intro his
  rw [his] at hsafe
  have hlen : r.safeSequence.length = b.processes.toNat := by
    simpa using hsafe.symm
  exact ⟨perm_range_of_nodup r.safeSequence _ hnd hlt hlen, fun k hk => (hlow k hk).2.2.1⟩

theorem safe_of_validCompletionOrder (b : BankerAlgorithm) (stepByStep : Bool)
    (h : WellShaped b) (hnn : AllocationNonneg b) (seq : List Nat)
    (hseq : ValidCompletionOrder b seq) :
    ∃ r, checkSafety b stepByStep = .ok r ∧ r.isSafe = true := by
  obtain ⟨r, hr, hsafe, hnd, hlt, _, hdone⟩ := checkSafety_spec b stepByStep h
  refine ⟨r, hr, ?_⟩
  have hlen : r.safeSequence.length = b.processes.toNat := by
    rcases hdone with hlen | hstuck
    · exact hlen
    · exact length_eq_of_stuck hnn hseq hstuck hnd hlt
  rw [hsafe]
  simpa using hlen

/-- With exact arithmetic (safety is monotone in Available): take a state of matching shape with
no negative Allocation entry, and a second state with the same `P`, `R`, Max,
Allocation and Need whose Available is componentwise at least that of the
first; if `checkSafety` reports `isSafe = true` on the first state, it reports
`isSafe = true` on the second. -/
theorem checkSafety_monotone_in_available_exact (b : BankerAlgorithm) (available2 : List Int)
    (s1 s2 : Bool) (h : WellShaped b) (hnn : AllocationNonneg b)
    (hlen : (available2.length : Int) = b.resources)
    (hge : ∀ j, j < b.resources.toNat → b.available.getD j 0 ≤ available2.getD j 0) :
    ∃ r1, checkSafety b s1 = .ok r1 ∧
      (r1.isSafe = true →
        ∃ r2, checkSafety { b with available := available2 } s2 = .ok r2 ∧
          r2.isSafe = true) := by
  obtain ⟨r1, hr1, hvalid⟩ := validCompletionOrder_of_safe b s1 h
  refine ⟨r1, hr1, ?_⟩
  intro hs
  have hv := hvalid hs
  have h2 : WellShaped { b with available := available2 } := ⟨hlen, h.2.1, h.2.2.1, h.2.2.2⟩
  apply safe_of_validCompletionOrder _ s2 h2 hnn r1.safeSequence
  refine ⟨hv.1, ?_⟩
  intro k hk j hj
  have hj1 : j < b.resources.toNat := hj
  have h3 := hv.2 k hk j hj1
  have h4 := hge j hj1
  show entry b.need (r1.safeSequence.getD k 0) j
    ≤ available2.getD j 0
      + ((r1.safeSequence.take k).map fun p => entry b.allocation p j).sum
  unfold workAfter at h3
  omega

/-! ## Recomputing Need twice -/

theorem assign_at_most_length (a : List Int) (j : Nat) (v : Int) (h : j ≤ a.length) :
    ∃ r, assign a (j : Int) v = some r ∧ r.length = Nat.max a.length (j + 1) ∧
      ∀ t, r.getD t 0 = if t = j then v else a.getD t 0 := by
  by_cases hlt : j < a.length
  · refine ⟨a.set j v, assign_of_lt a j v hlt, ?_, ?_⟩
    · rw [List.length_set]
      exact (Nat.max_eq_left (by omega)).symm
    · intro t
      simp only [List.getD_eq_getElem?_getD, List.getElem?_set]
      by_cases htj : j = t
      · subst htj; simp [hlt]
      · rw [if_neg htj, if_neg (fun hx => htj hx.symm)]
  · have heq : j = a.length := by omega
    subst heq
    refine ⟨a ++ [v], assign_length a v, ?_, ?_⟩
    · rw [List.length_append, List.length_singleton]
      exact (Nat.max_eq_right (by omega)).symm
    · intro t
      by_cases hta : t = a.length
      · subst hta
        rw [if_pos rfl, List.getD_append_right _ _ _ _ (le_refl _)]
        simp
      · rw [if_neg hta]
        by_cases htl : t < a.length
        · exact List.getD_append _ _ _ _ htl
        · rw [getD_of_le a t (by omega), List.getD_eq_getElem?_getD,
            List.getElem?_eq_none (by simp; omega)]
          rfl

theorem needLoop_general (maxRow allocationRow : List Int) :
    ∀ (n j : Nat) (needRow : List Int),
    j ≤ needRow.length → j + n ≤ maxRow.length → j + n ≤ allocationRow.length →
    ∃ row, needLoop maxRow allocationRow n j needRow = .ok row ∧
      row.length = Nat.max needRow.length (j + n) ∧
      ∀ t, row.getD t 0 =
        if j ≤ t ∧ t < j + n then maxRow.getD t 0 - allocationRow.getD t 0
        else needRow.getD t 0 := by
  intro n
  induction n with
  | zero =>
    intro j needRow h1 _ _
    refine ⟨needRow, rfl, (Nat.max_eq_left (by omega)).symm, ?_⟩
    intro t
    rw [if_neg (by omega)]
  | succ n ih =>
    intro j needRow h1 h2 h3
    have hjm : j < maxRow.length := by omega
    have hja : j < allocationRow.length := by omega
    obtain ⟨r, hr1, hr2, hr3⟩ := assign_at_most_length needRow j (maxRow[j] - allocationRow[j]) h1
    have hmax1 : needRow.length ≤ r.length ∧ j + 1 ≤ r.length := by
      rw [hr2]; exact ⟨Nat.le_max_left _ _, Nat.le_max_right _ _⟩
    obtain ⟨row, hw1, hw2, hw3⟩ := ih (j + 1) r (by omega) (by omega) (by omega)
    refine ⟨row, ?_, ?_, ?_⟩
    · simp only [needLoop, List.getElem?_eq_getElem hjm, List.getElem?_eq_getElem hja, hr1]
      exact hw1
    · rw [hw2, hr2]
      simp only [Nat.max_def]
      split <;> split <;> split <;> omega
    · intro t
      rw [hw3 t, hr3 t]
      by_cases htj : t = j
      · subst htj
        rw [if_neg (by omega), if_pos rfl, if_pos (by omega)]
        simp [List.getD_eq_getElem?_getD, List.getElem?_eq_getElem hjm,
          List.getElem?_eq_getElem hja]
      · rw [if_neg htj]
        by_cases hc : j + 1 ≤ t ∧ t < j + 1 + n
        · rw [if_pos hc, if_pos (by omega)]
        · rw [if_neg hc, if_neg (by omega)]

theorem assign_some_le (a : List Int) (j : Nat) (v : Int) (r : List Int)
    (h : assign a (j : Int) v = some r) : j ≤ a.length := by
  unfold assign at h
  by_contra hc
  rw [if_neg (by omega), if_neg (by omega)] at h
  cases h

theorem needLoop_ok_lengths (maxRow allocationRow : List Int) :
    ∀ (n j : Nat) (needRow row : List Int),
    needLoop maxRow allocationRow (n + 1) j needRow = .ok row →
    j ≤ needRow.length ∧ j + (n + 1) ≤ maxRow.length ∧ j + (n + 1) ≤ allocationRow.length := by
  intro n
  induction n with
  | zero =>
    intro j needRow row h
    unfold needLoop at h
    split at h
    · rename_i m a hm ha
      split at h
      · rename_i r hr
        have hjm : j < maxRow.length := by
          by_contra hc; rw [List.getElem?_eq_none (by omega)] at hm; cases hm
        have hja : j < allocationRow.length := by
          by_contra hc; rw [List.getElem?_eq_none (by omega)] at ha; cases ha
        exact ⟨assign_some_le _ _ _ _ hr, by omega, by omega⟩
      · cases h
    · cases h
  | succ n ih =>
    intro j needRow row h
    unfold needLoop at h
    split at h
    · rename_i m a hm ha
      split at h
      · rename_i r hr
        obtain ⟨_, k2, k3⟩ := ih (j + 1) r row h
        exact ⟨assign_some_le _ _ _ _ hr, by omega, by omega⟩
      · cases h
    · cases h

theorem needLoop_idempotent (maxRow allocationRow : List Int) (n : Nat)
    (needRow row : List Int) (h : needLoop maxRow allocationRow n 0 needRow = .ok row) :
    needLoop maxRow allocationRow n 0 row = .ok row := by
  cases n with
  | zero =>
    unfold needLoop at h ⊢
    rfl
  | succ n =>
    obtain ⟨k1, k2, k3⟩ := needLoop_ok_lengths maxRow allocationRow n 0 needRow row h
    obtain ⟨r1, h1, h2, h3⟩ := needLoop_general maxRow allocationRow (n + 1) 0 needRow k1 k2 k3
    rw [h] at h1
    injection h1 with h1
    subst h1
    obtain ⟨r2, g1, g2, g3⟩ := needLoop_general maxRow allocationRow (n + 1) 0 row
      (by omega) k2 k3
    have hge : 0 + (n + 1) ≤ row.length := by rw [h2]; exact Nat.le_max_right _ _
    have heq : r2 = row := by
      apply ext_getD
      · rw [g2]; exact Nat.max_eq_left hge
      · intro t _
        rw [g3 t]
        by_cases hc : 0 ≤ t ∧ t < 0 + (n + 1)
        · rw [if_pos hc, h3 t, if_pos hc]
        · rw [if_neg hc]
    rw [g1, heq]

theorem index_natCast {α : Type} (a : List α) (i : Nat) : index a (i : Int) = a[i]? := by
  rw [index_of_nonneg _ _ (by omega)]
  simp

theorem calculateNeed_no_resource (b : BankerAlgorithm) (i : Int)
    (hR : b.resources.toNat = 0) : calculateNeed b i = (b, .ok ()) := by
  unfold calculateNeed
  rw [if_pos hR]

theorem calculateNeed_of_rows (b : BankerAlgorithm) (i : Nat) (n m a row : List Int)
    (hR : b.resources.toNat ≠ 0) (hn : b.need[i]? = some n) (hm : b.max[i]? = some m)
    (ha : b.allocation[i]? = some a)
    (hloop : needLoop m a b.resources.toNat 0 n = .ok row) :
    calculateNeed b (i : Int) = ({ b with need := b.need.set i row }, .ok ()) := by
  unfold calculateNeed
  rw [if_neg hR, index_natCast, index_natCast, index_natCast, hn, hm, ha]
  simp only [hloop, Int.toNat_ofNat]

/-- The four ways a call of `calculateNeed` can go. -/
theorem calculateNeed_cases (b : BankerAlgorithm) (i : Nat) :
    (b.resources.toNat = 0 ∧ calculateNeed b (i : Int) = (b, .ok ())) ∨
    (∃ e, calculateNeed b (i : Int) = (b, .error e)) ∨
    (∃ n m a row, b.resources.toNat ≠ 0 ∧ b.need[i]? = some n ∧ b.max[i]? = some m ∧
      b.allocation[i]? = some a ∧ needLoop m a b.resources.toNat 0 n = .ok row ∧
      calculateNeed b (i : Int) = ({ b with need := b.need.set i row }, .ok ())) := by
  by_cases hR : b.resources.toNat = 0
  · exact Or.inl ⟨hR, calculateNeed_no_resource b _ hR⟩
  · right
    cases hn : b.need[i]? with
    | none =>
      left
      refine ⟨.typeError, ?_⟩
      unfold calculateNeed
      rw [if_neg hR, index_natCast, hn]
    | some n =>
      cases hm : b.max[i]? with
      | none =>
        left
        refine ⟨.typeError, ?_⟩
        unfold calculateNeed
        rw [if_neg hR, index_natCast, index_natCast, hn, hm]
      | some m =>
        cases ha : b.allocation[i]? with
        | none =>
          left
          refine ⟨.typeError, ?_⟩
          unfold calculateNeed
          rw [if_neg hR, index_natCast, index_natCast, index_natCast, hn, hm, ha]
        | some a =>
          cases hloop : needLoop m a b.resources.toNat 0 n with
          | error e =>
            left
            refine ⟨e, ?_⟩
            unfold calculateNeed
            rw [if_neg hR, index_natCast, index_natCast, index_natCast, hn, hm, ha]
            simp only [hloop]
          | ok row =>
            right
            exact ⟨n, m, a, row, hR, rfl, rfl, rfl, hloop,
              calculateNeed_of_rows b i n m a row hR hn hm ha hloop⟩

theorem getElem?_set_self_of_some {α : Type} (l : List α) (i : Nat) (x y : α)
    (h : l[i]? = some y) : (l.set i x)[i]? = some x := by
  have hi : i < l.length := by
    by_contra hc
    rw [List.getElem?_eq_none (by omega)] at h
    cases h
  rw [List.getElem?_set, if_pos rfl, if_pos hi]

theorem rowDone_after (b b1 : BankerAlgorithm) (i : Nat)
    (h : calculateNeed b (i : Int) = (b1, .ok ())) : RowDone b1 i := by
  rcases calculateNeed_cases b i with ⟨hR, heq⟩ | ⟨e, heq⟩ | ⟨n, m, a, row, hR, hn, hm, ha, hl, heq⟩
  · rw [heq] at h
    injection h with h1 _
    subst h1
    exact heq
  · rw [heq] at h
    injection h with _ h2
    cases h2
  · rw [heq] at h
    injection h with h1 _
    subst h1
    unfold RowDone
    have := calculateNeed_of_rows { b with need := b.need.set i row } i row m a row hR
      (getElem?_set_self_of_some _ _ _ _ hn) hm ha (needLoop_idempotent m a _ n row hl)
    rw [this]
    simp only [List.set_set]

theorem rowDone_kept (c c1 : BankerAlgorithm) (i k : Nat) (out : Except JSError Unit)
    (hki : k ≠ i) (h : calculateNeed c (k : Int) = (c1, out)) (hd : RowDone c i) :
    RowDone c1 i := by
  rcases calculateNeed_cases c k with ⟨_, heq⟩ | ⟨e, heq⟩ | ⟨n, m, a, row, hR, hn, hm, ha, hl, heq⟩
  · rw [heq] at h
    injection h with h1 _
    subst h1
    exact hd
  · rw [heq] at h
    injection h with h1 _
    subst h1
    exact hd
  · rw [heq] at h
    injection h with h1 _
    subst h1
    unfold RowDone at hd ⊢
    rcases calculateNeed_cases c i with
      ⟨hR0, _⟩ | ⟨e, heq2⟩ | ⟨n2, m2, a2, row2, _, hn2, hm2, ha2, hl2, heq2⟩
    · exact absurd hR0 hR
    · rw [heq2] at hd
      injection hd with _ h2
      cases h2
    · rw [heq2] at hd
      injection hd with h1 _
      have hfix : c.need.set i row2 = c.need := by
        have := congrArg BankerAlgorithm.need h1
        exact this
      have hn3 : (c.need.set k row)[i]? = some n2 := by
        rw [List.getElem?_set, if_neg hki]
        exact hn2
      have := calculateNeed_of_rows { c with need := c.need.set k row } i n2 m2 a2 row2 hR
        hn3 hm2 ha2 hl2
      rw [this]
      have hcomm : (c.need.set k row).set i row2 = c.need.set k row := by
        rw [List.set_comm _ _ _ hki, hfix]
      simp only [hcomm]

theorem calculateNeed_error_state (b b1 : BankerAlgorithm) (i : Nat) (e : JSError)
    (h : calculateNeed b (i : Int) = (b1, .error e)) : b1 = b := by
  rcases calculateNeed_cases b i with ⟨_, heq⟩ | ⟨e2, heq⟩ | ⟨n, m, a, row, _, _, _, _, _, heq⟩
  · rw [heq] at h
    injection h with _ h2
    cases h2
  · rw [heq] at h
    injection h with h1 _
    exact h1.symm
  · rw [heq] at h
    injection h with _ h2
    cases h2

theorem calculateNeed_processes (b : BankerAlgorithm) (i : Nat) :
    (calculateNeed b (i : Int)).1.processes = b.processes := by
  rcases calculateNeed_cases b i with ⟨_, heq⟩ | ⟨e2, heq⟩ | ⟨n, m, a, row, _, _, _, _, _, heq⟩ <;>
    rw [heq]

theorem allNeedsLoop_processes : ∀ (n i : Nat) (b : BankerAlgorithm),
    (allNeedsLoop n i b).1.processes = b.processes := by
  intro n
  induction n with
  | zero => intro i b; rfl
  | succ n ih =>
    intro i b
    unfold allNeedsLoop
    cases hc : calculateNeed b (i : Int) with
    | mk b1 out =>
      have hp := calculateNeed_processes b i
      rw [hc] at hp
      cases out with
      | error e => exact hp
      | ok u =>
        simp only
        rw [ih (i + 1) b1]
        exact hp

theorem allNeedsLoop_rowDone_kept : ∀ (n i0 : Nat) (c : BankerAlgorithm) (i : Nat),
    i < i0 → RowDone c i → RowDone (allNeedsLoop n i0 c).1 i := by
  intro n
  induction n with
  | zero => intro i0 c i _ hd; exact hd
  | succ n ih =>
    intro i0 c i hlt hd
    unfold allNeedsLoop
    cases hc : calculateNeed c (i0 : Int) with
    | mk c1 out =>
      have hk := rowDone_kept c c1 i i0 out (by omega) hc hd
      cases out with
      | error e => exact hk
      | ok u => exact ih (i0 + 1) c1 i (by omega) hk

theorem allNeedsLoop_idempotent : ∀ (n i : Nat) (b : BankerAlgorithm),
    allNeedsLoop n i (allNeedsLoop n i b).1 = allNeedsLoop n i b := by
  intro n
  induction n with
  | zero => intro i b; rfl
  | succ n ih =>
    intro i b
    cases hc : calculateNeed b (i : Int) with
    | mk b1 out =>
      cases out with
      | error e =>
        have hb : b1 = b := calculateNeed_error_state b b1 i e hc
        subst hb
        have h1 : allNeedsLoop (n + 1) i b1 = (b1, .error e) := by
          unfold allNeedsLoop
          rw [hc]
        rw [h1]
        exact h1
      | ok u =>
        have h1 : allNeedsLoop (n + 1) i b = allNeedsLoop n (i + 1) b1 := by
          conv => lhs; unfold allNeedsLoop
          rw [hc]
        rw [h1]
        have hd : RowDone (allNeedsLoop n (i + 1) b1).1 i :=
          allNeedsLoop_rowDone_kept n (i + 1) b1 i (by omega) (rowDone_after b b1 i hc)
        conv => lhs; unfold allNeedsLoop
        rw [show calculateNeed (allNeedsLoop n (i + 1) b1).1 (i : Int)
          = ((allNeedsLoop n (i + 1) b1).1, .ok ()) from hd]
        exact ih (i + 1) b1

theorem calculateAllNeeds_idempotent (b : BankerAlgorithm) :
    calculateAllNeeds (calculateAllNeeds b).1 = calculateAllNeeds b := by
  unfold calculateAllNeeds
  rw [allNeedsLoop_processes]
  exact allNeedsLoop_idempotent _ 0 b

theorem calculateNeed_frame (b : BankerAlgorithm) (i : Nat) :
    (calculateNeed b (i : Int)).1.resources = b.resources ∧
    (calculateNeed b (i : Int)).1.available = b.available ∧
    (calculateNeed b (i : Int)).1.max = b.max ∧
    (calculateNeed b (i : Int)).1.allocation = b.allocation := by
  rcases calculateNeed_cases b i with ⟨_, heq⟩ | ⟨e2, heq⟩ | ⟨n, m, a, row, _, _, _, _, _, heq⟩ <;>
    rw [heq] <;> exact ⟨rfl, rfl, rfl, rfl⟩

theorem allNeedsLoop_frame : ∀ (n i : Nat) (b : BankerAlgorithm),
    (allNeedsLoop n i b).1.resources = b.resources ∧
    (allNeedsLoop n i b).1.available = b.available ∧
    (allNeedsLoop n i b).1.max = b.max ∧
    (allNeedsLoop n i b).1.allocation = b.allocation := by
  intro n
  induction n with
  | zero => intro i b; exact ⟨rfl, rfl, rfl, rfl⟩
  | succ n ih =>
    intro i b
    unfold allNeedsLoop
    cases hc : calculateNeed b (i : Int) with
    | mk b1 out =>
      have hp := calculateNeed_frame b i
      rw [hc] at hp
      cases out with
      | error e => exact hp
      | ok u =>
        simp only
        obtain ⟨k1, k2, k3, k4⟩ := ih (i + 1) b1
        exact ⟨k1.trans hp.1, k2.trans hp.2.1, k3.trans hp.2.2.1, k4.trans hp.2.2.2⟩

theorem allNeedsLoop_rowDone : ∀ (n i0 : Nat) (b : BankerAlgorithm),
    (allNeedsLoop n i0 b).2 = .ok () →
    ∀ i, i0 ≤ i → i < i0 + n → RowDone (allNeedsLoop n i0 b).1 i := by
  intro n
  induction n with
  | zero => intro i0 b _ i h1 h2; omega
  | succ n ih =>
    intro i0 b hok i h1 h2
    unfold allNeedsLoop at hok ⊢
    cases hc : calculateNeed b (i0 : Int) with
    | mk b1 out =>
      rw [hc] at hok
      cases out with
      | error e => simp at hok
      | ok u =>
        simp only at hok ⊢
        by_cases hi : i = i0
        · subst hi
          exact allNeedsLoop_rowDone_kept n (i + 1) b1 i (by omega) (rowDone_after b b1 i hc)
        · exact ih (i0 + 1) b1 hok i (by omega) (by omega)

theorem allNeedsLoop_wellShaped : ∀ (n i : Nat) (b : BankerAlgorithm), WellShaped b →
    i + n = b.processes.toNat →
    (allNeedsLoop n i b).2 = .ok () ∧ WellShaped (allNeedsLoop n i b).1 := by
  intro n
  induction n with
  | zero => intro i b h _; exact ⟨rfl, h⟩
  | succ n ih =>
    intro i b h hin
    have hP := h.processes_nonneg
    have hi : i < b.processes.toNat := by omega
    unfold allNeedsLoop
    rw [calculateNeed_eq b (i : Int) h (by omega) (by omega)]
    simp only [Int.toNat_ofNat]
    exact ih (i + 1) _ (recomputeNeed_wellShaped b i h hi) (by
      show i + 1 + n = b.processes.toNat
      omega)

theorem needConsistent_of_rowDone (b : BankerAlgorithm) (h : WellShaped b)
    (hd : ∀ i, i < b.processes.toNat → RowDone b i) : NeedConsistent b := by
  intro i hi j hj
  have hP := h.processes_nonneg
  have h1 := hd i hi
  unfold RowDone at h1
  rw [calculateNeed_eq b (i : Int) h (by omega) (by omega)] at h1
  injection h1 with h1 _
  simp only [Int.toNat_ofNat] at h1
  have h2 := recomputeNeed_consistent b i h hi
  obtain ⟨arow, harow, halen, haent⟩ := h.allocation_row hi
  obtain ⟨mrow, hmrow, hmlen, hment⟩ := h.max_row hi
  have haD : b.allocation.getD i [] = arow := getD_of_getElem? _ _ _ _ harow
  have hmD : b.max.getD i [] = mrow := getD_of_getElem? _ _ _ _ hmrow
  have hnl : i < b.need.length := by have := h.2.2.2.1; omega
  have h3 : entry (recomputeNeed b i).need i j = entry b.max i j - entry b.allocation i j := by
    show entry (b.need.set i _) i j = _
    rw [entry_set_self _ _ _ _ hnl, hmD, haD, getD_zipWith _ _ _ _ (by omega) (by omega),
      hment j, haent j]
  rw [h1] at h3
  exact h3

/-- On a state of matching shape `calculateAllNeeds` returns normally and leaves
Need = Max - Allocation, whatever Need was before. -/
theorem calculateAllNeeds_establishes (b : BankerAlgorithm) (h : WellShaped b) :
    (calculateAllNeeds b).2 = .ok () ∧ WellShaped (calculateAllNeeds b).1 ∧
      NeedConsistent (calculateAllNeeds b).1 := by
  obtain ⟨h1, h2⟩ := allNeedsLoop_wellShaped b.processes.toNat 0 b h (by omega)
  refine ⟨h1, h2, ?_⟩
  apply needConsistent_of_rowDone _ h2
  intro i hi
  have hp : (allNeedsLoop b.processes.toNat 0 b).1.processes = b.processes :=
    allNeedsLoop_processes _ _ _
  have hi1 : i < b.processes.toNat := by
    have : i < (allNeedsLoop b.processes.toNat 0 b).1.processes.toNat := hi
    rw [hp] at this
    exact this
  exact allNeedsLoop_rowDone b.processes.toNat 0 b h1 i (by omega) (by omega)

/-- C24 (idempotence of need recomputation): on every state, calling
`calculateAllNeeds` a second time right after the first leaves the same state
(the same Need matrix and the same other fields) and has the same outcome as
the first call alone; and the call writes to Need only: `processes`,
`resources`, Available, Max and Allocation are as before it. -/
theorem calculateAllNeeds_twice (b : BankerAlgorithm) :
    calculateAllNeeds (calculateAllNeeds b).1 = calculateAllNeeds b ∧
    (calculateAllNeeds (calculateAllNeeds b).1).1.need = (calculateAllNeeds b).1.need ∧
    (calculateAllNeeds b).1.processes = b.processes ∧
    (calculateAllNeeds b).1.resources = b.resources ∧
    (calculateAllNeeds b).1.available = b.available ∧
    (calculateAllNeeds b).1.max = b.max ∧
    (calculateAllNeeds b).1.allocation = b.allocation := by
  obtain ⟨f1, f2, f3, f4⟩ := allNeedsLoop_frame b.processes.toNat 0 b
  refine ⟨calculateAllNeeds_idempotent b, by rw [calculateAllNeeds_idempotent b],
    allNeedsLoop_processes _ _ _, f1, f2, f3, f4⟩

/-! ## The trace does not change the run -/

theorem scan_withoutSteps (b : BankerAlgorithm) (stepByStep : Bool) :
    ∀ (n i : Nat) (st : Locals),
    (scan b stepByStep n i st).map withoutSteps = scan b false n i (withoutSteps st) := by
  intro n
  induction n with
  | zero => intro i st; rfl
  | succ n ih =>
    intro i st
    unfold scan
    have hf : (withoutSteps st).finish = st.finish := rfl
    have hw : (withoutSteps st).work = st.work := rfl
    rw [hf, hw]
    cases hfin : (st.finish[i]?).getD false with
    | true =>
      simp only [if_true]
      exact ih (i + 1) st
    | false =>
      simp only [Bool.false_eq_true, if_false]
      cases hv : vectorLessOrEqual b.need[i]? (some st.work) with
      | error e => rfl
      | ok v =>
        cases v with
        | false => exact ih (i + 1) st
        | true =>
          cases hadd : addAllocation b.allocation[i]? b.resources.toNat 0 st.work with
          | error e => rfl
          | ok w => rfl

theorem whileLoop_withoutSteps (b : BankerAlgorithm) (stepByStep : Bool) :
    ∀ (fuel : Nat) (st : Locals),
    (whileLoop b stepByStep fuel st).map withoutSteps
      = whileLoop b false fuel (withoutSteps st) := by
  intro fuel
  induction fuel with
  | zero =>
    intro st
    unfold whileLoop
    have h1 : (withoutSteps st).found = st.found := rfl
    have h2 : (withoutSteps st).safeSequence = st.safeSequence := rfl
    rw [h1, h2]
    split <;> rfl
  | succ fuel ih =>
    intro st
    have key : whileLoop b false (fuel + 1) (withoutSteps st)
        = if st.found && decide ((st.safeSequence.length : Int) < b.processes) then
            match scan b false b.processes.toNat 0
                (withoutSteps { st with found := false, iteration := st.iteration + 1 }) with
            | .error e => .error e
            | .ok st1 => whileLoop b false fuel st1
          else .ok (withoutSteps st) := rfl
    rw [key, ← scan_withoutSteps b stepByStep]
    conv => lhs; unfold whileLoop
    split
    · cases hsc : scan b stepByStep b.processes.toNat 0
          { st with found := false, iteration := st.iteration + 1 } with
      | error e => rfl
      | ok st1 => exact ih st1
    · rfl

theorem checkSafety_verdict (b : BankerAlgorithm) (stepByStep : Bool) :
    (checkSafety b stepByStep).map verdict = (checkSafety b false).map verdict := by
  unfold checkSafety
  by_cases hneg : b.processes < 0
  · rw [if_pos hneg, if_pos hneg]
  · rw [if_neg hneg, if_neg hneg]
    have hw := whileLoop_withoutSteps b stepByStep (b.processes.toNat + 1)
      { work := b.available, finish := List.replicate b.processes.toNat false,
        safeSequence := [],
        steps := if stepByStep then
            [{ step := 0, processIndex := none, description := .init, work := b.available,
               finish := List.replicate b.processes.toNat false, safeSequence := [],
               isSafe := none }]
          else [],
        found := true, iteration := 0 }
    have he : withoutSteps
        { work := b.available, finish := List.replicate b.processes.toNat false,
          safeSequence := [],
          steps := if stepByStep then
              [{ step := 0, processIndex := none, description := .init, work := b.available,
                 finish := List.replicate b.processes.toNat false, safeSequence := [],
                 isSafe := none }]
            else [],
          found := true, iteration := 0 }
        = { work := b.available, finish := List.replicate b.processes.toNat false,
            safeSequence := [], steps := [], found := true, iteration := 0 } := rfl
    rw [he] at hw
    simp only [Bool.false_eq_true, if_false]
    rw [← hw]
    cases hl : whileLoop b stepByStep (b.processes.toNat + 1)
        { work := b.available, finish := List.replicate b.processes.toNat false,
          safeSequence := [],
          steps := if stepByStep then
              [{ step := 0, processIndex := none, description := .init, work := b.available,
                 finish := List.replicate b.processes.toNat false, safeSequence := [],
                 isSafe := none }]
            else [],
          found := true, iteration := 0 } with
    | error e => rfl
    | ok st => rfl

/-- C25 (tracing is purely observational): on every state `checkSafety(true)`
and `checkSafety(false)` have the same outcome: both return, with the same
`isSafe` and the same `safeSequence`, or both fail in the same way.
`checkSafety` is a function of the state alone and writes to its own locals
only (`work` is a copy of Available), so a call changes none of Available, Max,
Allocation and Need, and repeated calls on a state return the same result. -/
theorem checkSafety_trace_observational (b : BankerAlgorithm) :
    (checkSafety b true).map verdict = (checkSafety b false).map verdict ∧
    (∀ r1 r2, checkSafety b true = .ok r1 → checkSafety b false = .ok r2 →
      r1.isSafe = r2.isSafe ∧ r1.safeSequence = r2.safeSequence) ∧
    (∀ r1, checkSafety b true = .ok r1 → ∃ r2, checkSafety b false = .ok r2) ∧
    (∀ r2, checkSafety b false = .ok r2 → ∃ r1, checkSafety b true = .ok r1) := by
  have h := checkSafety_verdict b true
  refine ⟨h, ?_, ?_, ?_⟩
  · intro r1 r2 h1 h2
    rw [h1, h2] at h
    have h3 : verdict r1 = verdict r2 := by
      injection h
    unfold verdict at h3
    injection h3 with h4 h5
    exact ⟨h4, h5⟩
  · intro r1 h1
    rw [h1] at h
    cases h2 : checkSafety b false with
    | error e => rw [h2] at h; cases h
    | ok r2 => exact ⟨r2, rfl⟩
  · intro r2 h2
    rw [h2] at h
    cases h1 : checkSafety b true with
    | error e => rw [h1] at h; cases h
    | ok r1 => exact ⟨r1, rfl⟩

/-! ## The number of passes -/

theorem scan_outcome (b : BankerAlgorithm) (stepByStep : Bool) :
    ∀ (n i : Nat) (st st1 : Locals), scan b stepByStep n i st = .ok st1 →
    st1 = st ∨
    ∃ p, i ≤ p ∧ p < i + n ∧ (st.finish[p]?).getD false = false ∧
      st1.safeSequence = st.safeSequence ++ [p] ∧ st1.finish = st.finish.set p true ∧
      st1.found = true ∧ st1.iteration = st.iteration := by
  intro n
  induction n with
  | zero =>
    intro i st st1 h
    unfold scan at h
    injection h with h
    exact Or.inl h.symm
  | succ n ih =>
    intro i st st1 h
    unfold scan at h
    cases hfin : (st.finish[i]?).getD false with
    | true =>
      rw [hfin] at h
      simp only [if_true] at h
      rcases ih (i + 1) st st1 h with h1 | ⟨p, h1, h2, h3⟩
      · exact Or.inl h1
      · exact Or.inr ⟨p, by omega, by omega, h3⟩
    | false =>
      rw [hfin] at h
      simp only [Bool.false_eq_true, if_false] at h
      cases hv : vectorLessOrEqual b.need[i]? (some st.work) with
      | error e => rw [hv] at h; cases h
      | ok v =>
        rw [hv] at h
        cases v with
        | false =>
          rcases ih (i + 1) st st1 h with h1 | ⟨p, h1, h2, h3⟩
          · exact Or.inl h1
          · exact Or.inr ⟨p, by omega, by omega, h3⟩
        | true =>
          cases hadd : addAllocation b.allocation[i]? b.resources.toNat 0 st.work with
          | error e => rw [hadd] at h; cases h
          | ok w =>
            rw [hadd] at h
            injection h with h
            subst h
            exact Or.inr ⟨i, le_refl _, by omega, hfin, rfl, rfl, rfl, rfl⟩

theorem CountInv.admitted_le {b : BankerAlgorithm} {st : Locals} (h : CountInv b st) :
    st.safeSequence.length ≤ b.processes.toNat := by
  have hsub : st.safeSequence ⊆ List.range b.processes.toNat :=
    fun x hx => List.mem_range.2 (h.lt x hx)
  have := (List.subperm_of_subset h.nodup hsub).length_le
  simpa using this

theorem CountInv.iteration_le {b : BankerAlgorithm} {st : Locals} (h : CountInv b st) :
    st.iteration ≤ b.processes.toNat := by
  have hle := h.admitted_le
  cases hf : st.found with
  | true => have := h.passes_found hf; omega
  | false => have := h.passes_stuck hf; omega

theorem initialLocals_countInv (b : BankerAlgorithm) (stepByStep : Bool) :
    CountInv b (initialLocals b stepByStep) := by
  constructor
  · show (List.replicate b.processes.toNat false).length = _
    simp
  · intro i hi
    show (((List.replicate b.processes.toNat false)[i]?).getD false = true ↔ i ∈ [])
    simp [List.getElem?_replicate, hi]
  · exact List.nodup_nil
  · intro x hx; cases hx
  · intro _; rfl
  · intro hx; cases hx

theorem scan_countInv (b : BankerAlgorithm) (stepByStep : Bool) (st st1 : Locals)
    (h : CountInv b st) (hf : st.found = true)
    (hlt : st.safeSequence.length < b.processes.toNat)
    (hs : scan b stepByStep b.processes.toNat 0
      { st with found := false, iteration := st.iteration + 1 } = .ok st1) :
    CountInv b st1 := by
  have hit := h.passes_found hf
  rcases scan_outcome b stepByStep _ _ _ _ hs with h1 | ⟨p, _, hp, hfin, hseq, hfinish, hfound, hiter⟩
  · subst h1
    exact ⟨h.finish_length, h.finish_iff, h.nodup, h.lt, fun hx => (by cases hx),
      fun _ => ⟨by show st.iteration + 1 = st.safeSequence.length + 1; omega, hlt⟩⟩
  · have hfin1 : (st.finish[p]?).getD false = false := hfin
    have hseq1 : st1.safeSequence = st.safeSequence ++ [p] := hseq
    have hfinish1 : st1.finish = st.finish.set p true := hfinish
    have hiter1 : st1.iteration = st.iteration + 1 := hiter
    have hpP : p < b.processes.toNat := by omega
    have hnot : p ∉ st.safeSequence := by
      intro hmem
      have := (h.finish_iff p hpP).2 hmem
      rw [hfin1] at this
      cases this
    constructor
    · rw [hfinish1, List.length_set]; exact h.finish_length
    · intro k hk
      rw [hfinish1, hseq1, List.getElem?_set, List.mem_append, List.mem_singleton]
      by_cases hpk : p = k
      · subst hpk
        have : p < st.finish.length := by rw [h.finish_length]; exact hpP
        simp [this]
      · rw [if_neg hpk, h.finish_iff k hk]
        constructor
        · intro hm; exact Or.inl hm
        · intro hm
          rcases hm with hm | hm
          · exact hm
          · exact absurd hm.symm hpk
    · rw [hseq1, List.nodup_append]
      refine ⟨h.nodup, List.nodup_singleton p, ?_⟩
      simpa using hnot
    · intro x hx
      rw [hseq1, List.mem_append, List.mem_singleton] at hx
      rcases hx with hx | hx
      · exact h.lt x hx
      · rw [hx]; exact hpP
    · intro _
      rw [hiter1, hseq1, List.length_append, List.length_singleton]
      omega
    · intro hx
      rw [hfound] at hx
      cases hx

theorem whileLoop_countInv (b : BankerAlgorithm) (stepByStep : Bool) :
    ∀ (fuel : Nat) (st st1 : Locals), CountInv b st →
    whileLoop b stepByStep fuel st = .ok st1 → CountInv b st1 := by
  intro fuel
  induction fuel with
  | zero =>
    intro st st1 h hw
    unfold whileLoop at hw
    split at hw
    · cases hw
    · injection hw with hw
      subst hw
      exact h
  | succ fuel ih =>
    intro st st1 h hw
    unfold whileLoop at hw
    split at hw
    · rename_i hc
      simp only [Bool.and_eq_true, decide_eq_true_eq] at hc
      cases hs : scan b stepByStep b.processes.toNat 0
          { st with found := false, iteration := st.iteration + 1 } with
      | error e => rw [hs] at hw; cases hw
      | ok st2 =>
        rw [hs] at hw
        exact ih st2 st1 (scan_countInv b stepByStep st st2 h hc.1 (by omega) hs) hw
    · injection hw with hw
      subst hw
      exact h

theorem checkSafety_unfold (b : BankerAlgorithm) (stepByStep : Bool) :
    checkSafety b stepByStep =
      if b.processes < 0 then .error .rangeError
      else
        match whileLoop b stepByStep (b.processes.toNat + 1) (initialLocals b stepByStep) with
        | .error e => .error e
        | .ok st =>
          .ok { isSafe := decide ((st.safeSequence.length : Int) = b.processes)
                safeSequence := st.safeSequence
                steps :=
                  if stepByStep then
                    st.steps ++ [{ step := st.iteration + 1
                                   processIndex := none
                                   description :=
                                     .verdict (decide ((st.safeSequence.length : Int) = b.processes))
                                   work := st.work
                                   finish := st.finish
                                   safeSequence := st.safeSequence
                                   isSafe :=
                                     some (decide ((st.safeSequence.length : Int) = b.processes)) }]
                  else st.steps } := rfl

theorem checkSafety_of_ok (b : BankerAlgorithm) (stepByStep : Bool) (r : SafetyResult)
    (h : checkSafety b stepByStep = .ok r) :
    ∃ st, whileLoop b stepByStep (b.processes.toNat + 1) (initialLocals b stepByStep) = .ok st ∧
      r.isSafe = decide ((st.safeSequence.length : Int) = b.processes) ∧
      r.safeSequence = st.safeSequence ∧
      r.steps =
        if stepByStep then
          st.steps ++ [{ step := st.iteration + 1
                         processIndex := none
                         description := .verdict r.isSafe
                         work := st.work
                         finish := st.finish
                         safeSequence := st.safeSequence
                         isSafe := some r.isSafe }]
        else st.steps := by
  rw [checkSafety_unfold] at h
  split at h
  · cases h
  · split at h
    · cases h
    · rename_i st hst
      injection h with h
      subst h
      exact ⟨st, hst, rfl, rfl, rfl⟩

/-- C28 (termination and the number of passes): on every state `checkSafety`
ends without using up the bound put on its loop; `iteration`, which counts the
passes of the outer loop, is at most `P` when the loop ends; a pass either
admits exactly one process, one not finished before, or admits none, and is
then the last; the returned `safeSequence` has at most `P` entries, and with
tracing on the last step of the trace is numbered at most `P + 1`.  On a state
of matching shape the call returns a result. -/
theorem checkSafety_terminates (b : BankerAlgorithm) (stepByStep : Bool) :
    checkSafety b stepByStep ≠ .error .outOfFuel ∧
    (∀ st, whileLoop b stepByStep (b.processes.toNat + 1) (initialLocals b stepByStep)
        = .ok st →
      st.iteration ≤ b.processes.toNat ∧ st.safeSequence.length ≤ b.processes.toNat) ∧
    (∀ st st1, scan b stepByStep b.processes.toNat 0 st = .ok st1 →
      (st1 = st ∨
       ∃ p, p < b.processes.toNat ∧ (st.finish[p]?).getD false = false ∧
         st1.safeSequence = st.safeSequence ++ [p] ∧ st1.finish = st.finish.set p true ∧
         st1.found = true)) ∧
    (∀ r, checkSafety b stepByStep = .ok r →
      r.safeSequence.length ≤ b.processes.toNat ∧
      (stepByStep = true →
        ∃ earlier last, r.steps = earlier ++ [last] ∧ last.step ≤ b.processes.toNat + 1 ∧
          last.isSafe = some r.isSafe)) ∧
    (WellShaped b → ∃ r, checkSafety b stepByStep = .ok r) := by
  refine ⟨checkSafety_fuel_suffices b stepByStep, ?_, ?_, ?_, ?_⟩
  · intro st hst
    have hc := whileLoop_countInv b stepByStep _ _ _ (initialLocals_countInv b stepByStep) hst
    exact ⟨hc.iteration_le, hc.admitted_le⟩
  · intro st st1 hs
    rcases scan_outcome b stepByStep _ _ _ _ hs with h1 | ⟨p, _, hp, hfin, hseq, hfinish, hfound, _⟩
    · exact Or.inl h1
    · exact Or.inr ⟨p, by omega, hfin, hseq, hfinish, hfound⟩
  · intro r hr
    obtain ⟨st, hst, _, hseq, hsteps⟩ := checkSafety_of_ok b stepByStep r hr
    have hc := whileLoop_countInv b stepByStep _ _ _ (initialLocals_countInv b stepByStep) hst
    refine ⟨by rw [hseq]; exact hc.admitted_le, ?_⟩
    intro htrue
    rw [htrue] at hsteps
    simp only [if_true] at hsteps
    exact ⟨_, _, hsteps, by show st.iteration + 1 ≤ _; have := hc.iteration_le; omega, rfl⟩
  · intro h
    obtain ⟨r, hr, _⟩ := checkSafety_spec b stepByStep h
    exact ⟨r, hr⟩

/-! ## The shape of the trace -/

theorem LoopInv.work_eq_vector {b : BankerAlgorithm} {st : Locals} (h : LoopInv b st) :
    st.work = workVector b st.safeSequence := by
  apply ext_getD
  · rw [h.work_length]; simp [workVector]
  · intro t ht
    have htR : t < b.resources.toNat := by rw [← h.work_length]; exact ht
    rw [h.work_eq t htR]
    simp [workVector, List.getD_eq_getElem?_getD, htR]

theorem LoopInv.finish_eq_flags {b : BankerAlgorithm} {st : Locals} (h : LoopInv b st) :
    st.finish = finishFlags b st.safeSequence := by
  apply List.ext_getElem
  · rw [h.finish_length]; simp [finishFlags]
  · intro i h1 h2
    have hiP : i < b.processes.toNat := by rw [← h.finish_length]; exact h1
    have hiff := h.finish_iff i hiP
    rw [List.getElem?_eq_getElem h1] at hiff
    simp only [Option.getD_some] at hiff
    simp only [finishFlags, List.getElem_map, List.getElem_range]
    cases hv : st.finish[i] with
    | true =>
      rw [hv] at hiff
      exact (decide_eq_true (hiff.1 rfl)).symm
    | false =>
      rw [hv] at hiff
      have hnot : i ∉ st.safeSequence := fun hm => by
        have := hiff.2 hm
        cases this
      exact (decide_eq_false hnot).symm

theorem admissionStep_append (b : BankerAlgorithm) (seq : List Nat) (p k : Nat)
    (hk : k < seq.length) : admissionStep b (seq ++ [p]) k = admissionStep b seq k := by
  unfold admissionStep
  rw [List.take_append_of_le_length (by omega), List.getD_append _ _ _ _ hk]

theorem traceOf_append (b : BankerAlgorithm) (seq : List Nat) (p : Nat) :
    traceOf b (seq ++ [p])
      = traceOf b seq ++ [admissionStep b (seq ++ [p]) seq.length] := by
  unfold traceOf
  rw [List.length_append, List.length_singleton, List.range_succ, List.map_append,
    List.map_singleton, List.cons_append]
  congr 2
  apply List.map_congr_left
  intro k hk
  exact admissionStep_append b seq p k (List.mem_range.1 hk)

theorem scan_steps (b : BankerAlgorithm) (stepByStep : Bool) :
    ∀ (n i : Nat) (st st1 : Locals), scan b stepByStep n i st = .ok st1 →
    st1 = st ∨
    ∃ p, st1.safeSequence = st.safeSequence ++ [p] ∧ st1.found = true ∧
      st1.iteration = st.iteration ∧
      st1.steps =
        if stepByStep then
          st.steps ++ [{ step := st.iteration
                         processIndex := some p
                         description := .canFinish p
                         work := st1.work
                         finish := st1.finish
                         safeSequence := st1.safeSequence
                         isSafe := none }]
        else st.steps := by
  intro n
  induction n with
  | zero =>
    intro i st st1 h
    unfold scan at h
    injection h with h
    exact Or.inl h.symm
  | succ n ih =>
    intro i st st1 h
    unfold scan at h
    cases hfin : (st.finish[i]?).getD false with
    | true =>
      rw [hfin] at h
      simp only [if_true] at h
      exact ih (i + 1) st st1 h
    | false =>
      rw [hfin] at h
      simp only [Bool.false_eq_true, if_false] at h
      cases hv : vectorLessOrEqual b.need[i]? (some st.work) with
      | error e => rw [hv] at h; cases h
      | ok v =>
        rw [hv] at h
        cases v with
        | false => exact ih (i + 1) st st1 h
        | true =>
          cases hadd : addAllocation b.allocation[i]? b.resources.toNat 0 st.work with
          | error e => rw [hadd] at h; cases h
          | ok w =>
            rw [hadd] at h
            injection h with h
            subst h
            exact Or.inr ⟨i, rfl, rfl, rfl, rfl⟩

theorem whileLoop_trace (b : BankerAlgorithm) (h : WellShaped b) :
    ∀ (fuel : Nat) (st st1 : Locals), LoopInv b st → CountInv b st →
    st.steps = traceOf b st.safeSequence →
    whileLoop b true fuel st = .ok st1 →
    LoopInv b st1 ∧ st1.steps = traceOf b st1.safeSequence := by
  intro fuel
  induction fuel with
  | zero =>
    intro st st1 hinv _ htr hw
    unfold whileLoop at hw
    split at hw
    · cases hw
    · injection hw with hw
      subst hw
      exact ⟨hinv, htr⟩
  | succ fuel ih =>
    intro st st1 hinv hcnt htr hw
    unfold whileLoop at hw
    split at hw
    · rename_i hc
      simp only [Bool.and_eq_true, decide_eq_true_eq] at hc
      have hP := h.processes_nonneg
      obtain ⟨st2, hs, hcase⟩ := scan_spec b true h b.processes.toNat 0
        { st with found := false, iteration := st.iteration + 1 }
        (hinv.of_fields rfl rfl rfl) (by omega) (by intro k hk; omega)
      rw [hs] at hw
      have hcnt2 := scan_countInv b true st st2 hcnt hc.1 (by omega) hs
      have hit := hcnt.passes_found hc.1
      rcases hcase with ⟨heq, _⟩ | ⟨hinv2, _, _⟩
      · subst heq
        exact ih { st with found := false, iteration := st.iteration + 1 } st1
          (hinv.of_fields rfl rfl rfl) hcnt2 htr hw
      · apply ih st2 st1 hinv2 hcnt2 _ hw
        rcases scan_steps b true _ _ _ _ hs with heq | ⟨p, hseq, _, hiter, hsteps⟩
        · rw [heq]
          exact htr
        · have hseq1 : st2.safeSequence = st.safeSequence ++ [p] := hseq
          have hiter1 : st2.iteration = st.iteration + 1 := hiter
          simp only [if_true] at hsteps
          have hsteps1 : st2.steps = st.steps ++ [admissionStep b st2.safeSequence st.safeSequence.length] := by
            rw [hsteps]
            congr 2
            unfold admissionStep
            have htake : (st.safeSequence ++ [p]).take (st.safeSequence.length + 1)
                = st.safeSequence ++ [p] := by
              apply List.take_of_length_le
              simp
            have hget : (st.safeSequence ++ [p]).getD st.safeSequence.length 0 = p := by
              rw [List.getD_append_right _ _ _ _ (le_refl _)]; simp
            rw [hseq1, htake, hget, ← hseq1, ← hinv2.work_eq_vector, ← hinv2.finish_eq_flags,
              ← hit]
          rw [hsteps1, htr, hseq1, traceOf_append]
    · injection hw with hw
      subst hw
      exact ⟨hinv, htr⟩

theorem whileLoop_exit (b : BankerAlgorithm) (stepByStep : Bool) :
    ∀ (fuel : Nat) (st st1 : Locals), whileLoop b stepByStep fuel st = .ok st1 →
    st1.found = true → ¬ ((st1.safeSequence.length : Int) < b.processes) := by
  intro fuel
  induction fuel with
  | zero =>
    intro st st1 hw
    unfold whileLoop at hw
    split at hw
    · cases hw
    · rename_i hc
      injection hw with hw
      subst hw
      intro hf hlt
      apply hc
      simp [hf, hlt]
  | succ fuel ih =>
    intro st st1 hw
    unfold whileLoop at hw
    split at hw
    · cases hs : scan b stepByStep b.processes.toNat 0
          { st with found := false, iteration := st.iteration + 1 } with
      | error e => rw [hs] at hw; cases hw
      | ok st2 =>
        rw [hs] at hw
        exact ih st2 st1 hw
    · rename_i hc
      injection hw with hw
      subst hw
      intro hf hlt
      apply hc
      simp [hf, hlt]

theorem checkSafety_untraced_steps (b : BankerAlgorithm) (r : SafetyResult)
    (h : checkSafety b false = .ok r) : r.steps = [] := by
  obtain ⟨st, hst, _, _, hsteps⟩ := checkSafety_of_ok b false r h
  have hmap := whileLoop_withoutSteps b false (b.processes.toNat + 1) (initialLocals b false)
  have hinit : withoutSteps (initialLocals b false) = initialLocals b false := rfl
  rw [hinit, hst] at hmap
  have hst1 : withoutSteps st = st := by
    have : Except.ok (withoutSteps st) = (Except.ok st : Except JSError Locals) := hmap
    injection this
  have : st.steps = [] := by rw [← hst1]; rfl
  rw [hsteps]
  simpa using this

theorem initialLocals_loopInv (b : BankerAlgorithm) (stepByStep : Bool) (h : WellShaped b) :
    LoopInv b (initialLocals b stepByStep) := by
  have hP := h.processes_nonneg
  constructor
  · exact h.available_length
  · intro j _; simp [workAfter, initialLocals]
  · simp [initialLocals]
  · intro i hi; simp [initialLocals, List.getElem?_replicate, hi]
  · exact List.nodup_nil
  · intro x hx; cases hx
  · intro k hk; cases hk

/-- With exact arithmetic (shape of the step trace): on a state of matching shape,
`checkSafety(true)` returns a trace made of the initial step (numbered 0, work
equal to Available, all flags false), then one step per admitted process in
the order of admission, the one at position `k` (counted from 0) numbered
`k + 1`, naming `safeSequence[k]` and carrying Available plus the Allocation
rows of `safeSequence[0..k]` as work and the flags of those processes as finish,
then a final step that carries the returned verdict; the final step is numbered
one more than the number of passes made.  On every state, a result of
`checkSafety(false)` has an empty list of steps, and on a state of matching
shape there is such a result, with the same verdict and sequence. -/
theorem checkSafety_trace_shape_exact (b : BankerAlgorithm) (h : WellShaped b) :
    (∃ r last, checkSafety b true = .ok r ∧
      r.steps = traceOf b r.safeSequence ++ [last] ∧
      last.step = (if r.isSafe then r.safeSequence.length + 1 else r.safeSequence.length + 2) ∧
      last.processIndex = none ∧
      last.description = .verdict r.isSafe ∧
      last.work = workVector b r.safeSequence ∧
      last.finish = finishFlags b r.safeSequence ∧
      last.safeSequence = r.safeSequence ∧
      last.isSafe = some r.isSafe ∧
      ∃ r0, checkSafety b false = .ok r0 ∧ r0.steps = [] ∧
        r0.isSafe = r.isSafe ∧ r0.safeSequence = r.safeSequence) ∧
    (∀ r0, checkSafety b false = .ok r0 → r0.steps = []) := by
  refine ⟨?_, checkSafety_untraced_steps b⟩
  obtain ⟨r, hr, _⟩ := checkSafety_spec b true h
  obtain ⟨r0, hr0, _⟩ := checkSafety_spec b false h
  obtain ⟨st, hst, hsafe, hseq, hsteps⟩ := checkSafety_of_ok b true r hr
  have hcnt := whileLoop_countInv b true _ _ _ (initialLocals_countInv b true) hst
  obtain ⟨hinv, htr⟩ := whileLoop_trace b h _ _ _ (initialLocals_loopInv b true h)
    (initialLocals_countInv b true) rfl hst
  have hexit := whileLoop_exit b true _ _ _ hst
  have hP := h.processes_nonneg
  simp only [if_true] at hsteps
  refine ⟨r, { step := st.iteration + 1, processIndex := none, description := .verdict r.isSafe,
               work := st.work, finish := st.finish, safeSequence := st.safeSequence,
               isSafe := some r.isSafe },
    hr, ?_, ?_, rfl, rfl, ?_, ?_, ?_, rfl, r0, hr0,
    checkSafety_untraced_steps b r0 hr0, ?_, ?_⟩
  · rw [hsteps, hseq, htr]
  · show st.iteration + 1 = _
    rw [hseq]
    cases hf : st.found with
    | true =>
      have h1 := hcnt.passes_found hf
      have h2 := hexit hf
      have h3 := hcnt.admitted_le
      have : r.isSafe = true := by
        rw [hsafe]; apply decide_eq_true; omega
      rw [this, h1]; rfl
    | false =>
      have h1 := hcnt.passes_stuck hf
      have : r.isSafe = false := by
        rw [hsafe]; apply decide_eq_false; omega
      rw [this, h1.1]; rfl
  · show st.work = _
    rw [hseq]; exact hinv.work_eq_vector
  · show st.finish = _
    rw [hseq]; exact hinv.finish_eq_flags
  · exact hseq.symm
  · have := checkSafety_verdict b true
    rw [hr, hr0] at this
    simp only [Except.map, verdict] at this
    injection this with this
    exact (congrArg Prod.fst this).symm
  · have := checkSafety_verdict b true
    rw [hr, hr0] at this
    simp only [Except.map, verdict] at this
    injection this with this
    exact (congrArg Prod.snd this).symm



/-! ## The source's arithmetic and exact arithmetic agree within `2 ^ 53` -/

theorem excessBits_of_lt (fuel n : Nat) (h : n < 2 ^ 53) : excessBits fuel n = 0 := by
  cases fuel with
  | zero => rfl
  | succ f => unfold excessBits; rw [if_pos h]

theorem roundNat_of_le (n : Nat) (h : n ≤ 2 ^ 53) : roundNat n = n := by
  rcases Nat.lt_or_ge n (2 ^ 53) with hlt | hge
  · unfold roundNat
    simp only [excessBits_of_lt 1024 n hlt, if_true]
  · have : n = 2 ^ 53 := le_antisymm h hge
    subst this
    decide

theorem toNumber_of_inExactRange (z : Int) (h : InExactRange z) : toNumber z = .ok z := by
  unfold InExactRange at h
  unfold toNumber
  simp only [roundNat_of_le _ h]
  have hb : ¬ overflowBound ≤ z.natAbs := by
    have : (2 : Nat) ^ 53 < overflowBound := by decide
    omega
  rw [if_neg hb]
  by_cases hz : z < 0
  · rw [if_pos hz]
    congr 1
    omega
  · rw [if_neg hz]
    congr 1
    omega

theorem numberAdd_of_inExactRange (x y : Int) (h : InExactRange (x + y)) :
    numberAdd x y = .ok (x + y) :=
  toNumber_of_inExactRange _ h

theorem numberSubtract_of_inExactRange (x y : Int) (h : InExactRange (x - y)) :
    numberSubtract x y = .ok (x - y) :=
  toNumber_of_inExactRange _ h

theorem addAllocationRounded_eq (allocationRow : Option (List Int)) :
    ∀ (n j : Nat) (work : List Int),
    (∀ row, allocationRow = some row → ∀ t, j ≤ t → ∀ w a, work[t]? = some w →
      row[t]? = some a → InExactRange (w + a)) →
    addAllocationRounded allocationRow n j work = addAllocation allocationRow n j work := by
  intro n
  induction n with
  | zero => intro j work _; rfl
  | succ n ih =>
    intro j work hsafe
    unfold addAllocationRounded addAllocation
    cases allocationRow with
    | none => rfl
    | some row =>
      simp only
      cases hw : work[j]? with
      | none => rfl
      | some w =>
        cases ha : row[j]? with
        | none => rfl
        | some a =>
          simp only
          rw [numberAdd_of_inExactRange w a (hsafe row rfl j (le_refl _) w a hw ha)]
          simp only
          apply ih
          intro row1 hrow1 t ht w1 a1 hw1 ha1
          have hne : j ≠ t := by omega
          rw [List.getElem?_set_ne hne] at hw1
          exact hsafe row1 hrow1 t (by omega) w1 a1 hw1 ha1

theorem scanRounded_eq (b : BankerAlgorithm) (stepByStep : Bool) :
    ∀ (n i : Nat) (st : Locals), SafeToAdmit b st →
    scanRounded b stepByStep n i st = scan b stepByStep n i st := by
  intro n
  induction n with
  | zero => intro i st _; rfl
  | succ n ih =>
    intro i st hsafe
    unfold scanRounded scan
    cases hfin : (st.finish[i]?).getD false with
    | true =>
      simp only [if_true]
      exact ih (i + 1) st hsafe
    | false =>
      simp only [Bool.false_eq_true, if_false]
      cases hv : vectorLessOrEqual b.need[i]? (some st.work) with
      | error e => rfl
      | ok v =>
        cases v with
        | false => exact ih (i + 1) st hsafe
        | true =>
          simp only
          rw [addAllocationRounded_eq b.allocation[i]? b.resources.toNat 0 st.work
            (fun row hrow t _ w a hw ha => hsafe i hfin row hrow t w a hw ha)]

theorem sum_natAbs_le (f : Nat → Int) (l : List Nat) :
    ((l.map f).sum).natAbs ≤ (l.map fun i => (f i).natAbs).sum := by
  induction l with
  | nil => simp
  | cons x xs ih =>
    simp only [List.map_cons, List.sum_cons]
    have := Int.natAbs_add_le (f x) ((xs.map f).sum)
    omega

theorem sum_map_le_range (g : Nat → Nat) (l : List Nat) (n : Nat) (hnd : l.Nodup)
    (hlt : ∀ x ∈ l, x < n) : (l.map g).sum ≤ ((List.range n).map g).sum := by
  have hsub : l ⊆ List.range n := fun x hx => List.mem_range.2 (hlt x hx)
  obtain ⟨l1, hperm, hsl⟩ := List.subperm_of_subset hnd hsub
  have h1 : (l1.map g).sum = (l.map g).sum := (hperm.map g).sum_eq
  have h2 : (l1.map g).sum ≤ ((List.range n).map g).sum :=
    (hsl.map g).sum_le_sum (fun a _ => Nat.zero_le a)
  omega

theorem workAfter_inExactRange (b : BankerAlgorithm) (hm : SafeMagnitude b) (done : List Nat)
    (hnd : done.Nodup) (hlt : ∀ x ∈ done, x < b.processes.toNat) (j : Nat)
    (hj : j < b.resources.toNat) : InExactRange (workAfter b done j) := by
  unfold InExactRange workAfter
  have h1 := Int.natAbs_add_le (b.available.getD j 0)
    ((done.map fun p => entry b.allocation p j).sum)
  have h2 := sum_natAbs_le (fun p => entry b.allocation p j) done
  have h3 := sum_map_le_range (fun i => (entry b.allocation i j).natAbs) done
    b.processes.toNat hnd hlt
  have h4 := hm.2 j hj
  omega

theorem LoopInv.safeToAdmit {b : BankerAlgorithm} {st : Locals} (h : WellShaped b)
    (hm : SafeMagnitude b) (hinv : LoopInv b st) : SafeToAdmit b st := by
  intro p hfin row hrow t w a hw ha
  have hP := h.processes_nonneg
  have hpP : p < b.processes.toNat := by
    have hlen := h.2.2.1.1
    have : p < b.allocation.length := by
      rcases Nat.lt_or_ge p b.allocation.length with hlt | hge
      · exact hlt
      · rw [List.getElem?_eq_none hge] at hrow; cases hrow
    omega
  have htw : t < st.work.length := by
    rcases Nat.lt_or_ge t st.work.length with hlt | hge
    · exact hlt
    · rw [List.getElem?_eq_none hge] at hw; cases hw
  have htR : t < b.resources.toNat := by rw [← hinv.work_length]; exact htw
  have hnot : p ∉ st.safeSequence := by
    intro hmem
    have := (hinv.finish_iff p hpP).2 hmem
    rw [hfin] at this
    cases this
  have hnd : (st.safeSequence ++ [p]).Nodup := by
    rw [List.nodup_append]
    refine ⟨hinv.nodup, List.nodup_singleton p, ?_⟩
    intro x hx hx1
    rw [List.mem_singleton] at hx1
    subst hx1
    exact hnot hx
  have hlt : ∀ x ∈ st.safeSequence ++ [p], x < b.processes.toNat := by
    intro x hx
    rcases List.mem_append.1 hx with hx | hx
    · exact hinv.lt x hx
    · rw [List.mem_singleton] at hx; subst hx; exact hpP
  have hrange := workAfter_inExactRange b hm _ hnd hlt t htR
  rw [workAfter_append] at hrange
  have hw1 : st.work.getD t 0 = w := by simp [List.getD_eq_getElem?_getD, hw]
  have ha1 : entry b.allocation p t = a := by
    simp [entry, List.getD_eq_getElem?_getD, hrow, ha]
  rw [← hinv.work_eq t htR, hw1, ha1] at hrange
  exact hrange

theorem whileLoopRounded_eq (b : BankerAlgorithm) (stepByStep : Bool) (h : WellShaped b)
    (hm : SafeMagnitude b) :
    ∀ (fuel : Nat) (st : Locals), LoopInv b st →
    whileLoopRounded b stepByStep fuel st = whileLoop b stepByStep fuel st := by
  intro fuel
  induction fuel with
  | zero => intro st _; rfl
  | succ fuel ih =>
    intro st hinv
    unfold whileLoopRounded whileLoop
    by_cases hc : (st.found && decide ((st.safeSequence.length : Int) < b.processes)) = true
    · rw [if_pos hc, if_pos hc]
      have hP := h.processes_nonneg
      have hinv0 : LoopInv b { st with found := false, iteration := st.iteration + 1 } :=
        hinv.of_fields rfl rfl rfl
      rw [scanRounded_eq b stepByStep _ _ _ (hinv0.safeToAdmit h hm)]
      obtain ⟨st1, hs, hcase⟩ := scan_spec b stepByStep h b.processes.toNat 0
        { st with found := false, iteration := st.iteration + 1 }
        hinv0 (by omega) (by intro k hk; omega)
      rw [hs]
      simp only
      rcases hcase with ⟨heq, _⟩ | ⟨hinv1, _, _⟩
      · rw [heq]
        exact ih _ hinv0
      · exact ih st1 hinv1
    · rw [if_neg hc, if_neg hc]

/-- On a state of matching shape whose magnitudes are within `2 ^ 53`, the
safety check with the source's arithmetic is the safety check with exact
arithmetic. -/
theorem checkSafetyRounded_eq (b : BankerAlgorithm) (stepByStep : Bool) (h : WellShaped b)
    (hm : SafeMagnitude b) : checkSafetyRounded b stepByStep = checkSafety b stepByStep := by
  have hP := h.processes_nonneg
  have hP2 := hm.1
  rw [checkSafety_unfold]
  unfold checkSafetyRounded
  rw [if_neg (by omega), if_neg (by omega),
    whileLoopRounded_eq b stepByStep h hm _ _ (initialLocals_loopInv b stepByStep h)]

/-! ## The safety check with the source's arithmetic -/

/-- Counterexample to C1 as stated: with Available `[2 ^ 53]`, Allocation
`[[3], [0]]` and Need `[[0], [2 ^ 53 + 4]]` (a state of matching shape that
satisfies the invariants of the data model) the source adds 3 to `2 ^ 53` and
gets `2 ^ 53 + 4`, admits process 1 and returns `isSafe = true` with `[0, 1]`,
which is not a valid completion order: after process 0 the exact sum is
`2 ^ 53 + 3`, less than the Need of process 1. -/
theorem checkSafety_sound_fails_past_exact_range :
    WellShaped roundsUp ∧ NeedConsistent roundsUp ∧ AllocationWithinMax roundsUp ∧
    AvailableNonneg roundsUp ∧ AllocationNonneg roundsUp ∧
    checkSafetyRounded roundsUp false
      = .ok { isSafe := true, safeSequence := [0, 1], steps := [] } ∧
    ¬ ValidCompletionOrder roundsUp [0, 1] := by
  decide

/-- C1, as the code has it: on a state of matching shape in which, for every
resource `j`, the magnitude of `Available[j]` plus the magnitudes of all
`Allocation[i][j]` is at most `2 ^ 53`, `checkSafety` returns a result, and if
that result has `isSafe = true` then its `safeSequence` is a valid completion
order: a permutation of `0..P-1` (every index exactly once) in which, at every
position `k`, the Need row of `safeSequence[k]` is componentwise at most
Available plus the Allocation rows of `safeSequence[0..k-1]`. -/
theorem checkSafety_sound (b : BankerAlgorithm) (stepByStep : Bool) (h : WellShaped b)
    (hm : SafeMagnitude b) :
    ∃ r, checkSafetyRounded b stepByStep = .ok r ∧
      (r.isSafe = true →
        ValidCompletionOrder b r.safeSequence ∧
        ∀ i, i < b.processes.toNat → r.safeSequence.count i = 1) := by
  rw [checkSafetyRounded_eq b stepByStep h hm]
  exact checkSafety_sound_exact b stepByStep h

/-- Witness of the amended C1 on spec scenario 1. -/
theorem checkSafety_sound_witness :
    WellShaped demoScenario1 ∧ SafeMagnitude demoScenario1 ∧
    ∃ r, checkSafetyRounded demoScenario1 false = .ok r ∧
      (r.isSafe = true →
        ValidCompletionOrder demoScenario1 r.safeSequence ∧
        ∀ i, i < demoScenario1.processes.toNat → r.safeSequence.count i = 1) :=
  ⟨by decide, by decide, checkSafety_sound demoScenario1 false (by decide) (by decide)⟩

/-- Counterexample to C2 as stated: with Available `[2 ^ 53]`, Allocation
`[[1], [1], [0]]` and Need `[[0], [0], [2 ^ 53 + 2]]` the order `[0, 1, 2]` is a
valid completion order, but the source adds 1 to `2 ^ 53` twice and gets
`2 ^ 53` each time, never admits process 2 and returns `isSafe = false`. -/
theorem checkSafety_complete_fails_past_exact_range :
    WellShaped roundsDown ∧ NeedConsistent roundsDown ∧ AllocationWithinMax roundsDown ∧
    AvailableNonneg roundsDown ∧ AllocationNonneg roundsDown ∧
    ValidCompletionOrder roundsDown [0, 1, 2] ∧
    checkSafetyRounded roundsDown false
      = .ok { isSafe := false, safeSequence := [0, 1], steps := [] } := by
  decide

/-- C2, as the code has it: on a state of matching shape whose Allocation
entries are all non-negative and in which, for every resource `j`,
`Available[j]` in magnitude plus all `Allocation[i][j]` is at most `2 ^ 53`, if
some ordering of all `P` processes is a valid completion order then
`checkSafety` returns `isSafe = true`; so `isSafe = false` is returned only
when no safe ordering exists. -/
theorem checkSafety_complete (b : BankerAlgorithm) (stepByStep : Bool) (h : WellShaped b)
    (hm : SafeMagnitude b) (hnn : AllocationNonneg b) (seq : List Nat)
    (hseq : ValidCompletionOrder b seq) :
    ∃ r, checkSafetyRounded b stepByStep = .ok r ∧ r.isSafe = true := by
  rw [checkSafetyRounded_eq b stepByStep h hm]
  exact checkSafety_complete_exact b stepByStep h hnn seq hseq

/-- Witness of the amended C2 on spec scenario 1, with the order
`[1, 3, 4, 0, 2]` the spec names. -/
theorem checkSafety_complete_witness :
    WellShaped demoScenario1 ∧ SafeMagnitude demoScenario1 ∧
    AllocationNonneg demoScenario1 ∧ ValidCompletionOrder demoScenario1 [1, 3, 4, 0, 2] ∧
    ∃ r, checkSafetyRounded demoScenario1 false = .ok r ∧ r.isSafe = true :=
  ⟨by decide, by decide, by decide, by decide,
    checkSafety_complete demoScenario1 false (by decide) (by decide) (by decide)
      [1, 3, 4, 0, 2] (by decide)⟩

/-- Counterexample to C3 as stated: on the state with Available `[2 ^ 53]`,
Allocation `[[3], [0]]` and Need `[[0], [2 ^ 53 + 4]]` the source returns
`[0, 1]`, and position 1 does not follow the rule: the Need of process 1,
`2 ^ 53 + 4`, is above Available plus the Allocation of process 0,
`2 ^ 53 + 3`. -/
theorem checkSafety_lowest_index_first_fails_past_exact_range :
    WellShaped roundsUp ∧
    (∃ r, checkSafetyRounded roundsUp true = .ok r ∧ r.safeSequence = [0, 1]) ∧
    ¬ Eligible roundsUp [0] 1 ∧
    ¬ LowestIndexFirst roundsUp [0, 1] :=
  ⟨by decide, ⟨_, rfl, by decide⟩, by decide, by decide⟩

/-- C3, as the code has it: on a state of matching shape in which, for every
resource `j`, `Available[j]` in magnitude plus all `Allocation[i][j]` is at
most `2 ^ 53`, every position `k` of the returned `safeSequence` holds the
smallest process index that is not among `safeSequence[0..k-1]` and whose Need
row is componentwise at most Available plus the Allocation rows of
`safeSequence[0..k-1]`; and the rule determines the sequence: any sequence
that follows it at every position is a starting segment of the returned one. -/
theorem checkSafety_lowest_index_first (b : BankerAlgorithm) (stepByStep : Bool)
    (h : WellShaped b) (hm : SafeMagnitude b) :
    ∃ r, checkSafetyRounded b stepByStep = .ok r ∧
      LowestIndexFirst b r.safeSequence ∧
      ∀ seq, LowestIndexFirst b seq → seq <+: r.safeSequence := by
  rw [checkSafetyRounded_eq b stepByStep h hm]
  exact checkSafety_lowest_index_first_exact b stepByStep h

/-- Witness of the amended C3 on spec scenario 1. -/
theorem checkSafety_lowest_index_first_witness :
    WellShaped demoScenario1 ∧ SafeMagnitude demoScenario1 ∧
    ∃ r, checkSafetyRounded demoScenario1 true = .ok r ∧
      LowestIndexFirst demoScenario1 r.safeSequence ∧
      ∀ seq, LowestIndexFirst demoScenario1 seq → seq <+: r.safeSequence :=
  ⟨by decide, by decide,
    checkSafety_lowest_index_first demoScenario1 true (by decide) (by decide)⟩

/-- C11, as the code has it: the claim that an unsafe verdict comes with an
empty sequence fails, as `checkSafety` returns the list of admitted processes
whatever the verdict.  On a state of matching shape in which, for every
resource `j`, `Available[j]` in magnitude plus all `Allocation[i][j]` is at
most `2 ^ 53`, when `isSafe = false` the returned `safeSequence` holds the
processes admitted before the scan got stuck: fewer than `P` of them, in
lowest-index-first order, with no unfinished process eligible after them; it
is empty exactly when no process is eligible on Available alone. -/
theorem checkSafety_not_safe_sequence (b : BankerAlgorithm) (stepByStep : Bool)
    (h : WellShaped b) (hm : SafeMagnitude b) :
    ∃ r, checkSafetyRounded b stepByStep = .ok r ∧
      (r.isSafe = false →
        r.safeSequence.length < b.processes.toNat ∧
        LowestIndexFirst b r.safeSequence ∧
        Stuck b r.safeSequence ∧
        (r.safeSequence = [] ↔ Stuck b [])) := by
  rw [checkSafetyRounded_eq b stepByStep h hm]
  exact checkSafety_not_safe_sequence_exact b stepByStep h

/-- Witness of the amended C11 on the state that gets stuck after one admission. -/
theorem checkSafety_not_safe_sequence_witness :
    WellShaped stuckAfterOne ∧ SafeMagnitude stuckAfterOne ∧
    ∃ r, checkSafetyRounded stuckAfterOne false = .ok r ∧
      (r.isSafe = false →
        r.safeSequence.length < stuckAfterOne.processes.toNat ∧
        LowestIndexFirst stuckAfterOne r.safeSequence ∧
        Stuck stuckAfterOne r.safeSequence ∧
        (r.safeSequence = [] ↔ Stuck stuckAfterOne [])) :=
  ⟨by decide, by decide,
    checkSafety_not_safe_sequence stuckAfterOne false (by decide) (by decide)⟩

/-- Counterexample to C29 as stated: with Allocation `[[1, 0], [2, 1], [0, 0]]`
and Need `[[0, 1], [0, 0], [2 ^ 53 + 4, 0]]` (no Allocation entry negative) the
source reports Available `[2 ^ 53, 0]` safe, with `[1, 0, 2]`, and the larger
Available `[2 ^ 53, 1]` not safe, with `[0, 1]`: there process 0 is admitted
first and `2 ^ 53 + 1` is rounded down to `2 ^ 53`. -/
theorem checkSafety_not_monotone_past_exact_range :
    WellShaped roundsByOrder ∧ AllocationNonneg roundsByOrder ∧
    (∀ j, j < roundsByOrder.resources.toNat →
      roundsByOrder.available.getD j 0 ≤ ([9007199254740992, 1] : List Int).getD j 0) ∧
    checkSafetyRounded roundsByOrder false
      = .ok { isSafe := true, safeSequence := [1, 0, 2], steps := [] } ∧
    checkSafetyRounded { roundsByOrder with available := [9007199254740992, 1] } false
      = .ok { isSafe := false, safeSequence := [0, 1], steps := [] } := by
  decide

/-- C29, as the code has it: take a state of matching shape with no negative
Allocation entry, and a second state with the same `P`, `R`, Max, Allocation
and Need whose Available is componentwise at least that of the first, and let
both keep, for every resource `j`, `Available[j]` in magnitude plus all
`Allocation[i][j]` at most `2 ^ 53`; if `checkSafety` reports `isSafe = true`
on the first state, it reports `isSafe = true` on the second. -/
theorem checkSafety_monotone_in_available (b : BankerAlgorithm) (available2 : List Int)
    (s1 s2 : Bool) (h : WellShaped b) (hnn : AllocationNonneg b)
    (hlen : (available2.length : Int) = b.resources)
    (hge : ∀ j, j < b.resources.toNat → b.available.getD j 0 ≤ available2.getD j 0)
    (hm : SafeMagnitude b) (hm2 : SafeMagnitude { b with available := available2 }) :
    ∃ r1, checkSafetyRounded b s1 = .ok r1 ∧
      (r1.isSafe = true →
        ∃ r2, checkSafetyRounded { b with available := available2 } s2 = .ok r2 ∧
          r2.isSafe = true) := by
  have h2 : WellShaped { b with available := available2 } := ⟨hlen, h.2⟩
  rw [checkSafetyRounded_eq b s1 h hm, checkSafetyRounded_eq _ s2 h2 hm2]
  exact checkSafety_monotone_in_available_exact b available2 s1 s2 h hnn hlen hge

/-- Witness of the amended C29: scenario 1 with Available raised from
`[3, 3, 2]` to `[4, 3, 5]`. -/
theorem checkSafety_monotone_in_available_witness :
    WellShaped demoScenario1 ∧ AllocationNonneg demoScenario1 ∧
    ((([4, 3, 5] : List Int).length : Int) = demoScenario1.resources) ∧
    (∀ j, j < demoScenario1.resources.toNat →
      demoScenario1.available.getD j 0 ≤ ([4, 3, 5] : List Int).getD j 0) ∧
    SafeMagnitude demoScenario1 ∧
    SafeMagnitude { demoScenario1 with available := [4, 3, 5] } ∧
    ∃ r1, checkSafetyRounded demoScenario1 false = .ok r1 ∧
      (r1.isSafe = true →
        ∃ r2, checkSafetyRounded { demoScenario1 with available := [4, 3, 5] } false = .ok r2 ∧
          r2.isSafe = true) :=
  ⟨by decide, by decide, by decide, by decide, by decide, by decide,
    checkSafety_monotone_in_available demoScenario1 [4, 3, 5] false false (by decide)
      (by decide) (by decide) (by decide) (by decide) (by decide)⟩

/-- Counterexample to C26 as stated: on the state with Available `[2 ^ 53]` and
Allocation `[[3], [0]]` the step of the first admission carries the work vector
`[2 ^ 53 + 4]`, the rounded sum, and not Available plus the Allocation row of
process 0, which is `[2 ^ 53 + 3]`. -/
theorem checkSafety_trace_rounds_past_exact_range :
    WellShaped roundsUp ∧
    (∃ r, checkSafetyRounded roundsUp true = .ok r ∧ r.safeSequence = [0, 1] ∧
      (r.steps.map fun s => (s.step, s.processIndex, s.work))
        = [(0, none, [9007199254740992]), (1, some 0, [9007199254740996]),
           (2, some 1, [9007199254740996]), (3, none, [9007199254740996])]) ∧
    workVector roundsUp [0] = [9007199254740995] :=
  ⟨by decide, ⟨_, rfl, by decide, by decide⟩, by decide⟩

/-- C26, as the code has it: on a state of matching shape in which, for every
resource `j`, `Available[j]` in magnitude plus all `Allocation[i][j]` is at
most `2 ^ 53`, `checkSafety(true)` returns a trace made of the initial step
(numbered 0, work equal to Available, all flags false), then one step per
admitted process in the order of admission, the one at position `k` (counted
from 0) numbered `k + 1`, naming `safeSequence[k]` and carrying Available plus
the Allocation rows of `safeSequence[0..k]` as work and the flags of those
processes as finish, then a final step that carries the returned verdict; the
final step is numbered one more than the number of passes made.  On such a
state `checkSafety(false)` returns the same verdict and sequence with an empty
list of steps. -/
theorem checkSafety_trace_shape (b : BankerAlgorithm) (h : WellShaped b)
    (hm : SafeMagnitude b) :
    (∃ r last, checkSafetyRounded b true = .ok r ∧
      r.steps = traceOf b r.safeSequence ++ [last] ∧
      last.step = (if r.isSafe then r.safeSequence.length + 1 else r.safeSequence.length + 2) ∧
      last.processIndex = none ∧
      last.description = .verdict r.isSafe ∧
      last.work = workVector b r.safeSequence ∧
      last.finish = finishFlags b r.safeSequence ∧
      last.safeSequence = r.safeSequence ∧
      last.isSafe = some r.isSafe ∧
      ∃ r0, checkSafetyRounded b false = .ok r0 ∧ r0.steps = [] ∧
        r0.isSafe = r.isSafe ∧ r0.safeSequence = r.safeSequence) ∧
    (∀ r0, checkSafetyRounded b false = .ok r0 → r0.steps = []) := by
  rw [checkSafetyRounded_eq b true h hm, checkSafetyRounded_eq b false h hm]
  exact checkSafety_trace_shape_exact b h

/-- Witness of the amended C26 on spec scenario 1. -/
theorem checkSafety_trace_shape_witness :
    WellShaped demoScenario1 ∧ SafeMagnitude demoScenario1 ∧
    ((∃ r last, checkSafetyRounded demoScenario1 true = .ok r ∧
      r.steps = traceOf demoScenario1 r.safeSequence ++ [last] ∧
      last.step = (if r.isSafe then r.safeSequence.length + 1 else r.safeSequence.length + 2) ∧
      last.processIndex = none ∧
      last.description = .verdict r.isSafe ∧
      last.work = workVector demoScenario1 r.safeSequence ∧
      last.finish = finishFlags demoScenario1 r.safeSequence ∧
      last.safeSequence = r.safeSequence ∧
      last.isSafe = some r.isSafe ∧
      ∃ r0, checkSafetyRounded demoScenario1 false = .ok r0 ∧ r0.steps = [] ∧
        r0.isSafe = r.isSafe ∧ r0.safeSequence = r.safeSequence) ∧
    (∀ r0, checkSafetyRounded demoScenario1 false = .ok r0 → r0.steps = [])) :=
  ⟨by decide, by decide, checkSafety_trace_shape demoScenario1 (by decide) (by decide)⟩

/-! ## The request evaluator with the source's arithmetic -/

theorem vectorAddRounded_eq (a : List Int) : ∀ v : List Int,
    (∀ (t : Nat) (x y : Int), a[t]? = some x → v[t]? = some y → InExactRange (x + y)) →
    vectorAddRounded a v = vectorAdd a v := by
  induction a with
  | nil => intro v _; rfl
  | cons x xs ih =>
    intro v hs
    cases v with
    | nil => rfl
    | cons y ys =>
      unfold vectorAddRounded vectorAdd
      rw [numberAdd_of_inExactRange x y (hs 0 x y (by simp) (by simp)),
        ih ys (fun t x1 y1 hx hy => hs (t + 1) x1 y1 (by simpa using hx) (by simpa using hy))]

theorem vectorSubtractRounded_eq (a : List Int) : ∀ v : List Int,
    (∀ (t : Nat) (x y : Int), a[t]? = some x → v[t]? = some y → InExactRange (x - y)) →
    vectorSubtractRounded a v = vectorSubtract a v := by
  induction a with
  | nil => intro v _; rfl
  | cons x xs ih =>
    intro v hs
    cases v with
    | nil => rfl
    | cons y ys =>
      unfold vectorSubtractRounded vectorSubtract
      rw [numberSubtract_of_inExactRange x y (hs 0 x y (by simp) (by simp)),
        ih ys (fun t x1 y1 hx hy => hs (t + 1) x1 y1 (by simpa using hx) (by simpa using hy))]

theorem lt_length_of_getElem? {α : Type} (l : List α) (t : Nat) (x : α) (h : l[t]? = some x) :
    t < l.length := by
  rcases Nat.lt_or_ge t l.length with hlt | hge
  · exact hlt
  · rw [List.getElem?_eq_none hge] at h; cases h

/-- What `requestResources` computes with the source's arithmetic, when the
request stays within the limits of the source's numbers. -/
theorem requestResourcesRounded_form (b : BankerAlgorithm) (i : Int) (request : List Int)
    (h : WellShaped b) (hreq : ValidRequest b i request)
    (hs : SafeRequest b i.toNat request) :
    requestResourcesRounded b i request =
      if Within b request (b.need.getD i.toNat []) then
        if Within b request b.available then
          settle b (speculativeApply b i.toNat request)
            (checkSafetyRounded (speculativeApply b i.toNat request) false)
        else (b, .ok deniedInsufficient)
      else (b, .ok deniedRequestExceeds) := by
  obtain ⟨hi0, hiP, hlen⟩ := hreq
  have hi : i.toNat < b.processes.toNat := by omega
  have hR : request.length = b.resources.toNat := by omega
  obtain ⟨nrow, hnrow, hnlen, _⟩ := h.need_row hi
  obtain ⟨arow, harow, halen, _⟩ := h.allocation_row hi
  have hN : index b.need i = some nrow := by rw [index_of_nonneg _ _ hi0, hnrow]
  have hA : index b.allocation i = some arow := by rw [index_of_nonneg _ _ hi0, harow]
  have hnD : b.need.getD i.toNat [] = nrow := getD_of_getElem? _ _ _ _ hnrow
  have haD : b.allocation.getD i.toNat [] = arow := getD_of_getElem? _ _ _ _ harow
  have h1 := within_iff_vectorLessOrEqual b request nrow hR hnlen
  have h2 := within_iff_vectorLessOrEqual b request b.available hR h.available_length
  unfold requestResourcesRounded
  rw [hN, h1, hnD]
  by_cases hw1 : Within b request nrow
  · rw [if_pos hw1]
    simp only [hw1, decide_True]
    rw [h2]
    by_cases hw2 : Within b request b.available
    · rw [if_pos hw2]
      obtain ⟨hcells, _⟩ := hs (by rw [hnD]; exact hw1) hw2
      have h3 : vectorSubtractRounded b.available request
          = .ok (List.zipWith (fun x y => x - y) b.available request) := by
        rw [vectorSubtractRounded_eq, vectorSubtract_eq b.available request
          (by rw [h.available_length, hR])]
        intro t x y hx hy
        have ht : t < b.resources.toNat := by
          rw [← h.available_length]; exact lt_length_of_getElem? _ _ _ hx
        have := (hcells t ht).1
        rw [getD_of_getElem? _ _ _ _ hx, getD_of_getElem? _ _ _ _ hy] at this
        exact this
      have h4 : vectorAddRounded arow request
          = .ok (List.zipWith (fun x y => x + y) arow request) := by
        rw [vectorAddRounded_eq, vectorAdd_eq arow request (by omega)]
        intro t x y hx hy
        have ht : t < b.resources.toNat := by
          rw [← halen]; exact lt_length_of_getElem? _ _ _ hx
        have := (hcells t ht).2.1
        unfold entry at this
        rw [haD, getD_of_getElem? _ _ _ _ hx, getD_of_getElem? _ _ _ _ hy] at this
        exact this
      have h5 : vectorSubtractRounded nrow request
          = .ok (List.zipWith (fun x y => x - y) nrow request) := by
        rw [vectorSubtractRounded_eq, vectorSubtract_eq nrow request (by omega)]
        intro t x y hx hy
        have ht : t < b.resources.toNat := by
          rw [← hnlen]; exact lt_length_of_getElem? _ _ _ hx
        have := (hcells t ht).2.2
        unfold entry at this
        rw [hnD, getD_of_getElem? _ _ _ _ hx, getD_of_getElem? _ _ _ _ hy] at this
        exact this
      simp only [hw2, decide_True, hA, h3, h4, h5]
      have hspec : speculativeApply b i.toNat request =
          { b with
            available := List.zipWith (fun x y => x - y) b.available request
            allocation := b.allocation.set i.toNat (List.zipWith (fun x y => x + y) arow request)
            need := b.need.set i.toNat (List.zipWith (fun x y => x - y) nrow request) } := by
        unfold speculativeApply
        rw [hnD, haD]
      rw [hspec]
      cases hc : checkSafetyRounded
          { b with
            available := List.zipWith (fun x y => x - y) b.available request
            allocation := b.allocation.set i.toNat (List.zipWith (fun x y => x + y) arow request)
            need := b.need.set i.toNat (List.zipWith (fun x y => x - y) nrow request) } false with
      | error e => rfl
      | ok r =>
        cases hsafe : r.isSafe with
        | true => simp [settle, hsafe]
        | false =>
          simp only [settle, hsafe, List.set_set, set_getElem?_self _ _ _ hnrow,
            set_getElem?_self _ _ _ harow]
    · rw [if_neg hw2]
      simp only [hw2, decide_False]
  · rw [if_neg hw1]
    simp only [hw1, decide_False]

/-- For a request within the limits of the source's numbers, the request
evaluator with the source's arithmetic is the one with exact arithmetic. -/
theorem requestResourcesRounded_eq (b : BankerAlgorithm) (i : Int) (request : List Int)
    (h : WellShaped b) (hreq : ValidRequest b i request)
    (hs : SafeRequest b i.toNat request) :
    requestResourcesRounded b i request = requestResources b i request := by
  rw [requestResourcesRounded_form b i request h hreq hs, requestResources_eq b i request h hreq]
  by_cases hw1 : Within b request (b.need.getD i.toNat [])
  · by_cases hw2 : Within b request b.available
    · rw [if_pos hw1, if_pos hw2, if_pos hw1, if_pos hw2,
        checkSafetyRounded_eq _ false (speculativeApply_wellShaped b i request h hreq)
          (hs hw1 hw2).2]
    · rw [if_pos hw1, if_neg hw2, if_pos hw1, if_neg hw2]
  · rw [if_neg hw1, if_neg hw1]

/-- C7, as the code has it: the claim that the state is never changed fails, as
`requestResources` works on `this` and keeps the speculative apply when it
approves.  For a state of matching shape, a process index in `[0, P)` and a
request of length `R` that stays within the limits of the source's numbers
(every sum and difference formed has magnitude at most `2 ^ 53`), the state
after the call equals the state before it exactly when the request is denied
or the request is zero in every component. -/
theorem requestResources_unchanged_iff (b : BankerAlgorithm) (i : Int) (request : List Int)
    (h : WellShaped b) (hreq : ValidRequest b i request)
    (hs : SafeRequest b i.toNat request) :
    ∃ res, (requestResourcesRounded b i request).2 = .ok res ∧
      ((requestResourcesRounded b i request).1 = b ↔
        (res.approved = false ∨ ∀ x ∈ request, x = 0)) := by
  rw [requestResourcesRounded_eq b i request h hreq hs]
  exact requestResources_unchanged_iff_exact b i request h hreq

/-- Witness of the amended C7: process 1 of scenario 1 asks for `[1, 0, 2]`. -/
theorem requestResources_unchanged_iff_witness :
    WellShaped demoScenario1 ∧ ValidRequest demoScenario1 1 [1, 0, 2] ∧
    SafeRequest demoScenario1 (1 : Int).toNat [1, 0, 2] ∧
    ∃ res, (requestResourcesRounded demoScenario1 1 [1, 0, 2]).2 = .ok res ∧
      ((requestResourcesRounded demoScenario1 1 [1, 0, 2]).1 = demoScenario1 ↔
        (res.approved = false ∨ ∀ x ∈ [(1 : Int), 0, 2], x = 0)) :=
  ⟨by decide, by decide, by decide,
    requestResources_unchanged_iff demoScenario1 1 [1, 0, 2] (by decide) (by decide)
      (by decide)⟩

/-- Counterexample to C8 as stated: with Available `[2]`, Max `[[2 ^ 53 + 2]]`,
Allocation `[[2 ^ 53]]` and Need `[[2]]` (a state that satisfies the invariants
of the data model) the request `[1]` of process 0 is approved, Available and
Need go down by 1, and Allocation stays `[[2 ^ 53]]`: the sum `2 ^ 53 + 1` is
rounded to `2 ^ 53`, so Allocation is not the old Allocation plus the request. -/
theorem requestResources_absorbs_request :
    WellShaped absorbsRequest ∧ NeedConsistent absorbsRequest ∧
    AllocationWithinMax absorbsRequest ∧ AvailableNonneg absorbsRequest ∧
    AllocationNonneg absorbsRequest ∧ ValidRequest absorbsRequest 0 [1] ∧
    requestResourcesRounded absorbsRequest 0 [1]
      = ({ absorbsRequest with available := [1], allocation := [[9007199254740992]],
                               need := [[1]] },
          .ok (approvedWith [0])) ∧
    entry (requestResourcesRounded absorbsRequest 0 [1]).1.allocation 0 0
      ≠ entry absorbsRequest.allocation 0 0 + ([1] : List Int).getD 0 0 := by
  decide

/-- C8, as the code has it: for a state of matching shape, a process index `i`
in `[0, P)` and a request of length `R` that stays within the limits of the
source's numbers (every sum and difference formed has magnitude at most
`2 ^ 53`), if `requestResources` approves, the state it leaves has
Available = old Available - request, Allocation[i] = old Allocation[i] + request
and Need[i] = old Need[i] - request componentwise, while `processes`,
`resources`, Max and every other row of Allocation and Need are as before (and
the shape is kept). -/
theorem requestResources_approved_effect (b : BankerAlgorithm) (i : Int)
    (request : List Int) (h : WellShaped b) (hreq : ValidRequest b i request)
    (hs : SafeRequest b i.toNat request) :
    ∃ res, (requestResourcesRounded b i request).2 = .ok res ∧
      (res.approved = true →
        (requestResourcesRounded b i request).1.processes = b.processes ∧
        (requestResourcesRounded b i request).1.resources = b.resources ∧
        (requestResourcesRounded b i request).1.max = b.max ∧
        WellShaped (requestResourcesRounded b i request).1 ∧
        (∀ j, j < b.resources.toNat →
          (requestResourcesRounded b i request).1.available.getD j 0
            = b.available.getD j 0 - request.getD j 0) ∧
        (∀ j, j < b.resources.toNat →
          entry (requestResourcesRounded b i request).1.allocation i.toNat j
            = entry b.allocation i.toNat j + request.getD j 0) ∧
        (∀ j, j < b.resources.toNat →
          entry (requestResourcesRounded b i request).1.need i.toNat j
            = entry b.need i.toNat j - request.getD j 0) ∧
        (∀ k, k ≠ i.toNat →
          (requestResourcesRounded b i request).1.allocation[k]? = b.allocation[k]? ∧
          (requestResourcesRounded b i request).1.need[k]? = b.need[k]?)) := by
  rw [requestResourcesRounded_eq b i request h hreq hs]
  exact requestResources_approved_effect_exact b i request h hreq

/-- Witness of the amended C8: process 1 of scenario 1 asks for `[1, 0, 2]` and
is approved. -/
theorem requestResources_approved_effect_witness :
    WellShaped demoScenario1 ∧ ValidRequest demoScenario1 1 [1, 0, 2] ∧
    SafeRequest demoScenario1 (1 : Int).toNat [1, 0, 2] ∧
    ∃ res, (requestResourcesRounded demoScenario1 1 [1, 0, 2]).2 = .ok res ∧
      (res.approved = true →
        (requestResourcesRounded demoScenario1 1 [1, 0, 2]).1.processes
          = demoScenario1.processes ∧
        (requestResourcesRounded demoScenario1 1 [1, 0, 2]).1.resources
          = demoScenario1.resources ∧
        (requestResourcesRounded demoScenario1 1 [1, 0, 2]).1.max = demoScenario1.max ∧
        WellShaped (requestResourcesRounded demoScenario1 1 [1, 0, 2]).1 ∧
        (∀ j, j < demoScenario1.resources.toNat →
          (requestResourcesRounded demoScenario1 1 [1, 0, 2]).1.available.getD j 0
            = demoScenario1.available.getD j 0 - [(1 : Int), 0, 2].getD j 0) ∧
        (∀ j, j < demoScenario1.resources.toNat →
          entry (requestResourcesRounded demoScenario1 1 [1, 0, 2]).1.allocation
              (1 : Int).toNat j
            = entry demoScenario1.allocation (1 : Int).toNat j + [(1 : Int), 0, 2].getD j 0) ∧
        (∀ j, j < demoScenario1.resources.toNat →
          entry (requestResourcesRounded demoScenario1 1 [1, 0, 2]).1.need (1 : Int).toNat j
            = entry demoScenario1.need (1 : Int).toNat j - [(1 : Int), 0, 2].getD j 0) ∧
        (∀ k, k ≠ (1 : Int).toNat →
          (requestResourcesRounded demoScenario1 1 [1, 0, 2]).1.allocation[k]?
            = demoScenario1.allocation[k]? ∧
          (requestResourcesRounded demoScenario1 1 [1, 0, 2]).1.need[k]?
            = demoScenario1.need[k]?)) :=
  ⟨by decide, by decide, by decide,
    requestResources_approved_effect demoScenario1 1 [1, 0, 2] (by decide) (by decide)
      (by decide)⟩

/-- Counterexample to C13 as stated: with Available `[2]` and Allocation
`[[2 ^ 53]]` the supply of resource 0 is `2 ^ 53 + 2`; the request `[1]` of
process 0 is approved and leaves Available `[1]` and Allocation `[[2 ^ 53]]`, a
supply of `2 ^ 53 + 1`. -/
theorem requestResources_loses_supply :
    WellShaped absorbsRequest ∧ ValidRequest absorbsRequest 0 [1] ∧
    (requestResourcesRounded absorbsRequest 0 [1]).2 = .ok (approvedWith [0]) ∧
    totalSupply absorbsRequest 0 = 9007199254740994 ∧
    totalSupply (requestResourcesRounded absorbsRequest 0 [1]).1 0 = 9007199254740993 := by
  decide

/-- C13, as the code has it: for a state of matching shape, a process index
in `[0, P)` and a request of length `R` that stays within the limits of the
source's numbers (every sum and difference formed has magnitude at most
`2 ^ 53`), `requestResources` returns, and for every resource `j` the sum over
all processes of `Allocation[i][j]` plus `Available[j]` is the same after the
call as before it, approved or denied. -/
theorem requestResources_conserves_supply (b : BankerAlgorithm) (i : Int)
    (request : List Int) (h : WellShaped b) (hreq : ValidRequest b i request)
    (hs : SafeRequest b i.toNat request) :
    ∃ res, (requestResourcesRounded b i request).2 = .ok res ∧
      ∀ j, totalSupply (requestResourcesRounded b i request).1 j = totalSupply b j := by
  rw [requestResourcesRounded_eq b i request h hreq hs]
  exact requestResources_conserves_supply_exact b i request h hreq

/-- Witness of the amended C13: process 1 of scenario 1 asks for `[1, 0, 2]`
(approved). -/
theorem requestResources_conserves_supply_witness :
    WellShaped demoScenario1 ∧ ValidRequest demoScenario1 1 [1, 0, 2] ∧
    SafeRequest demoScenario1 (1 : Int).toNat [1, 0, 2] ∧
    ∃ res, (requestResourcesRounded demoScenario1 1 [1, 0, 2]).2 = .ok res ∧
      ∀ j, totalSupply (requestResourcesRounded demoScenario1 1 [1, 0, 2]).1 j
        = totalSupply demoScenario1 j :=
  ⟨by decide, by decide, by decide,
    requestResources_conserves_supply demoScenario1 1 [1, 0, 2] (by decide) (by decide)
      (by decide)⟩

/-! ## Sequences of calls with the source's arithmetic -/

theorem needLoopRounded_eq (maxRow allocationRow : List Int) :
    ∀ (n j : Nat) (needRow : List Int),
    (∀ (t : Nat), j ≤ t → t < j + n → ∀ (m a : Int), maxRow[t]? = some m →
      allocationRow[t]? = some a → InExactRange (m - a)) →
    needLoopRounded maxRow allocationRow n j needRow
      = needLoop maxRow allocationRow n j needRow := by
  intro n
  induction n with
  | zero => intro j needRow _; rfl
  | succ n ih =>
    intro j needRow hs
    unfold needLoopRounded needLoop
    cases hm : maxRow[j]? with
    | none => rfl
    | some m =>
      cases ha : allocationRow[j]? with
      | none => rfl
      | some a =>
        simp only
        rw [numberSubtract_of_inExactRange m a (hs j (le_refl _) (by omega) m a hm ha)]
        simp only
        cases hrow : assign needRow (j : Int) (m - a) with
        | none => rfl
        | some row =>
          simp only
          exact ih (j + 1) row (fun t ht1 ht2 => hs t (by omega) (by omega))

theorem calculateNeedRounded_eq (b : BankerAlgorithm) (i : Int) (hs : RowExact b i.toNat) :
    calculateNeedRounded b i = calculateNeed b i := by
  unfold calculateNeedRounded calculateNeed
  by_cases hR : b.resources.toNat = 0
  · rw [if_pos hR, if_pos hR]
  · rw [if_neg hR, if_neg hR]
    cases hn : index b.need i with
    | none => rfl
    | some needRow =>
      cases hm : index b.max i with
      | none => rfl
      | some maxRow =>
        cases ha : index b.allocation i with
        | none => rfl
        | some allocationRow =>
          simp only
          rw [needLoopRounded_eq]
          intro t _ ht m a hmt hat
          have hi0 : 0 ≤ i := by
            by_contra hneg
            unfold index at hm
            rw [if_neg hneg] at hm
            cases hm
          rw [index_of_nonneg _ _ hi0] at hm ha
          have := hs t (by omega)
          unfold entry at this
          rw [getD_of_getElem? _ _ _ _ hm, getD_of_getElem? _ _ _ _ ha,
            getD_of_getElem? _ _ _ _ hmt, getD_of_getElem? _ _ _ _ hat] at this
          exact this

theorem setMaxRounded_eq (b : BankerAlgorithm) (i : Int) (values : List Int) (hi0 : 0 ≤ i)
    (hi : i < (b.max.length : Int))
    (hs : ∀ j, j < b.resources.toNat →
      InExactRange (values.getD j 0 - entry b.allocation i.toNat j)) :
    setMaxRounded b i values = setMax b i values := by
  unfold setMaxRounded setMax
  rw [assign_of_range _ _ _ hi0 hi]
  simp only
  apply calculateNeedRounded_eq
  intro j hj
  have hlt : i.toNat < b.max.length := by omega
  have : entry (b.max.set i.toNat values) i.toNat j = values.getD j 0 := by
    simp [entry, List.getD_eq_getElem?_getD, List.getElem?_set_self hlt]
  show InExactRange (entry (b.max.set i.toNat values) i.toNat j - entry b.allocation i.toNat j)
  rw [this]
  exact hs j hj

theorem setAllocationRounded_eq (b : BankerAlgorithm) (i : Int) (values : List Int)
    (hi0 : 0 ≤ i) (hi : i < (b.allocation.length : Int))
    (hs : ∀ j, j < b.resources.toNat →
      InExactRange (entry b.max i.toNat j - values.getD j 0)) :
    setAllocationRounded b i values = setAllocation b i values := by
  unfold setAllocationRounded setAllocation
  rw [assign_of_range _ _ _ hi0 hi]
  simp only
  apply calculateNeedRounded_eq
  intro j hj
  have hlt : i.toNat < b.allocation.length := by omega
  have : entry (b.allocation.set i.toNat values) i.toNat j = values.getD j 0 := by
    simp [entry, List.getD_eq_getElem?_getD, List.getElem?_set_self hlt]
  show InExactRange (entry b.max i.toNat j - entry (b.allocation.set i.toNat values) i.toNat j)
  rw [this]
  exact hs j hj

theorem allNeedsLoopRounded_eq : ∀ (n i : Nat) (b : BankerAlgorithm),
    (∀ k, i ≤ k → k < i + n → RowExact b k) →
    allNeedsLoopRounded n i b = allNeedsLoop n i b := by
  intro n
  induction n with
  | zero => intro i b _; rfl
  | succ n ih =>
    intro i b hs
    unfold allNeedsLoopRounded allNeedsLoop
    have hi : RowExact b ((i : Int)).toNat := by
      rw [Int.toNat_ofNat]; exact hs i (le_refl _) (by omega)
    rw [calculateNeedRounded_eq b (i : Int) hi]
    obtain ⟨f1, _, f3, f4⟩ := calculateNeed_frame b i
    cases hc : calculateNeed b (i : Int) with
    | mk b1 out =>
      rw [hc] at f1 f3 f4
      cases out with
      | error e => rfl
      | ok u =>
        simp only
        apply ih
        intro k hk1 hk2 j hj
        have hj1 : j < b.resources.toNat := by rw [← f1]; exact hj
        have := hs k (by omega) (by omega) j hj1
        show InExactRange (entry b1.max k j - entry b1.allocation k j)
        rw [show b1.max = b.max from f3, show b1.allocation = b.allocation from f4]
        exact this

theorem applyOpRounded_eq (P R : Int) (b : BankerAlgorithm) (op : Op) (hk : Kept P R b)
    (hv : op.Valid P R) (hs : SafeOp b op) : applyOpRounded b op = applyOp b op := by
  obtain ⟨hP, hR, _, hwf⟩ := hk
  cases op with
  | setAvailable values => rfl
  | setMax i values =>
    obtain ⟨v1, v2, _⟩ := (hv : 0 ≤ i ∧ i < P ∧ (values.length : Int) = R)
    have hw := hwf (by omega)
    exact setMaxRounded_eq b i values v1 (by rw [hw.2.1.1, hP]; exact v2) hs
  | setAllocation i values =>
    obtain ⟨v1, v2, _⟩ := (hv : 0 ≤ i ∧ i < P ∧ (values.length : Int) = R)
    have hw := hwf (by omega)
    exact setAllocationRounded_eq b i values v1 (by rw [hw.2.2.1.1, hP]; exact v2) hs
  | calculateNeed i => exact calculateNeedRounded_eq b i hs
  | calculateAllNeeds =>
    exact allNeedsLoopRounded_eq b.processes.toNat 0 b
      (fun k _ hk2 => (hs : ∀ i, i < b.processes.toNat → RowExact b i) k (by omega))
  | requestResources i request =>
    obtain ⟨v1, v2, v3⟩ := (hv : 0 ≤ i ∧ i < P ∧ (request.length : Int) = R)
    have hw := hwf (by omega)
    have hreq : ValidRequest b i request := ⟨v1, by omega, by omega⟩
    show (match requestResourcesRounded b i request with
      | (b1, .ok _) => (b1, .ok ())
      | (b1, .error e) => (b1, .error e)) = applyOp b (.requestResources i request)
    rw [requestResourcesRounded_eq b i request hw hreq hs]
    rfl

theorem applyOpsRounded_eq (P R : Int) : ∀ (ops : List Op) (b : BankerAlgorithm),
    Kept P R b → (∀ op ∈ ops, op.Valid P R) → SafeRun b ops →
    applyOpsRounded b ops = applyOps b ops := by
  intro ops
  induction ops with
  | nil => intro b _ _ _; rfl
  | cons op ops ih =>
    intro b hk hv hs
    obtain ⟨hs1, hs2⟩ := hs
    have hop := hv op (List.mem_cons_self _ _)
    have heq := applyOpRounded_eq P R b op hk hop hs1
    obtain ⟨k1, k2⟩ := applyOp_kept P R b op hk hop
    rw [heq] at hs2
    unfold applyOpsRounded applyOps
    rw [heq]
    cases hc : applyOp b op with
    | mk b1 out =>
      rw [hc] at k1 k2 hs2
      cases out with
      | error e => rfl
      | ok u =>
        simp only
        exact ih b1 k2 (fun o ho => hv o (List.mem_cons_of_mem _ ho)) hs2

theorem SafeRun.take : ∀ (ops : List Op) (b : BankerAlgorithm) (k : Nat),
    SafeRun b ops → SafeRun b (ops.take k) := by
  intro ops
  induction ops with
  | nil => intro b k h; simpa using h
  | cons op ops ih =>
    intro b k h
    cases k with
    | zero => exact trivial
    | succ k => exact ⟨h.1, ih _ k h.2⟩

/-- Counterexample to C12 as stated: `initialize(1, 1)`, then
`setAvailable([2])`, `setMax(0, [2 ^ 53 + 2])`, `setAllocation(0, [2 ^ 53])` and
`requestResources(0, [1])`, all with the index in `[0, P)` and vectors of length
`R`.  No call throws; the request is approved, Need goes from 2 to 1 and
Allocation stays `2 ^ 53`, as `2 ^ 53 + 1` is rounded to it: Need is 1 and
Max - Allocation is 2. -/
theorem need_drifts_past_exact_range :
    (∀ op ∈ driftingRun, op.Valid 1 1) ∧
    (initializeState scenario3 1 1).2 = .ok () ∧
    applyOpsRounded (initializeState scenario3 1 1).1 driftingRun
      = ({ processes := 1, resources := 1, available := [1],
           max := [[9007199254740994]], allocation := [[9007199254740992]],
           need := [[1]] }, .ok ()) ∧
    ¬ NeedConsistent (applyOpsRounded (initializeState scenario3 1 1).1 driftingRun).1 := by
  decide

/-- C12, as the code has it: start from `initialize(P, R)` with
`0 <= R < 2 ^ 32` and `P < 2 ^ 32` and make any sequence of calls of
`setAvailable`, `setMax`, `setAllocation`, `calculateNeed`, `calculateAllNeeds`
and `requestResources` with process indices in `[0, P)` and vectors of length
`R`, each of which stays within the limits of the source's numbers on the
state it is made on (every sum and difference it forms has magnitude at most
`2 ^ 53`); then no call throws, and after `initialize` and after every call
`Need[i][j] = Max[i][j] - Allocation[i][j]` holds for every `i` and `j`. -/
theorem need_never_drifts (b0 : BankerAlgorithm) (P R : Int) (hR : 0 ≤ R)
    (hR2 : R < 4294967296) (hP2 : P < 4294967296) (ops : List Op)
    (hv : ∀ op ∈ ops, op.Valid P R) (hs : SafeRun (initializeState b0 P R).1 ops) :
    (initializeState b0 P R).2 = .ok () ∧
    ∀ k, (applyOpsRounded (initializeState b0 P R).1 (ops.take k)).2 = .ok () ∧
      NeedConsistent (applyOpsRounded (initializeState b0 P R).1 (ops.take k)).1 := by
  obtain ⟨h1, h2⟩ := need_never_drifts_exact b0 P R hR hR2 hP2 ops hv
  refine ⟨h1, ?_⟩
  intro k
  rw [applyOpsRounded_eq P R (ops.take k) _ (initializeState_kept b0 P R hR hR2 hP2).2
    (fun op hop => hv op (List.mem_of_mem_take hop)) (SafeRun.take ops _ k hs)]
  exact h2 k

/-- Witness of the amended C12: a run of seven calls on a 2 x 2 state. -/
theorem need_never_drifts_witness :
    (0 : Int) ≤ 2 ∧ (2 : Int) < 4294967296 ∧ (∀ op ∈ exampleRun, op.Valid 2 2) ∧
    SafeRun (initializeState scenario3 2 2).1 exampleRun ∧
    (initializeState scenario3 2 2).2 = .ok () ∧
    ∀ k, (applyOpsRounded (initializeState scenario3 2 2).1 (exampleRun.take k)).2 = .ok () ∧
      NeedConsistent (applyOpsRounded (initializeState scenario3 2 2).1 (exampleRun.take k)).1 :=
  ⟨by decide, by decide, by decide, by decide,
    need_never_drifts scenario3 2 2 (by decide) (by decide) (by decide) exampleRun
      (by decide) (by decide)⟩

end Banker
